import Mathlib

/-!
# 2fauth: the TOTP derivation and the account store

A shallow embedding of `main.go`.

* A Go `byte` is a natural number below 256; a Go `string` or `[]byte` is the list of
  its bytes (`Bytes`).
* `int64` values are integers, `uint32` arithmetic is arithmetic modulo `2 ^ 32`.
* Code that can panic at run time (indexing, slicing) returns `Option`, with `none` for
  the panic.
* The Go standard library functions the program calls (`crypto/sha1`, `crypto/hmac`,
  `encoding/base32`, `encoding/json`, `strings`, `unicode/utf8`) are modelled by
  executable definitions in the namespaces `Sha1`, `Base32`, `Json`, `Utf8` and `Strings`.
-/

set_option maxRecDepth 100000

namespace TwoFAuth

/-- A Go `string` or `[]byte`: the list of its bytes. -/
abbrev Bytes := List Nat

/-- Every element is a byte value. -/
def IsBytes (s : Bytes) : Prop := ∀ b ∈ s, b < 256

instance (s : Bytes) : Decidable (IsBytes s) := by
  unfold IsBytes
  infer_instance

/-- The range of Go's `int64`, from `-2 ^ 63` to `2 ^ 63 - 1`. -/
def IsInt64 (v : Int) : Prop := -9223372036854775808 ≤ v ∧ v ≤ 9223372036854775807

instance (v : Int) : Decidable (IsInt64 v) := by
  unfold IsInt64
  infer_instance

/-! ## `crypto/sha1` and `crypto/hmac` (FIPS 180-4, RFC 2104) -/

namespace Sha1

/-- Rotate a 32-bit word left by `n` bits. -/
def rotl (n x : Nat) : Nat := ((x <<< n) ||| (x >>> (32 - n))) % 2 ^ 32

/-- The round function of round `t`. -/
def f (t b c d : Nat) : Nat :=
  if t < 20 then (b &&& c) ||| ((b ^^^ 0xFFFFFFFF) &&& d)
  else if t < 40 then b ^^^ c ^^^ d
  else if t < 60 then (b &&& c) ||| (b &&& d) ||| (c &&& d)
  else b ^^^ c ^^^ d

/-- The round constant of round `t`. -/
def k (t : Nat) : Nat :=
  if t < 20 then 0x5A827999
  else if t < 40 then 0x6ED9EBA1
  else if t < 60 then 0x8F1BBCDC
  else 0xCA62C1D6

/-- The five 32-bit chaining words. -/
structure State where
  h0 : Nat
  h1 : Nat
  h2 : Nat
  h3 : Nat
  h4 : Nat

/-- The initial chaining value. -/
def init : State := ⟨0x67452301, 0xEFCDAB89, 0x98BADCFE, 0x10325476, 0xC3D2E1F0⟩

/-- A big-endian 32-bit word from four bytes. -/
def word (b0 b1 b2 b3 : Nat) : Nat := (b0 * 2 ^ 24 + b1 * 2 ^ 16 + b2 * 2 ^ 8 + b3) % 2 ^ 32

/-- The big-endian words of a block. -/
def words : List Nat → List Nat
  | b0 :: b1 :: b2 :: b3 :: rest => word b0 b1 b2 b3 :: words rest
  | _ => []

/-- Run `n` rounds from round `t`; `w` is the sliding window of the 16 latest schedule
words, `w[0]` being the word of round `t`. -/
def rounds : Nat → Nat → List Nat → State → State
  | 0, _, _, s => s
  | n + 1, t, w, s =>
    let wt := w.getD 0 0
    let nw := rotl 1 (w.getD 13 0 ^^^ w.getD 8 0 ^^^ w.getD 2 0 ^^^ wt)
    let tmp := (rotl 5 s.h0 + f t s.h1 s.h2 s.h3 + s.h4 + k t + wt) % 2 ^ 32
    rounds n (t + 1) (w.drop 1 ++ [nw]) ⟨tmp, s.h0, rotl 30 s.h1, s.h2, s.h3⟩

/-- The compression function on one 64-byte block. -/
def block (s : State) (blk : List Nat) : State :=
  let r := rounds 80 0 (words blk) s
  ⟨(s.h0 + r.h0) % 2 ^ 32, (s.h1 + r.h1) % 2 ^ 32, (s.h2 + r.h2) % 2 ^ 32,
   (s.h3 + r.h3) % 2 ^ 32, (s.h4 + r.h4) % 2 ^ 32⟩

/-- Compress `n` consecutive 64-byte blocks of `msg`. -/
def blocks : Nat → List Nat → State → State
  | 0, _, s => s
  | n + 1, msg, s => blocks n (msg.drop 64) (block s (msg.take 64))

/-- The `n`-byte big-endian encoding of `x` (its low `8 * n` bits). -/
def be (n : Nat) (x : Nat) : List Nat :=
  (List.range n).map fun i => (x >>> (8 * (n - 1 - i))) % 256

/-- Message padding: a `0x80` byte, zero bytes up to 56 modulo 64, the bit length. -/
def pad (msg : List Nat) : List Nat :=
  msg ++ [0x80] ++ List.replicate ((119 - msg.length % 64) % 64) 0 ++ be 8 (8 * msg.length)

/-- The 20-byte SHA-1 digest (`sha1.Sum`). -/
def sum (msg : List Nat) : List Nat :=
  let p := pad msg
  let s := blocks (p.length / 64) p init
  be 4 s.h0 ++ be 4 s.h1 ++ be 4 s.h2 ++ be 4 s.h3 ++ be 4 s.h4

end Sha1

/-- The digest `hmac.New(sha1.New, key)` returns after `Write(value)` and `Sum(nil)`:
a key longer than the 64-byte block is hashed first, then zero-padded to 64 bytes. -/
def hmacSha1 (key value : Bytes) : Bytes :=
  let k0 := if key.length > 64 then Sha1.sum key else key
  let k1 := k0 ++ List.replicate (64 - k0.length) 0
  let inner := Sha1.sum (k1.map (· ^^^ 0x36) ++ value)
  Sha1.sum (k1.map (· ^^^ 0x5c) ++ inner)

/-! ## `toBytes`, `toUint32`, `oneTimePassword` -/

/-- The array `shifts` of `toBytes`. -/
def shifts : List Nat := [56, 48, 40, 32, 24, 16, 8, 0]

/-- `toBytes`: for each shift, append `byte((value >> shift) & 0xFF)`. The shift of an
`int64` is arithmetic (`Int.shiftRight`), and masking a two's-complement value with
`0xFF` is the remainder modulo 256. -/
def toBytes (value : Int) : Bytes :=
  shifts.foldl (fun result shift => result ++ [(Int.shiftRight value shift % 256).toNat]) []

/-- Reduction of an arithmetic result to `uint32`. -/
def u32 (x : Nat) : Nat := x % 2 ^ 32

/-- `toUint32`: `(uint32(bytes[0]) << 24) + (uint32(bytes[1]) << 16) +
(uint32(bytes[2]) << 8) + uint32(bytes[3])` in `uint32` arithmetic; `none` when an index
is out of range. -/
def toUint32 (bytes : Bytes) : Option Nat := do
  let b0 ← bytes[0]?
  let b1 ← bytes[1]?
  let b2 ← bytes[2]?
  let b3 ← bytes[3]?
  pure (u32 (u32 (u32 (u32 (u32 b0 <<< 24) + u32 (u32 b1 <<< 16)) + u32 (u32 b2 <<< 8))
    + u32 b3))

/-- The truncation part of `oneTimePassword`, on the digest `hash`. The slice
`hash[offset : offset+4]` is taken to panic when it reaches beyond `len(hash)`. -/
def truncate (hash : Bytes) : Option Nat := do
  let last ← if hash.length = 0 then none else hash[hash.length - 1]?
  let offset := last &&& 0x0F
  let hashParts ← if offset + 4 ≤ hash.length then some ((hash.drop offset).take 4) else none
  let first ← hashParts[0]?
  let hashParts := hashParts.set 0 (first &&& 0x7F)
  let number ← toUint32 hashParts
  let pwd := number % 1000000
  pure pwd

/-- `oneTimePassword`: sign `value` with HMAC-SHA1 under `key`, then truncate. -/
def oneTimePassword (key value : Bytes) : Option Nat :=
  truncate (hmacSha1 key value)

/-- The dynamic truncation of RFC 4226 as the specification words it: with
`offset = digest[19] & 0x0F` and `P` the 31-bit big-endian number at `offset`, the code
is `P mod 1000000`. -/
def dynamicTruncation (digest : Bytes) : Nat :=
  let offset := digest.getD 19 0 &&& 0x0F
  let p := (digest.getD offset 0 &&& 0x7F) * 2 ^ 24 + digest.getD (offset + 1) 0 * 2 ^ 16
    + digest.getD (offset + 2) 0 * 2 ^ 8 + digest.getD (offset + 3) 0
  p % 1000000

/-! ## `encoding/base32`: `StdEncoding.DecodeString` -/

namespace Base32

/-- The table `decodeMap` of `StdEncoding`: the 5-bit value of an alphabet character
(`A`..`Z`, `2`..`7`), `none` where the table holds `0xFF`. -/
def decodeMap (c : Nat) : Option Nat :=
  if 0x41 ≤ c ∧ c ≤ 0x5A then some (c - 0x41)
  else if 0x32 ≤ c ∧ c ≤ 0x37 then some (c - 0x32 + 26)
  else none

/-- The padding character `=`. -/
def padChar : Nat := 0x3D

/-- The inner loop `for j := 0; j < 8;` of `decode`, entered at index `j` with the
values `dbuf` read so far. The result is the values read (`dlen` is their number),
the flag `end` and the unread input; `none` is a `CorruptInputError`. -/
def quantum : List Nat → Nat → List Nat → Option (List Nat × Bool × List Nat)
  | src, j, dbuf =>
    if 8 ≤ j then some (dbuf, false, src) else
    match src with
    | [] => none
    | c :: rest =>
      if c = padChar ∧ 2 ≤ j ∧ rest.length < 8 then
        if rest.length + j < 8 - 1 then none
        else if (rest.take (8 - 1 - j)).any (fun x => decide (x ≠ padChar)) then none
        else if j = 1 ∨ j = 3 ∨ j = 6 then none
        else some (dbuf, true, rest)
      else
        match decodeMap c with
        | none => none
        | some v => quantum rest (j + 1) (dbuf ++ [v])

/-- Conversion to `byte`. -/
def byte (x : Nat) : Nat := x % 256

/-- The `switch dlen` of `decode`: pack up to eight 5-bit values into up to five
bytes. -/
def pack (dbuf : List Nat) : List Nat :=
  let d := fun i => dbuf.getD i 0
  let dst := [byte (d 0 <<< 3) ||| d 1 >>> 2,
    byte (d 1 <<< 6) ||| byte (d 2 <<< 1) ||| d 3 >>> 4,
    byte (d 3 <<< 4) ||| d 4 >>> 1,
    byte (d 4 <<< 7) ||| byte (d 5 <<< 2) ||| d 6 >>> 3,
    byte (d 6 <<< 5) ||| d 7]
  let n := if dbuf.length = 8 then 5 else if dbuf.length = 7 then 4
    else if dbuf.length = 5 then 3 else if dbuf.length = 4 then 2
    else if dbuf.length = 2 then 1 else 0
  dst.take n

/-- The outer loop `for len(src) > 0 && !end` of `decode`; every turn consumes input,
so `len(src)` turns are enough. -/
def decode : Nat → List Nat → Option (List Nat)
  | _, [] => some []
  | 0, _ :: _ => none
  | n + 1, c :: src =>
    match quantum (c :: src) 0 [] with
    | none => none
    | some (dbuf, fin, rest) =>
      if fin then some (pack dbuf)
      else
        match decode n rest with
        | none => none
        | some out => some (pack dbuf ++ out)

/-- `StdEncoding.DecodeString`: carriage returns and line feeds are dropped, the rest
is decoded; `none` stands for the error result. -/
def DecodeString (s : Bytes) : Option Bytes :=
  let src := s.filter fun c => decide (c ≠ 0x0D ∧ c ≠ 0x0A)
  decode src.length src

end Base32

/-! ## `unicode/utf8`, `unicode` and `strings` -/

namespace Utf8

/-- The rune `utf8.RuneError`. -/
def RuneError : Nat := 0xFFFD

/-- A continuation byte in the range `lo..hi`. -/
def cont (lo hi b : Nat) : Bool := decide (lo ≤ b ∧ b ≤ hi)

/-- `utf8.DecodeRuneInString`: the first rune and its width; an invalid or short
sequence gives `(RuneError, 1)`. -/
def DecodeRune : Bytes → Nat × Nat
  | [] => (RuneError, 0)
  | b0 :: rest =>
    if b0 < 0x80 then (b0, 1)
    else if b0 < 0xC2 then (RuneError, 1)
    else if b0 < 0xE0 then
      match rest with
      | b1 :: _ =>
        if cont 0x80 0xBF b1 then ((b0 &&& 0x1F) <<< 6 ||| (b1 &&& 0x3F), 2)
        else (RuneError, 1)
      | _ => (RuneError, 1)
    else if b0 < 0xF0 then
      match rest with
      | b1 :: b2 :: _ =>
        if cont (if b0 = 0xE0 then 0xA0 else 0x80) (if b0 = 0xED then 0x9F else 0xBF) b1
            && cont 0x80 0xBF b2 then
          ((b0 &&& 0x0F) <<< 12 ||| (b1 &&& 0x3F) <<< 6 ||| (b2 &&& 0x3F), 3)
        else (RuneError, 1)
      | _ => (RuneError, 1)
    else if b0 < 0xF5 then
      match rest with
      | b1 :: b2 :: b3 :: _ =>
        if cont (if b0 = 0xF0 then 0x90 else 0x80) (if b0 = 0xF4 then 0x8F else 0xBF) b1
            && cont 0x80 0xBF b2 && cont 0x80 0xBF b3 then
          ((b0 &&& 0x07) <<< 18 ||| (b1 &&& 0x3F) <<< 12 ||| (b2 &&& 0x3F) <<< 6
            ||| (b3 &&& 0x3F), 4)
        else (RuneError, 1)
      | _ => (RuneError, 1)
    else (RuneError, 1)

/-- `utf8.EncodeRune` (as `strings.Builder.WriteRune` uses it): a surrogate or a value
above `0x10FFFF` is written as `RuneError`. -/
def EncodeRune (r : Nat) : Bytes :=
  if r < 0x80 then [r]
  else if r < 0x800 then [0xC0 ||| r >>> 6, 0x80 ||| (r &&& 0x3F)]
  else if 0x10FFFF < r ∨ (0xD800 ≤ r ∧ r ≤ 0xDFFF) then [0xEF, 0xBF, 0xBD]
  else if r < 0x10000 then [0xE0 ||| r >>> 12, 0x80 ||| ((r >>> 6) &&& 0x3F), 0x80 ||| (r &&& 0x3F)]
  else [0xF0 ||| r >>> 18, 0x80 ||| ((r >>> 12) &&& 0x3F), 0x80 ||| ((r >>> 6) &&& 0x3F),
    0x80 ||| (r &&& 0x3F)]

end Utf8

namespace Unicode

/-- A row of `unicode.CaseRanges`: the range `lo..hi` and the delta to upper case;
`none` is the marker `UpperLower` of an alternating upper/lower sequence. -/
structure CaseRange where
  lo : Nat
  hi : Nat
  upper : Option Int

/-- The rows of `unicode.CaseRanges` from U+0080 to U+017F. -/
def CaseRanges : List CaseRange :=
  [⟨0x00B5, 0x00B5, some 743⟩, ⟨0x00C0, 0x00D6, some 0⟩, ⟨0x00D8, 0x00DE, some 0⟩,
   ⟨0x00E0, 0x00F6, some (-32)⟩, ⟨0x00F8, 0x00FE, some (-32)⟩, ⟨0x00FF, 0x00FF, some 121⟩,
   ⟨0x0100, 0x012F, none⟩, ⟨0x0130, 0x0130, some 0⟩, ⟨0x0131, 0x0131, some (-232)⟩,
   ⟨0x0132, 0x0137, none⟩, ⟨0x0139, 0x0148, none⟩, ⟨0x014A, 0x0177, none⟩,
   ⟨0x0178, 0x0178, some 0⟩, ⟨0x0179, 0x017E, none⟩, ⟨0x017F, 0x017F, some (-300)⟩]

/-- `unicode.To(unicode.UpperCase, r)` over the rows `CaseRanges`; a rune in no row is
returned unchanged. -/
def toUpperCase (r : Nat) : Nat :=
  match CaseRanges.find? (fun cr => decide (cr.lo ≤ r ∧ r ≤ cr.hi)) with
  | none => r
  | some cr =>
    match cr.upper with
    | none => cr.lo + (r - cr.lo) / 2 * 2
    | some delta => ((r : Int) + delta).toNat

/-- `unicode.ToUpper`: the ASCII letters directly, every other rune through the case
table `table` (Go's `To(UpperCase, r)`). -/
def ToUpper (table : Nat → Nat) (r : Nat) : Nat :=
  if r ≤ 0x7F then
    if 0x61 ≤ r ∧ r ≤ 0x7A then r - (0x61 - 0x41) else r
  else table r

end Unicode

namespace Strings

/-- `strings.Map` for a mapping that never returns a negative rune: the input is read
rune by rune and each mapped rune is written in UTF-8. `n` bounds the number of runes. -/
def Map (mapping : Nat → Nat) : Nat → Bytes → Bytes
  | 0, _ => []
  | _ + 1, [] => []
  | n + 1, b :: s =>
    let (c, width) := Utf8.DecodeRune (b :: s)
    Utf8.EncodeRune (mapping c) ++ Map mapping n ((b :: s).drop width)

/-- `strings.ToUpper`, with the Unicode case table as a parameter. -/
def ToUpper (table : Nat → Nat) (s : Bytes) : Bytes :=
  Map (Unicode.ToUpper table) s.length s

/-- `strings.Join`. -/
def Join : List Bytes → Bytes → Bytes
  | [], _ => []
  | [a], _ => a
  | a :: b :: rest, sep => a ++ sep ++ Join (b :: rest) sep

/-- `strings.Replace(s, " ", "", -1)`: every space byte is removed. -/
def removeSpaces (s : Bytes) : Bytes := s.filter fun c => decide (c ≠ 0x20)

/-- `strings.Repeat` of a one-byte string. -/
def Repeat (c : Nat) (count : Nat) : Bytes := List.replicate count c

end Strings

/-! ## `getTOTP` -/

/-- What a call of `getTOTP` does: exit with the decode error, panic, or print the
code and the seconds remaining. -/
inductive Outcome
  | decodeError
  | panicked
  | printed (pwd : Nat) (secondsRemaining : Int)
  deriving DecidableEq, Repr

/-- The code a call printed, if it printed one. -/
def Outcome.code? : Outcome → Option Nat
  | .printed pwd _ => some pwd
  | _ => none

/-- The seconds remaining a call printed, if it printed. -/
def Outcome.remaining? : Outcome → Option Int
  | .printed _ r => some r
  | _ => none

/-- The counter `epochSeconds/30` that `getTOTP` encodes; Go's `/` truncates toward
zero. -/
def timeCounter (epochSeconds : Int) : Int := Int.tdiv epochSeconds 30

/-- The value `30 - (epochSeconds % 30)` that `getTOTP` prints; Go's `%` takes the sign
of the dividend. -/
def secondsRemaining (epochSeconds : Int) : Int := 30 - Int.tmod epochSeconds 30

/-- `getTOTP`, with the value of `time.Now().Unix()` as the parameter `epochSeconds`. -/
def getTOTP (secret : Bytes) (epochSeconds : Int) : Outcome :=
  match Base32.DecodeString secret with
  | none => .decodeError
  | some key =>
    match oneTimePassword key (toBytes (timeCounter epochSeconds)) with
    | none => .panicked
    | some pwd => .printed pwd (secondsRemaining epochSeconds)

/-! ## The store and the commands -/

/-- The map `configDat`: account name to secret, at most one entry per name. -/
abbrev Store := List (Bytes × Bytes)

namespace Store

/-- Whether `name` is a key of the map. -/
def contains (m : Store) (name : Bytes) : Bool := (m.lookup name).isSome

/-- The Go expression `m[name]`: the zero value `""` for a missing key. -/
def get (m : Store) (name : Bytes) : Bytes := (m.lookup name).getD []

/-- The Go statement `delete(m, name)`. -/
def delete (m : Store) (name : Bytes) : Store := m.filter fun p => decide (p.1 ≠ name)

/-- The Go statement `m[name] = secret`. -/
def set (m : Store) (name secret : Bytes) : Store := (name, secret) :: m.delete name

end Store

/-- What a command prints. -/
inductive Output
  | wrongArguments
  | accounts (names : List Bytes)
  | noAccounts
  | notInList (name : Bytes)
  | totp (o : Outcome)
  | silent
  deriving DecidableEq, Repr

/-- The state after a command has run: the map, the maps written to the file by
`updateConfig` in order, and the output. -/
structure Result where
  store : Store
  saved : List Store
  output : Output
  deriving DecidableEq, Repr

/-- `updateConfig`: the map is serialized and written to the file; `saved` lists the
maps written so far. -/
def updateConfig (saved : List Store) (conf : Store) : List Store := saved ++ [conf]

/-- The `Run` function of `cmdList`. -/
def cmdList.Run (configDat : Store) : Result :=
  if 0 < configDat.length then ⟨configDat, [], .accounts (configDat.map Prod.fst)⟩
  else ⟨configDat, [], .noAccounts⟩

/-- The `Run` function of `cmdGet`, at the time `epochSeconds`. -/
def cmdGet.Run (configDat : Store) (args : List Bytes) (epochSeconds : Int) : Result :=
  if args.length ≠ 1 then ⟨configDat, [], .wrongArguments⟩
  else if configDat.get (args.headD []) ≠ [] then
    ⟨configDat, [], .totp (getTOTP (configDat.get (args.headD [])) epochSeconds)⟩
  else ⟨configDat, [], .notInList (args.headD [])⟩

/-- The secret `cmdSet` computes from `args[1:]`: joined, spaces removed, padded with
`=` when the length is not a multiple of 8, upper-cased. -/
def normalize (table : Nat → Nat) (tokens : List Bytes) : Bytes :=
  let secret := Strings.Join tokens []
  let secret := Strings.removeSpaces secret
  let secret :=
    if secret.length % 8 ≠ 0 then
      let lenPad := 8 - secret.length % 8
      secret ++ Strings.Repeat 0x3D lenPad
    else secret
  Strings.ToUpper table secret

/-- The `Run` function of `cmdSet`; the deferred `updateConfig` runs on every return
and writes the map as it is then. -/
def cmdSet.Run (table : Nat → Nat) (configDat : Store) (args : List Bytes) : Result :=
  if args.length < 2 then ⟨configDat, updateConfig [] configDat, .wrongArguments⟩
  else
    let secret := normalize table (args.drop 1)
    let configDat := configDat.set (args.headD []) secret
    ⟨configDat, updateConfig [] configDat, .silent⟩

/-- The `Run` function of `cmdDelete`, with its deferred `updateConfig`. -/
def cmdDelete.Run (configDat : Store) (args : List Bytes) : Result :=
  if args.length ≠ 1 then ⟨configDat, updateConfig [] configDat, .wrongArguments⟩
  else
    let configDat := configDat.delete (args.headD [])
    ⟨configDat, updateConfig [] configDat, .silent⟩

/-- The stores a sequence of `set` and `delete` commands can produce from the empty
map. -/
inductive Reachable (table : Nat → Nat) : Store → Prop
  | empty : Reachable table []
  | set (m : Store) (args : List Bytes) :
      Reachable table m → Reachable table (cmdSet.Run table m args).store
  | delete (m : Store) (args : List Bytes) :
      Reachable table m → Reachable table (cmdDelete.Run m args).store

/-- The characters of a Lean string literal as bytes (for ASCII text). -/
def ascii (s : String) : Bytes := s.toList.map Char.toNat

/-! ## `encoding/json` on `map[string]string`, and `main` -/

namespace Utf8

/-- The loop of `utf8.ValidString`: no rune of the input decodes as an encoding error.
`n` bounds the number of runes. -/
def Valid : Nat → Bytes → Bool
  | _, [] => true
  | 0, _ :: _ => false
  | n + 1, b :: s =>
    let (c, width) := DecodeRune (b :: s)
    if c = RuneError ∧ width = 1 then false else Valid n ((b :: s).drop width)

/-- `utf8.ValidString`. -/
def ValidString (s : Bytes) : Bool := Valid s.length s

end Utf8

namespace Json

/-- The digit `"0123456789abcdef"[x]`. -/
def hex (x : Nat) : Nat := if x < 10 then 0x30 + x else 0x61 + (x - 10)

/-- The table `htmlSafeSet`: the ASCII bytes the encoder copies unchanged. -/
def htmlSafe (b : Nat) : Bool :=
  decide (0x20 ≤ b ∧ b < 0x80 ∧ b ≠ 0x22 ∧ b ≠ 0x5C ∧ b ≠ 0x3C ∧ b ≠ 0x3E ∧ b ≠ 0x26)

/-- The escape the encoder writes for an ASCII byte outside `htmlSafeSet`: a backslash
before a backslash or a quote, the letters `n`, `r`, `t` for the line feed, the carriage
return and the tab, and the four-digit hexadecimal escape for every other byte (newer
Go versions have a letter for 0x08 and 0x0C as well; the decoder reads both forms as the
same byte). -/
def escapeByte (b : Nat) : Bytes :=
  if b = 0x5C ∨ b = 0x22 then [0x5C, b]
  else if b = 0x0A then [0x5C, 0x6E]
  else if b = 0x0D then [0x5C, 0x72]
  else if b = 0x09 then [0x5C, 0x74]
  else [0x5C, 0x75, 0x30, 0x30, hex (b >>> 4), hex (b &&& 0xF)]

/-- The loop of the encoder's `string` method (with HTML escaping, as `json.Marshal`
sets it): safe ASCII and valid multi-byte runes are copied, other ASCII is escaped, an
invalid byte is written as the escape of U+FFFD, and U+2028 and U+2029 are written as
their escapes. -/
def encodeRunes : Nat → Bytes → Bytes
  | 0, _ => []
  | _ + 1, [] => []
  | n + 1, b :: s =>
    if b < 0x80 then
      (if htmlSafe b then [b] else escapeByte b) ++ encodeRunes n s
    else
      let (c, size) := Utf8.DecodeRune (b :: s)
      if c = Utf8.RuneError ∧ size = 1 then
        [0x5C, 0x75, 0x66, 0x66, 0x66, 0x64] ++ encodeRunes n s
      else if c = 0x2028 ∨ c = 0x2029 then
        [0x5C, 0x75, 0x32, 0x30, 0x32, hex (c &&& 0xF)] ++ encodeRunes n ((b :: s).drop size)
      else (b :: s).take size ++ encodeRunes n ((b :: s).drop size)

/-- A string as the encoder writes it, between double quotes. -/
def encodeString (s : Bytes) : Bytes := [0x22] ++ encodeRunes s.length s ++ [0x22]

/-- The entries of a map in the order the encoder writes them: sorted by key, byte by
byte. -/
def sortKeys (m : Store) : Store := m.insertionSort fun a b => a.1 ≤ b.1

/-- The members of an object, separated by commas. -/
def encodeEntries : List (Bytes × Bytes) → Bytes
  | [] => []
  | [(k, v)] => encodeString k ++ [0x3A] ++ encodeString v
  | (k, v) :: e :: rest =>
    encodeString k ++ [0x3A] ++ encodeString v ++ [0x2C] ++ encodeEntries (e :: rest)

/-- `json.Marshal` of a non-nil `map[string]string`. -/
def Marshal (m : Store) : Bytes := [0x7B] ++ encodeEntries (sortKeys m) ++ [0x7D]

/-- The white space of JSON. -/
def isSpace (c : Nat) : Bool := decide (c = 0x20 ∨ c = 0x09 ∨ c = 0x0D ∨ c = 0x0A)

/-- Skip white space. -/
def skipSpace : Bytes → Bytes
  | [] => []
  | c :: s => if isSpace c then skipSpace s else c :: s

/-- The value of a hexadecimal digit. -/
def hexVal (c : Nat) : Option Nat :=
  if 0x30 ≤ c ∧ c ≤ 0x39 then some (c - 0x30)
  else if 0x61 ≤ c ∧ c ≤ 0x66 then some (c - 0x61 + 10)
  else if 0x41 ≤ c ∧ c ≤ 0x46 then some (c - 0x41 + 10)
  else none

/-- The function `getu4`: the number of a `\uXXXX` escape at the head of the input. -/
def getu4 : Bytes → Option Nat
  | b0 :: b1 :: h0 :: h1 :: h2 :: h3 :: _ =>
    if b0 = 0x5C ∧ b1 = 0x75 then
      match hexVal h0, hexVal h1, hexVal h2, hexVal h3 with
      | some a, some b, some c, some d => some (((a * 16 + b) * 16 + c) * 16 + d)
      | _, _, _, _ => none
    else none
  | _ => none

/-- The byte of a one-letter escape, for the letters the scanner accepts. -/
def unescape (e : Nat) : Option Nat :=
  if e = 0x22 ∨ e = 0x5C ∨ e = 0x2F then some e
  else if e = 0x62 then some 0x08
  else if e = 0x66 then some 0x0C
  else if e = 0x6E then some 0x0A
  else if e = 0x72 then some 0x0D
  else if e = 0x74 then some 0x09
  else none

/-- `utf16.IsSurrogate`. -/
def isSurrogate (r : Nat) : Bool := decide (0xD800 ≤ r ∧ r < 0xE000)

/-- `utf16.DecodeRune`, with `none` for the second half that `getu4` did not find. -/
def decodeSurrogates (r1 : Nat) (r2 : Option Nat) : Nat :=
  match r2 with
  | some r2 =>
    if 0xD800 ≤ r1 ∧ r1 < 0xDC00 ∧ 0xDC00 ≤ r2 ∧ r2 < 0xE000 then
      ((r1 - 0xD800) <<< 10 ||| (r2 - 0xDC00)) + 0x10000
    else Utf8.RuneError
  | none => Utf8.RuneError

/-- A string literal from behind its opening quote: the scanner's checks and `unquote`
in one pass. The result is the string and the input behind the closing quote; `none` is
a syntax error. `n` bounds the number of steps. -/
def unquote : Nat → Bytes → Bytes → Option (Bytes × Bytes)
  | 0, _, _ => none
  | _ + 1, [], _ => none
  | n + 1, c :: s, acc =>
    if c = 0x22 then some (acc, s)
    else if c = 0x5C then
      match s with
      | [] => none
      | e :: s1 =>
        if e = 0x75 then
          match getu4 (c :: e :: s1) with
          | none => none
          | some rr =>
            if isSurrogate rr then
              if decodeSurrogates rr (getu4 (s1.drop 4)) = Utf8.RuneError then
                unquote n (s1.drop 4) (acc ++ Utf8.EncodeRune Utf8.RuneError)
              else
                unquote n (s1.drop 10)
                  (acc ++ Utf8.EncodeRune (decodeSurrogates rr (getu4 (s1.drop 4))))
            else unquote n (s1.drop 4) (acc ++ Utf8.EncodeRune rr)
        else
          match unescape e with
          | none => none
          | some x => unquote n s1 (acc ++ [x])
    else if c < 0x20 then none
    else if c < 0x80 then unquote n s (acc ++ [c])
    else
      let (rr, size) := Utf8.DecodeRune (c :: s)
      unquote n ((c :: s).drop size) (acc ++ Utf8.EncodeRune rr)

/-- The entries of the scanner's stack `parseState`. -/
inductive ParseState
  | objectKey
  | objectValue
  | arrayValue
  deriving DecidableEq, Repr

/-- The step functions of the scanner of `scanner.go`, as states. -/
inductive Step
  | beginValueOrEmpty
  | beginValue
  | beginStringOrEmpty
  | beginString
  | endValue
  | endTop
  | inString
  | inStringEsc
  | inStringEscU
  | inStringEscU1
  | inStringEscU12
  | inStringEscU123
  | neg
  | s1
  | s0
  | dot
  | dot0
  | e
  | eSign
  | e0
  | t
  | tr
  | tru
  | f
  | fa
  | fal
  | fals
  | n
  | nu
  | nul
  deriving DecidableEq, Repr

/-- The scanner: its step function and its stack, the innermost entry first. The flag
`endTop` of the Go scanner is set exactly when the step becomes `endTop`. -/
structure Scanner where
  step : Step
  parseState : List ParseState
  deriving DecidableEq, Repr

/-- The constant `maxNestingDepth`. -/
def maxNestingDepth : Nat := 10000

/-- The method `pushParseState`: `none` (an error) beyond the nesting limit. -/
def pushParseState (ps : List ParseState) (k : ParseState) (next : Step) : Option Scanner :=
  if ps.length + 1 ≤ maxNestingDepth then some ⟨next, k :: ps⟩ else none

/-- The method `popParseState`, on the stack below the entry that is popped. -/
def popParseState (rest : List ParseState) : Option Scanner :=
  if rest.isEmpty then some ⟨.endTop, []⟩ else some ⟨.endValue, rest⟩

/-- The function `stateEndTop`: only white space may follow the top-level value. -/
def stateEndTop (c : Nat) : Option Scanner :=
  if isSpace c then some ⟨.endTop, []⟩ else none

/-- The function `stateEndValue`. -/
def stateEndValue (ps : List ParseState) (c : Nat) : Option Scanner :=
  match ps with
  | [] => stateEndTop c
  | top :: rest =>
    if isSpace c then some ⟨.endValue, ps⟩
    else
      match top with
      | .objectKey => if c = 0x3A then some ⟨.beginValue, .objectValue :: rest⟩ else none
      | .objectValue =>
        if c = 0x2C then some ⟨.beginString, .objectKey :: rest⟩
        else if c = 0x7D then popParseState rest
        else none
      | .arrayValue =>
        if c = 0x2C then some ⟨.beginValue, ps⟩
        else if c = 0x5D then popParseState rest
        else none

/-- The function `stateBeginValue` on a byte that is not white space. -/
def stateBeginValue (ps : List ParseState) (c : Nat) : Option Scanner :=
  if c = 0x7B then pushParseState ps .objectKey .beginStringOrEmpty
  else if c = 0x5B then pushParseState ps .arrayValue .beginValueOrEmpty
  else if c = 0x22 then some ⟨.inString, ps⟩
  else if c = 0x2D then some ⟨.neg, ps⟩
  else if c = 0x30 then some ⟨.s0, ps⟩
  else if c = 0x74 then some ⟨.t, ps⟩
  else if c = 0x66 then some ⟨.f, ps⟩
  else if c = 0x6E then some ⟨.n, ps⟩
  else if 0x31 ≤ c ∧ c ≤ 0x39 then some ⟨.s1, ps⟩
  else none

/-- The function `stateBeginString` on a byte that is not white space. -/
def stateBeginString (ps : List ParseState) (c : Nat) : Option Scanner :=
  if c = 0x22 then some ⟨.inString, ps⟩ else none

/-- A decimal digit. -/
def isDigit (c : Nat) : Bool := decide (0x30 ≤ c ∧ c ≤ 0x39)

/-- A hexadecimal digit. -/
def isHexDigit (c : Nat) : Bool := (hexVal c).isSome

/-- The function `state0`, which `state1` falls back to. -/
def state0 (ps : List ParseState) (c : Nat) : Option Scanner :=
  if c = 0x2E then some ⟨.dot, ps⟩
  else if c = 0x65 ∨ c = 0x45 then some ⟨.e, ps⟩
  else stateEndValue ps c

/-- The function `stateESign`, which `stateE` falls back to. -/
def stateESign (ps : List ParseState) (c : Nat) : Option Scanner :=
  if isDigit c then some ⟨.e0, ps⟩ else none

/-- One call `s.step(s, c)` of the scanner; `none` is `scanError`. -/
def scan (s : Scanner) (c : Nat) : Option Scanner :=
  match s.step with
  | .beginValueOrEmpty =>
    if isSpace c then some s
    else if c = 0x5D then stateEndValue s.parseState c
    else stateBeginValue s.parseState c
  | .beginValue => if isSpace c then some s else stateBeginValue s.parseState c
  | .beginStringOrEmpty =>
    if isSpace c then some s
    else if c = 0x7D then
      match s.parseState with
      | [] => none
      | _ :: rest => stateEndValue (.objectValue :: rest) c
    else stateBeginString s.parseState c
  | .beginString => if isSpace c then some s else stateBeginString s.parseState c
  | .endValue => stateEndValue s.parseState c
  | .endTop => stateEndTop c
  | .inString =>
    if c = 0x22 then some ⟨.endValue, s.parseState⟩
    else if c = 0x5C then some ⟨.inStringEsc, s.parseState⟩
    else if c < 0x20 then none
    else some s
  | .inStringEsc =>
    if c = 0x62 ∨ c = 0x66 ∨ c = 0x6E ∨ c = 0x72 ∨ c = 0x74 ∨ c = 0x5C ∨ c = 0x2F ∨ c = 0x22 then
      some ⟨.inString, s.parseState⟩
    else if c = 0x75 then some ⟨.inStringEscU, s.parseState⟩
    else none
  | .inStringEscU => if isHexDigit c then some ⟨.inStringEscU1, s.parseState⟩ else none
  | .inStringEscU1 => if isHexDigit c then some ⟨.inStringEscU12, s.parseState⟩ else none
  | .inStringEscU12 => if isHexDigit c then some ⟨.inStringEscU123, s.parseState⟩ else none
  | .inStringEscU123 => if isHexDigit c then some ⟨.inString, s.parseState⟩ else none
  | .neg =>
    if c = 0x30 then some ⟨.s0, s.parseState⟩
    else if 0x31 ≤ c ∧ c ≤ 0x39 then some ⟨.s1, s.parseState⟩
    else none
  | .s1 => if isDigit c then some s else state0 s.parseState c
  | .s0 => state0 s.parseState c
  | .dot => if isDigit c then some ⟨.dot0, s.parseState⟩ else none
  | .dot0 =>
    if isDigit c then some s
    else if c = 0x65 ∨ c = 0x45 then some ⟨.e, s.parseState⟩
    else stateEndValue s.parseState c
  | .e =>
    if c = 0x2B ∨ c = 0x2D then some ⟨.eSign, s.parseState⟩ else stateESign s.parseState c
  | .eSign => stateESign s.parseState c
  | .e0 => if isDigit c then some s else stateEndValue s.parseState c
  | .t => if c = 0x72 then some ⟨.tr, s.parseState⟩ else none
  | .tr => if c = 0x75 then some ⟨.tru, s.parseState⟩ else none
  | .tru => if c = 0x65 then some ⟨.endValue, s.parseState⟩ else none
  | .f => if c = 0x61 then some ⟨.fa, s.parseState⟩ else none
  | .fa => if c = 0x6C then some ⟨.fal, s.parseState⟩ else none
  | .fal => if c = 0x73 then some ⟨.fals, s.parseState⟩ else none
  | .fals => if c = 0x65 then some ⟨.endValue, s.parseState⟩ else none
  | .n => if c = 0x75 then some ⟨.nu, s.parseState⟩ else none
  | .nu => if c = 0x6C then some ⟨.nul, s.parseState⟩ else none
  | .nul => if c = 0x6C then some ⟨.endValue, s.parseState⟩ else none

/-- The scanner run over the bytes of the input. -/
def scanAll : Scanner → Bytes → Option Scanner
  | s, [] => some s
  | s, c :: rest =>
    match scan s c with
    | none => none
    | some s1 => scanAll s1 rest

/-- The method `eof`: the input may end where the top-level value is complete, if need
be after one more step on a space. -/
def eof (s : Scanner) : Bool :=
  if s.step = .endTop then true
  else
    match scan s 0x20 with
    | none => false
    | some s1 => decide (s1.step = .endTop)

/-- The function `checkValid`: whether the input is one JSON value. -/
def checkValid (data : Bytes) : Bool :=
  match scanAll ⟨.beginValue, []⟩ data with
  | none => false
  | some s => eof s

/-- A byte of a number. -/
def isNumberByte (c : Nat) : Bool :=
  isDigit c || decide (c = 0x2D ∨ c = 0x2B ∨ c = 0x2E ∨ c = 0x65 ∨ c = 0x45)

/-- The input behind an array or object of valid JSON, from behind its opening bracket:
strings are passed over, brackets are counted. `n` bounds the number of steps. -/
def skipNested : Nat → Nat → Bytes → Option Bytes
  | 0, _, _ => none
  | _ + 1, _, [] => none
  | n + 1, depth, c :: s =>
    if c = 0x22 then
      match unquote s.length s [] with
      | none => none
      | some (_, rest) => skipNested n depth rest
    else if c = 0x7B ∨ c = 0x5B then skipNested n (depth + 1) s
    else if c = 0x7D ∨ c = 0x5D then
      if depth ≤ 1 then some s else skipNested n (depth - 1) s
    else skipNested n depth s

/-- The value of a member in valid JSON, from its first byte: the string stored for it,
whether an `UnmarshalTypeError` is recorded for it, and the input behind it. A string
is stored as it is; `null` leaves the element at its zero value `""` without an error;
a number, `true`, `false`, an array or an object leave it at `""` and record the
error. -/
def readValue (src : Bytes) : Option (Bytes × Bool × Bytes) :=
  match src with
  | [] => none
  | c :: s =>
    if c = 0x22 then
      match unquote s.length s [] with
      | none => none
      | some (val, rest) => some (val, false, rest)
    else if c = 0x6E then some ([], false, s.drop 3)
    else if c = 0x74 then some ([], true, s.drop 3)
    else if c = 0x66 then some ([], true, s.drop 4)
    else if c = 0x7B ∨ c = 0x5B then
      match skipNested s.length 1 s with
      | none => none
      | some rest => some ([], true, rest)
    else some ([], true, (c :: s).dropWhile isNumberByte)

/-- The members of an object in valid JSON, from the first byte of a key on: every
member is stored in the map, a later member of the same name replacing an earlier one.
The result is the map and whether an `UnmarshalTypeError` was recorded; `none` does not
arise on input that `checkValid` accepts (`Json.members_accepts`). `n` bounds the number
of members. -/
def members : Nat → Bytes → Store → Bool → Option (Store × Bool)
  | 0, _, _, _ => none
  | n + 1, src, m, bad =>
    match src with
    | [] => none
    | q :: s0 =>
      if q ≠ 0x22 then none else
      match unquote s0.length s0 [] with
      | none => none
      | some (key, s1) =>
        match skipSpace s1 with
        | [] => none
        | colon :: s2 =>
          if colon ≠ 0x3A then none else
          match readValue (skipSpace s2) with
          | none => none
          | some (val, bad1, s4) =>
            match skipSpace s4 with
            | [] => none
            | d :: s5 =>
              if d = 0x2C then members n (skipSpace s5) (m.set key val) (bad || bad1)
              else if d = 0x7D then some (m.set key val, bad || bad1)
              else none

/-- What `json.Unmarshal(data, &configDat)` does, `m` being the map before the call:
`syntaxError` when `checkValid` rejects the input, in which case nothing is stored;
`ok m` when it returns nil and the map is then `m`; `typeError m` when it returns an
`UnmarshalTypeError` and the map is then `m`; `nilMap` when the input is `null`, for
which it returns nil and sets the map to nil. -/
inductive Decoded
  | ok (m : Store)
  | syntaxError
  | typeError (m : Store)
  | nilMap
  deriving DecidableEq, Repr

/-- Whether `json.Unmarshal` returned an error. -/
def Decoded.isError : Decoded → Bool
  | .syntaxError => true
  | .typeError _ => true
  | _ => false

/-- `json.Unmarshal(data, &configDat)` where the map is `m` before the call: the input
is checked as a whole first; of valid JSON, an object is stored member by member, `null`
makes the map nil, and any other value is an `UnmarshalTypeError` that stores
nothing. -/
def Unmarshal (data : Bytes) (m : Store) : Decoded :=
  if checkValid data = false then .syntaxError
  else
    match skipSpace data with
    | [] => .syntaxError
    | c :: s =>
      if c = 0x7B then
        match skipSpace s with
        | [] => .syntaxError
        | d :: s1 =>
          if d = 0x7D then .ok m
          else
            match members data.length (d :: s1) m false with
            | none => .syntaxError
            | some (m1, false) => .ok m1
            | some (m1, true) => .typeError m1
      else if c = 0x6E then .nilMap
      else .typeError m

end Json

/-- The load step of `main`: `configDat := make(map[string]string)` and
`json.Unmarshal(file, &configDat)`, whose error is not looked at. The result is the map
afterwards; `none` is the nil map. -/
def loadConfig (file : Bytes) : Option Store :=
  match Json.Unmarshal file [] with
  | .ok m => some m
  | .syntaxError => some []
  | .typeError m => some m
  | .nilMap => none

/-- The content of the file after the calls of `updateConfig`: each call replaces it by
`json.Marshal(conf)`. -/
def writeConfig (file : Bytes) (saved : List Store) : Bytes :=
  saved.foldl (fun _ conf => Json.Marshal conf) file

/-- The four commands of `rootCmd`. -/
inductive Command
  | list
  | get
  | set
  | delete
  deriving DecidableEq, Repr

/-- How a run of `main` ends: the `Run` function that cobra called returned (on a map,
or on the nil map, of which only the output is kept), it panicked, or cobra called no
`Run` function at all. -/
inductive Ending
  | ran (r : Result)
  | ranOnNil (output : Output)
  | panicked
  | noRun
  deriving DecidableEq, Repr

/-- What `json.Marshal` writes for the nil map: `null`. -/
def marshalNil : Bytes := [0x6E, 0x75, 0x6C, 0x6C]

/-- One run of `main`. `file` is the content of the file (`none`: it does not exist and
is created empty); `call` is the call cobra's `Execute` makes: the `Run` function of a
command with the positional arguments it hands over, or `none` when it calls no `Run`
function (help, a flag, an unknown command). The result is how the run ends and the
content of the file afterwards. The load step comes before `Execute`. On the nil map
reads behave as on the empty map, `delete` does nothing, the assignment in `set`
panics, and the deferred `updateConfig` writes `null`, also when `set` panics. -/
def main (table : Nat → Nat) (file : Option Bytes) (call : Option (Command × List Bytes))
    (epochSeconds : Int) : Ending × Bytes :=
  let content := file.getD []
  match call with
  | none => (.noRun, content)
  | some (cmd, args) =>
    match loadConfig content with
    | some configDat =>
      let r :=
        match cmd with
        | .list => cmdList.Run configDat
        | .get => cmdGet.Run configDat args epochSeconds
        | .set => cmdSet.Run table configDat args
        | .delete => cmdDelete.Run configDat args
      (.ran r, writeConfig content r.saved)
    | none =>
      match cmd with
      | .list => (.ranOnNil (cmdList.Run []).output, content)
      | .get => (.ranOnNil (cmdGet.Run [] args epochSeconds).output, content)
      | .delete => (.ranOnNil (cmdDelete.Run [] args).output, marshalNil)
      | .set =>
        if args.length < 2 then (.ranOnNil Output.wrongArguments, marshalNil)
        else (.panicked, marshalNil)

/-! ## Definitions used in the statements -/

/-- The big-endian value of an 8-byte list: the sum of `bs[i] * 256 ^ (7 - i)` over
`i` in `0..7`. -/
def bigEndianValue (bs : Bytes) : Nat :=
  ((List.range 8).map fun i => bs.getD i 0 * 256 ^ (7 - i)).sum

/-- Upper-casing of one ASCII byte. -/
def asciiUpper (b : Nat) : Nat := if 0x61 ≤ b ∧ b ≤ 0x7A then b - 0x20 else b

/-- The stored secret as the specification words it: the tokens concatenated with no
separator, every space removed, right-padded with `=` up to the next multiple of 8,
then upper-cased. -/
def specNormalize (table : Nat → Nat) (tokens : List Bytes) : Bytes :=
  let joined := tokens.foldr (· ++ ·) []
  let stripped := joined.filter fun c => decide (c ≠ 0x20)
  let target := (stripped.length + 7) / 8 * 8
  Strings.ToUpper table (stripped ++ List.replicate (target - stripped.length) 0x3D)

/-- The number of `=` bytes `normalize` appends to a secret of length `len`. -/
def padLen (len : Nat) : Nat := if len % 8 ≠ 0 then 8 - len % 8 else 0

/-- A character of the base32 alphabet, in either case. -/
def IsBase32Char (c : Nat) : Prop :=
  (0x41 ≤ c ∧ c ≤ 0x5A) ∨ (0x61 ≤ c ∧ c ≤ 0x7A) ∨ (0x32 ≤ c ∧ c ≤ 0x37)

instance (c : Nat) : Decidable (IsBase32Char c) := by
  unfold IsBase32Char
  infer_instance

/-- Every character has a value in `decodeMap`. -/
def AllDecodable (u : List Nat) : Prop := ∀ c ∈ u, ∃ v, Base32.decodeMap c = some v

/-- The 5-bit values of a list of characters. -/
def valuesOf (cs : List Nat) : List Nat := cs.map fun c => (Base32.decodeMap c).getD 0

/-- The scanner, run from the state `s` over the rest of the input, accepts it:
`checkValid data` is `accepts` from the state `beginValue` with the empty stack. -/
def Json.accepts (s : Json.Scanner) (src : Bytes) : Bool :=
  match Json.scanAll s src with
  | none => false
  | some sf => Json.eof sf

/-- The scanner is neither inside a string literal nor behind the top-level value. -/
def Json.betweenTokens : Json.Step → Bool
  | .inString => false
  | .inStringEsc => false
  | .inStringEscU => false
  | .inStringEscU1 => false
  | .inStringEscU12 => false
  | .inStringEscU123 => false
  | .endTop => false
  | _ => true

/-- The scanner is inside a number. -/
def Json.inNumber : Json.Step → Bool
  | .neg => true
  | .s1 => true
  | .s0 => true
  | .dot => true
  | .dot0 => true
  | .e => true
  | .eSign => true
  | .e0 => true
  | _ => false

/-! ## Lemmas on the digest -/

theorem Sha1.be_length (n x : Nat) : (Sha1.be n x).length = n := by
  simp [Sha1.be]

theorem Sha1.be_isBytes (n x : Nat) : IsBytes (Sha1.be n x) := by
  intro b hb
  simp only [Sha1.be, List.mem_map] at hb
  obtain ⟨i, _, rfl⟩ := hb
  exact Nat.mod_lt _ (by norm_num)

theorem Sha1.sum_length (msg : List Nat) : (Sha1.sum msg).length = 20 := by
  simp [Sha1.sum, Sha1.be_length]

theorem Sha1.sum_isBytes (msg : List Nat) : IsBytes (Sha1.sum msg) := by
  intro b hb
  simp only [Sha1.sum, List.mem_append] at hb
  rcases hb with (((h | h) | h) | h) | h <;> exact Sha1.be_isBytes _ _ b h

theorem hmacSha1_length (key value : Bytes) : (hmacSha1 key value).length = 20 := by
  simp only [hmacSha1]
  exact Sha1.sum_length _

theorem hmacSha1_isBytes (key value : Bytes) : IsBytes (hmacSha1 key value) := by
  simp only [hmacSha1]
  exact Sha1.sum_isBytes _

theorem toUint32_four (b0 b1 b2 b3 : Nat) (h0 : b0 < 128) (h1 : b1 < 256) (h2 : b2 < 256)
    (h3 : b3 < 256) :
    toUint32 [b0, b1, b2, b3] = some (b0 * 2 ^ 24 + b1 * 2 ^ 16 + b2 * 2 ^ 8 + b3) := by
  simp only [toUint32, u32, Nat.shiftLeft_eq, List.getElem?_cons_zero, List.getElem?_cons_succ,
    Option.bind_eq_bind, Option.some_bind, Option.pure_def]
  congr 1
  omega

theorem truncate_eq_dynamicTruncation (hash : Bytes) (hl : hash.length = 20)
    (hb : IsBytes hash) : truncate hash = some (dynamicTruncation hash) := by
  have hlast : hash[hash.length - 1]? = some (hash.getD 19 0) := by
    rw [hl, List.getD_eq_getElem?_getD]
    have : (19 : Nat) < hash.length := by omega
    simp [List.getElem?_eq_getElem this]
  have hget : ∀ i, i < 20 → hash[i]? = some (hash.getD i 0) ∧ hash.getD i 0 < 256 := by
    intro i hi
    have hi2 : i < hash.length := by omega
    rw [List.getD_eq_getElem?_getD, List.getElem?_eq_getElem hi2]
    exact ⟨rfl, hb _ (List.getElem_mem _)⟩
  have hoff : hash.getD 19 0 &&& 0x0F ≤ 15 := Nat.and_le_right
  have hparts : (hash.drop (hash.getD 19 0 &&& 0x0F)).take 4 =
      [hash.getD (hash.getD 19 0 &&& 0x0F) 0, hash.getD ((hash.getD 19 0 &&& 0x0F) + 1) 0,
       hash.getD ((hash.getD 19 0 &&& 0x0F) + 2) 0, hash.getD ((hash.getD 19 0 &&& 0x0F) + 3) 0] := by
    generalize hash.getD 19 0 &&& 0x0F = o at hoff
    apply List.ext_getElem?
    intro i
    rw [List.getElem?_take, List.getElem?_drop]
    rcases i with _ | _ | _ | _ | i
    · simpa using (hget o (by omega)).1
    · simpa using (hget (o + 1) (by omega)).1
    · simpa using (hget (o + 2) (by omega)).1
    · simpa using (hget (o + 3) (by omega)).1
    · simp
  have hmask : hash.getD (hash.getD 19 0 &&& 0x0F) 0 &&& 0x7F < 128 :=
    Nat.lt_succ_of_le Nat.and_le_right
  have h1 := (hget ((hash.getD 19 0 &&& 0x0F) + 1) (by omega)).2
  have h2 := (hget ((hash.getD 19 0 &&& 0x0F) + 2) (by omega)).2
  have h3 := (hget ((hash.getD 19 0 &&& 0x0F) + 3) (by omega)).2
  have hle : (hash.getD 19 0 &&& 0x0F) + 4 ≤ hash.length := by omega
  have hne : ¬ hash.length = 0 := by omega
  simp only [truncate, hne, if_false, hlast, Option.bind_eq_bind, Option.some_bind, hle, if_true,
    hparts, List.getElem?_cons_zero, List.set_cons_zero, toUint32_four _ _ _ _ hmask h1 h2 h3,
    Option.pure_def, dynamicTruncation]

theorem shiftRight_eq_div (v : Int) (n : Nat) : Int.shiftRight v n = v / (2 ^ n : Int) := by
  have h := Int.shiftRight_eq_div_pow v n
  rw [Nat.cast_pow] at h
  exact h

theorem toBytes_eq (value : Int) :
    toBytes value =
      [(value / 72057594037927936 % 256).toNat, (value / 281474976710656 % 256).toNat,
       (value / 1099511627776 % 256).toNat, (value / 4294967296 % 256).toNat,
       (value / 16777216 % 256).toNat, (value / 65536 % 256).toNat,
       (value / 256 % 256).toNat, (value % 256).toNat] := by
  simp only [toBytes, shifts, List.foldl, List.nil_append, List.cons_append,
    List.singleton_append]
  rw [shiftRight_eq_div, shiftRight_eq_div, shiftRight_eq_div, shiftRight_eq_div,
    shiftRight_eq_div, shiftRight_eq_div, shiftRight_eq_div, shiftRight_eq_div]
  norm_num

theorem bigEndianValue_eight (a b c d e f g h : Nat) :
    bigEndianValue [a, b, c, d, e, f, g, h] =
      a * 256 ^ 7 + b * 256 ^ 6 + c * 256 ^ 5 + d * 256 ^ 4 + e * 256 ^ 3 + f * 256 ^ 2
        + g * 256 + h := by
  simp [bigEndianValue, List.range_succ]
  ring

theorem bigEndianValue_toBytes (value : Int) (h0 : 0 ≤ value)
    (h1 : value ≤ 9223372036854775807) : (bigEndianValue (toBytes value) : Int) = value := by
  rw [toBytes_eq, bigEndianValue_eight]
  have e0 : ∀ x : Int, ((x % 256).toNat : Int) = x % 256 := fun x =>
    Int.toNat_of_nonneg (Int.emod_nonneg _ (by norm_num))
  push_cast [e0]
  omega

/-! ## Lemmas on `getTOTP` -/

theorem oneTimePassword_eq (key value : Bytes) :
    oneTimePassword key value = some (dynamicTruncation (hmacSha1 key value)) :=
  truncate_eq_dynamicTruncation _ (hmacSha1_length key value) (hmacSha1_isBytes key value)

theorem getTOTP_eq_printed (secret key : Bytes) (t : Int)
    (hdec : Base32.DecodeString secret = some key) :
    getTOTP secret t =
      .printed (dynamicTruncation (hmacSha1 key (toBytes (timeCounter t)))) (secondsRemaining t) := by
  simp only [getTOTP, hdec, oneTimePassword_eq]

theorem timeCounter_of_nonneg (t : Int) (h : 0 ≤ t) : timeCounter t = t / 30 :=
  Int.tdiv_eq_ediv h (by norm_num)

theorem secondsRemaining_of_nonneg (t : Int) (h : 0 ≤ t) : secondsRemaining t = 30 - t % 30 := by
  unfold secondsRemaining
  rw [Int.tmod_eq_emod h (by norm_num)]

/-! ## Lemmas on the strings, the store and `normalize` -/

theorem Strings.Map_ascii (table : Nat → Nat) (n : Nat) (s : Bytes) (hs : ∀ b ∈ s, b < 0x80)
    (hn : s.length ≤ n) : Strings.Map (Unicode.ToUpper table) n s = s.map asciiUpper := by
  induction s generalizing n with
  | nil => cases n <;> simp [Strings.Map]
  | cons b s ih =>
    cases n with
    | zero => simp at hn
    | succ n =>
      have hb : b < 0x80 := hs b (List.mem_cons_self _ _)
      have hdec : Utf8.DecodeRune (b :: s) = (b, 1) := by simp [Utf8.DecodeRune, hb]
      have hup : Unicode.ToUpper table b = asciiUpper b := by
        have : b ≤ 0x7F := by omega
        simp [Unicode.ToUpper, asciiUpper, this]
      have hlt : asciiUpper b < 0x80 := by
        unfold asciiUpper
        split <;> omega
      simp only [Strings.Map, hdec, hup, List.drop_succ_cons, List.drop_zero, List.map_cons]
      rw [ih n (fun x hx => hs x (List.mem_cons_of_mem _ hx)) (by simpa using hn)]
      simp [Utf8.EncodeRune, hlt]

theorem Strings.ToUpper_ascii (table : Nat → Nat) (s : Bytes) (hs : ∀ b ∈ s, b < 0x80) :
    Strings.ToUpper table s = s.map asciiUpper :=
  Strings.Map_ascii table s.length s hs (le_refl _)

theorem Strings.Join_nil_sep (ts : List Bytes) : Strings.Join ts [] = ts.foldr (· ++ ·) [] := by
  induction ts with
  | nil => rfl
  | cons a rest ih =>
    cases rest with
    | nil => simp [Strings.Join]
    | cons b rest => simp only [Strings.Join, List.append_nil, List.foldr_cons] at ih ⊢; rw [ih]

theorem Strings.removeSpaces_append (a b : Bytes) :
    Strings.removeSpaces (a ++ b) = Strings.removeSpaces a ++ Strings.removeSpaces b := by
  simp [Strings.removeSpaces]

theorem Strings.removeSpaces_Join_space (ts : List Bytes) :
    Strings.removeSpaces (Strings.Join ts [0x20]) = Strings.removeSpaces (Strings.Join ts []) := by
  induction ts with
  | nil => rfl
  | cons a rest ih =>
    cases rest with
    | nil => simp [Strings.Join]
    | cons b rest =>
      simp only [Strings.Join, Strings.removeSpaces_append, List.append_nil] at ih ⊢
      rw [ih]
      simp [Strings.removeSpaces]

theorem Store.lookup_delete (m : Store) (name other : Bytes) :
    (m.delete name).lookup other = if other = name then none else m.lookup other := by
  induction m with
  | nil => simp [Store.delete]
  | cons p m ih =>
    obtain ⟨k, v⟩ := p
    simp only [Store.delete] at ih
    by_cases hk : k = name
    · subst hk
      simp only [Store.delete, List.filter_cons, ne_eq, not_true_eq_false, decide_False,
        Bool.false_eq_true, if_false, ih, List.lookup_cons]
      by_cases ho : other = k
      · simp [ho]
      · have : (other == k) = false := by simpa using ho
        simp [ho, this]
    · simp only [Store.delete, List.filter_cons, ne_eq, hk, not_false_eq_true, decide_True,
        if_true, List.lookup_cons, ih]
      by_cases ho : other = k
      · subst ho
        simp [hk]
      · have : (other == k) = false := by simpa using ho
        simp [this]

theorem Store.lookup_delete_self (m : Store) (name : Bytes) :
    (m.delete name).lookup name = none := by
  simp [Store.lookup_delete]

theorem Store.lookup_delete_ne (m : Store) (name other : Bytes) (h : other ≠ name) :
    (m.delete name).lookup other = m.lookup other := by
  simp [Store.lookup_delete, h]

theorem Store.lookup_set_self (m : Store) (name secret : Bytes) :
    (m.set name secret).lookup name = some secret := by
  simp [Store.set, List.lookup_cons]

theorem Store.lookup_set_ne (m : Store) (name other secret : Bytes) (h : other ≠ name) :
    (m.set name secret).lookup other = m.lookup other := by
  have hne : (other == name) = false := by simpa using h
  simp only [Store.set, List.lookup_cons, hne]
  exact Store.lookup_delete_ne m name other h

theorem cmdSet_store (table : Nat → Nat) (store : Store) (name : Bytes) (tokens : List Bytes)
    (hne : tokens ≠ []) :
    (cmdSet.Run table store (name :: tokens)).store = store.set name (normalize table tokens) := by
  have hlen : ¬ (name :: tokens).length < 2 := by
    cases tokens with
    | nil => exact absurd rfl hne
    | cons a rest => simp
  simp only [cmdSet.Run, hlen, if_false, List.drop_succ_cons, List.drop_zero, List.headD_cons]

theorem normalize_eq_specNormalize (table : Nat → Nat) (tokens : List Bytes) :
    normalize table tokens = specNormalize table tokens := by
  simp only [normalize, specNormalize, Strings.Join_nil_sep, Strings.removeSpaces, Strings.Repeat]
  split
  · next h =>
    congr 3
    omega
  · next h =>
    have : (List.filter (fun c => decide (c ≠ 0x20)) (List.foldr (· ++ ·) [] tokens)).length % 8 = 0 := by
      simpa using h
    have h0 : ((List.filter (fun c => decide (c ≠ 0x20)) (List.foldr (· ++ ·) [] tokens)).length + 7) / 8 * 8
        - (List.filter (fun c => decide (c ≠ 0x20)) (List.foldr (· ++ ·) [] tokens)).length = 0 := by
      omega
    rw [h0, List.replicate_zero, List.append_nil]

theorem normalize_one_token (table : Nat → Nat) (tokens : List Bytes) :
    normalize table [Strings.Join tokens [0x20]] = normalize table tokens := by
  have h : Strings.removeSpaces (Strings.Join [Strings.Join tokens [0x20]] []) =
      Strings.removeSpaces (Strings.Join tokens []) := by
    simp only [Strings.Join]
    exact Strings.removeSpaces_Join_space tokens
  simp only [normalize, h]

/-! ## Base32 decoding of well-formed secrets -/

theorem decodeMap_asciiUpper (c : Nat) (h : IsBase32Char c) :
    ∃ v, Base32.decodeMap (asciiUpper c) = some v := by
  unfold IsBase32Char at h
  unfold asciiUpper Base32.decodeMap
  rcases h with h | h | h
  · have h1 : ¬ (0x61 ≤ c ∧ c ≤ 0x7A) := by omega
    simp [h1, h]
  · have h2 : 0x41 ≤ c - 0x20 ∧ c - 0x20 ≤ 0x5A := by omega
    simp only [h, and_self, if_true, h2]
    exact ⟨_, rfl⟩
  · have h1 : ¬ (0x61 ≤ c ∧ c ≤ 0x7A) := by omega
    have h2 : ¬ (0x41 ≤ c ∧ c ≤ 0x5A) := by omega
    simp [h1, h2, h]

theorem decodeMap_some_ne (c v : Nat) (h : Base32.decodeMap c = some v) :
    c ≠ 0x3D ∧ c ≠ 0x0D ∧ c ≠ 0x0A := by
  refine ⟨?_, ?_, ?_⟩ <;> rintro rfl <;> simp [Base32.decodeMap] at h

theorem Base32.quantum_char (c v : Nat) (rest : List Nat) (j : Nat) (dbuf : List Nat)
    (hv : Base32.decodeMap c = some v) (hj : j < 8) :
    Base32.quantum (c :: rest) j dbuf = Base32.quantum rest (j + 1) (dbuf ++ [v]) := by
  have hc : c ≠ Base32.padChar := (decodeMap_some_ne c v hv).1
  have hj2 : ¬ 8 ≤ j := by omega
  rw [Base32.quantum]
  simp only [hj2, if_false, hc, false_and, hv]

theorem Base32.quantum_full (src dbuf : List Nat) :
    Base32.quantum src 8 dbuf = some (dbuf, false, src) := by
  cases src <;> simp [Base32.quantum]

theorem Base32.quantum_chars (cs : List Nat) : ∀ (rest : List Nat) (j : Nat) (dbuf : List Nat),
    AllDecodable cs → j + cs.length ≤ 8 →
    Base32.quantum (cs ++ rest) j dbuf = Base32.quantum rest (j + cs.length) (dbuf ++ valuesOf cs) := by
  induction cs with
  | nil => intro rest j dbuf _ _; simp [valuesOf]
  | cons c cs ih =>
    intro rest j dbuf hcs hj
    obtain ⟨v, hv⟩ := hcs c (List.mem_cons_self _ _)
    simp only [List.length_cons] at hj
    rw [List.cons_append, Base32.quantum_char c v _ j _ hv (by omega),
      ih rest (j + 1) (dbuf ++ [v]) (fun x hx => hcs x (List.mem_cons_of_mem _ hx)) (by omega)]
    have e1 : j + 1 + cs.length = j + (c :: cs).length := by simp only [List.length_cons]; omega
    have e2 : dbuf ++ [v] ++ valuesOf cs = dbuf ++ valuesOf (c :: cs) := by
      simp [valuesOf, hv]
    rw [e1, e2]

theorem Base32.quantum_pad (j : Nat) (dbuf : List Nat) (hj : j = 2 ∨ j = 4 ∨ j = 5 ∨ j = 7) :
    Base32.quantum (List.replicate (8 - j) 0x3D) j dbuf
      = some (dbuf, true, List.replicate (7 - j) 0x3D) := by
  rcases hj with rfl | rfl | rfl | rfl <;> simp [Base32.quantum, Base32.padChar, List.replicate]

theorem Base32.decode_succ (n : Nat) (src : List Nat) (h : src ≠ []) :
    Base32.decode (n + 1) src =
      match Base32.quantum src 0 [] with
      | none => none
      | some (dbuf, fin, rest) =>
        if fin then some (Base32.pack dbuf)
        else
          match Base32.decode n rest with
          | none => none
          | some out => some (Base32.pack dbuf ++ out) := by
  cases src with
  | nil => exact absurd rfl h
  | cons c src => rw [Base32.decode]

theorem Base32.decode_padded (n : Nat) : ∀ u : List Nat, AllDecodable u →
    (u.length % 8 = 0 ∨ u.length % 8 = 2 ∨ u.length % 8 = 4 ∨ u.length % 8 = 5
      ∨ u.length % 8 = 7) →
    u.length ≤ n →
    ∃ key, Base32.decode n (u ++ List.replicate (padLen u.length) 0x3D) = some key := by
  induction n with
  | zero =>
    intro u _ _ hn
    have : u = [] := List.eq_nil_of_length_eq_zero (by omega)
    subst this
    exact ⟨[], by simp [padLen, Base32.decode]⟩
  | succ n ih =>
    intro u hu hlen hn
    by_cases hnil : u = []
    · subst hnil
      exact ⟨[], by simp [padLen, Base32.decode]⟩
    have hpos : 0 < u.length := List.length_pos.mpr hnil
    have hne : u ++ List.replicate (padLen u.length) 0x3D ≠ [] := by simp [hnil]
    rw [Base32.decode_succ n _ hne]
    by_cases hshort : u.length < 8
    · have hk : u.length = 2 ∨ u.length = 4 ∨ u.length = 5 ∨ u.length = 7 := by omega
      have hp : padLen u.length = 8 - u.length := by
        unfold padLen
        have : u.length % 8 = u.length := Nat.mod_eq_of_lt hshort
        rw [this]
        have : u.length ≠ 0 := by omega
        simp [this]
      rw [hp, Base32.quantum_chars u _ 0 [] hu (by omega), Nat.zero_add,
        Base32.quantum_pad _ _ hk]
      exact ⟨_, rfl⟩
    · obtain ⟨a, b, rfl, ha⟩ : ∃ a b, u = a ++ b ∧ a.length = 8 :=
        ⟨u.take 8, u.drop 8, (List.take_append_drop 8 u).symm, by rw [List.length_take]; omega⟩
      have hlab : (a ++ b).length = b.length + 8 := by rw [List.length_append, ha]; omega
      have hu1 : AllDecodable a := fun c hc => hu c (List.mem_append_left _ hc)
      have hu2 : AllDecodable b := fun c hc => hu c (List.mem_append_right _ hc)
      have hp : padLen (a ++ b).length = padLen b.length := by
        unfold padLen
        have : (a ++ b).length % 8 = b.length % 8 := by rw [hlab]; omega
        rw [this]
      obtain ⟨out, hout⟩ := ih b hu2 (by rw [hlab] at hlen; omega) (by rw [hlab] at hn; omega)
      rw [hp, List.append_assoc, Base32.quantum_chars a _ 0 [] hu1 (by omega), ha,
        Base32.quantum_full]
      simp only [Bool.false_eq_true, if_false, hout]
      exact ⟨_, rfl⟩

theorem mem_foldr_append (tokens : List Bytes) (c : Nat) :
    c ∈ tokens.foldr (· ++ ·) [] ↔ ∃ tok ∈ tokens, c ∈ tok := by
  induction tokens with
  | nil => simp
  | cons a rest ih => simp [List.foldr_cons, List.mem_append, ih]

theorem mem_stripped (tokens : List Bytes) (c : Nat) :
    c ∈ Strings.removeSpaces (Strings.Join tokens []) ↔ (∃ tok ∈ tokens, c ∈ tok) ∧ c ≠ 0x20 := by
  simp [Strings.removeSpaces, Strings.Join_nil_sep, mem_foldr_append]

theorem normalize_eq_pad (table : Nat → Nat) (tokens : List Bytes) :
    normalize table tokens =
      Strings.ToUpper table (Strings.removeSpaces (Strings.Join tokens []) ++
        List.replicate (padLen (Strings.removeSpaces (Strings.Join tokens [])).length) 0x3D) := by
  simp only [normalize, padLen, Strings.Repeat]
  split <;> simp

theorem normalize_ascii (table : Nat → Nat) (tokens : List Bytes)
    (h : ∀ tok ∈ tokens, ∀ c ∈ tok, c < 0x80) :
    normalize table tokens =
      (Strings.removeSpaces (Strings.Join tokens [])).map asciiUpper ++
        List.replicate (padLen (Strings.removeSpaces (Strings.Join tokens [])).length) 0x3D := by
  rw [normalize_eq_pad, Strings.ToUpper_ascii, List.map_append, List.map_replicate]
  · rfl
  · intro b hb
    rcases List.mem_append.mp hb with hb | hb
    · obtain ⟨⟨tok, htok, hc⟩, _⟩ := (mem_stripped tokens b).mp hb
      exact h tok htok b hc
    · rw [(List.mem_replicate.mp hb).2]
      norm_num

theorem normalize_ascii_length (table : Nat → Nat) (tokens : List Bytes)
    (h : ∀ tok ∈ tokens, ∀ c ∈ tok, c < 0x80) : (normalize table tokens).length % 8 = 0 := by
  rw [normalize_ascii table tokens h, List.length_append, List.length_map, List.length_replicate]
  unfold padLen
  split <;> omega

theorem normalize_decodes (table : Nat → Nat) (tokens : List Bytes)
    (hchars : ∀ tok ∈ tokens, ∀ c ∈ tok, c = 0x20 ∨ IsBase32Char c)
    (hlen : (Strings.removeSpaces (Strings.Join tokens [])).length % 8 = 0 ∨
      (Strings.removeSpaces (Strings.Join tokens [])).length % 8 = 2 ∨
      (Strings.removeSpaces (Strings.Join tokens [])).length % 8 = 4 ∨
      (Strings.removeSpaces (Strings.Join tokens [])).length % 8 = 5 ∨
      (Strings.removeSpaces (Strings.Join tokens [])).length % 8 = 7) :
    ∃ key, Base32.DecodeString (normalize table tokens) = some key := by
  have hascii : ∀ tok ∈ tokens, ∀ c ∈ tok, c < 0x80 := by
    intro tok htok c hc
    rcases hchars tok htok c hc with h | h
    · omega
    · unfold IsBase32Char at h
      omega
  have hdec : AllDecodable ((Strings.removeSpaces (Strings.Join tokens [])).map asciiUpper) := by
    intro c hc
    obtain ⟨x, hx, rfl⟩ := List.mem_map.mp hc
    obtain ⟨⟨tok, htok, hxt⟩, hsp⟩ := (mem_stripped tokens x).mp hx
    rcases hchars tok htok x hxt with h | h
    · exact absurd h hsp
    · exact decodeMap_asciiUpper x h
  rw [normalize_ascii table tokens hascii]
  have hfilter : List.filter (fun c => decide (c ≠ 0x0D ∧ c ≠ 0x0A))
      ((Strings.removeSpaces (Strings.Join tokens [])).map asciiUpper ++
        List.replicate (padLen (Strings.removeSpaces (Strings.Join tokens [])).length) 0x3D)
      = (Strings.removeSpaces (Strings.Join tokens [])).map asciiUpper ++
        List.replicate (padLen (Strings.removeSpaces (Strings.Join tokens [])).length) 0x3D := by
    rw [List.filter_eq_self]
    intro c hc
    rcases List.mem_append.mp hc with hc | hc
    · obtain ⟨v, hv⟩ := hdec c hc
      have := decodeMap_some_ne c v hv
      simp [this.2.1, this.2.2]
    · rw [(List.mem_replicate.mp hc).2]
      decide
  unfold Base32.DecodeString
  simp only [hfilter]
  have hl := List.length_map (Strings.removeSpaces (Strings.Join tokens [])) asciiUpper
  rw [← hl] at hlen ⊢
  exact Base32.decode_padded _ _ hdec hlen (by rw [List.length_append]; omega)

theorem cmdGet_output_present (store : Store) (name secret : Bytes) (t : Int)
    (h : store.lookup name = some secret) (hs : secret ≠ []) :
    (cmdGet.Run store [name] t).output = Output.totp (getTOTP secret t) := by
  simp [cmdGet.Run, Store.get, h, hs]

theorem cmdGet_output_absent (store : Store) (name : Bytes) (t : Int)
    (h : store.lookup name = none) :
    (cmdGet.Run store [name] t).output = Output.notInList name := by
  simp [cmdGet.Run, Store.get, h]

/-! ## Lemmas for the truncation bounds, the countdown and the store frame -/

theorem dynamicTruncation_lt (digest : Bytes) : dynamicTruncation digest < 1000000 := by
  unfold dynamicTruncation
  exact Nat.mod_lt _ (by norm_num)

theorem getD_of_lt (hash : Bytes) (hb : IsBytes hash) (i : Nat) (hi : i < hash.length) :
    hash[i]? = some (hash.getD i 0) ∧ hash.getD i 0 < 256 := by
  rw [List.getD_eq_getElem?_getD, List.getElem?_eq_getElem hi]
  exact ⟨rfl, hb _ (List.getElem_mem _)⟩

theorem hashParts_eq (hash : Bytes) (hb : IsBytes hash) (o : Nat) (ho : o + 4 ≤ hash.length) :
    (hash.drop o).take 4 =
      [hash.getD o 0, hash.getD (o + 1) 0, hash.getD (o + 2) 0, hash.getD (o + 3) 0] := by
  apply List.ext_getElem?
  intro i
  rw [List.getElem?_take, List.getElem?_drop]
  rcases i with _ | _ | _ | _ | i
  · simpa using (getD_of_lt hash hb o (by omega)).1
  · simpa using (getD_of_lt hash hb (o + 1) (by omega)).1
  · simpa using (getD_of_lt hash hb (o + 2) (by omega)).1
  · simpa using (getD_of_lt hash hb (o + 3) (by omega)).1
  · simp

theorem timeCounter_succ (t : Int) (h0 : 0 ≤ t) :
    (t % 30 < 29 → timeCounter (t + 1) = timeCounter t) ∧
    (t % 30 = 29 → timeCounter (t + 1) = timeCounter t + 1) := by
  rw [timeCounter_of_nonneg t h0, timeCounter_of_nonneg (t + 1) (by omega)]
  constructor <;> intro h <;> omega

theorem secondsRemaining_succ (t : Int) (h0 : 0 ≤ t) :
    (t % 30 < 29 → secondsRemaining (t + 1) = secondsRemaining t - 1) ∧
    (t % 30 = 29 → secondsRemaining (t + 1) = 30) := by
  rw [secondsRemaining_of_nonneg t h0, secondsRemaining_of_nonneg (t + 1) (by omega)]
  constructor <;> intro h <;> omega

theorem Store.delete_of_lookup_none (m : Store) (name : Bytes) (h : m.lookup name = none) :
    m.delete name = m := by
  induction m with
  | nil => rfl
  | cons p m ih =>
    obtain ⟨k, v⟩ := p
    rw [List.lookup_cons] at h
    by_cases hk : name = k
    · subst hk
      simp at h
    · have hb : (name == k) = false := by simpa using hk
      rw [hb] at h
      have hk2 : ¬ k = name := fun e => hk e.symm
      have ih2 := ih h
      simp only [Store.delete] at ih2 ⊢
      rw [List.filter_cons]
      simp only [ne_eq, hk2, not_false_eq_true, decide_True, if_true]
      rw [ih2]

theorem Store.filter_key_delete (m : Store) (name : Bytes) :
    (m.delete name).filter (fun p => decide (p.1 = name)) = [] := by
  simp only [Store.delete, List.filter_filter]
  rw [List.filter_eq_nil_iff]
  intro p _
  simp

theorem cmdDelete_store (store : Store) (name : Bytes) :
    cmdDelete.Run store [name] =
      ⟨store.delete name, [store.delete name], Output.silent⟩ := by
  simp [cmdDelete.Run, updateConfig]

theorem asciiUpper_idem (b : Nat) : asciiUpper (asciiUpper b) = asciiUpper b := by
  unfold asciiUpper
  split_ifs <;> omega

theorem asciiUpper_eq_space (b : Nat) : asciiUpper b = 0x20 ↔ b = 0x20 := by
  unfold asciiUpper
  split <;> omega

theorem asciiUpper_lt (b : Nat) (h : b < 0x80) : asciiUpper b < 0x80 := by
  unfold asciiUpper
  split <;> omega

theorem normalize_idempotent_ascii (table : Nat → Nat) (tokens : List Bytes)
    (h : ∀ tok ∈ tokens, ∀ c ∈ tok, c < 0x80) :
    normalize table [normalize table tokens] = normalize table tokens := by
  have hlen := normalize_ascii_length table tokens h
  have hform := normalize_ascii table tokens h
  have hmem : ∀ c ∈ normalize table tokens, c < 0x80 ∧ c ≠ 0x20 ∧ asciiUpper c = c := by
    intro c hc
    rw [hform] at hc
    rcases List.mem_append.mp hc with hc | hc
    · obtain ⟨x, hx, rfl⟩ := List.mem_map.mp hc
      obtain ⟨⟨tok, htok, hxt⟩, hsp⟩ := (mem_stripped tokens x).mp hx
      exact ⟨asciiUpper_lt x (h tok htok x hxt), fun e => hsp ((asciiUpper_eq_space x).mp e),
        asciiUpper_idem x⟩
    · rw [(List.mem_replicate.mp hc).2]
      decide
  have hstrip : Strings.removeSpaces (Strings.Join [normalize table tokens] []) =
      normalize table tokens := by
    simp only [Strings.Join, Strings.removeSpaces]
    rw [List.filter_eq_self]
    intro c hc
    simpa using (hmem c hc).2.1
  rw [normalize_ascii table [normalize table tokens]
    (fun tok htok c hc => by
      rw [List.mem_singleton.mp htok] at hc
      exact (hmem c hc).1), hstrip]
  have hp : padLen (normalize table tokens).length = 0 := by
    unfold padLen
    simp [hlen]
  rw [hp, List.replicate_zero, List.append_nil]
  conv_rhs => rw [← List.map_id (normalize table tokens)]
  apply List.map_congr_left
  intro c hc
  exact (hmem c hc).2.2

/-! ## Lemmas on UTF-8 -/

theorem or_eq_add_of_mul (i a b n : Nat) (hn : n = 2 ^ i * a) (hb : b < 2 ^ i) :
    n ||| b = n + b := by
  rw [hn]
  exact (Nat.mul_add_lt_is_or hb a).symm

theorem and_0x3F (x : Nat) : x &&& 0x3F = x % 64 := Nat.and_pow_two_sub_one_eq_mod x 6

theorem and_0x1F (x : Nat) : x &&& 0x1F = x % 32 := Nat.and_pow_two_sub_one_eq_mod x 5

theorem and_0x0F (x : Nat) : x &&& 0x0F = x % 16 := Nat.and_pow_two_sub_one_eq_mod x 4

theorem and_0x07 (x : Nat) : x &&& 0x07 = x % 8 := Nat.and_pow_two_sub_one_eq_mod x 3

theorem Utf8.encode_two (b0 b1 : Nat) (h0 : 0xC2 ≤ b0 ∧ b0 < 0xE0)
    (h1 : 0x80 ≤ b1 ∧ b1 ≤ 0xBF) :
    Utf8.EncodeRune ((b0 &&& 0x1F) <<< 6 ||| (b1 &&& 0x3F)) = [b0, b1] := by
  have hc : (b0 &&& 0x1F) <<< 6 ||| (b1 &&& 0x3F) = b0 % 32 * 64 + b1 % 64 := by
    rw [and_0x1F, and_0x3F, Nat.shiftLeft_eq]
    exact or_eq_add_of_mul 6 (b0 % 32) _ _ (by omega) (by omega)
  rw [hc]
  unfold Utf8.EncodeRune
  rw [if_neg (by omega), if_pos (by omega), and_0x3F, Nat.shiftRight_eq_div_pow,
    or_eq_add_of_mul 5 6 ((b0 % 32 * 64 + b1 % 64) / 2 ^ 6) 0xC0 (by norm_num) (by omega),
    or_eq_add_of_mul 6 2 ((b0 % 32 * 64 + b1 % 64) % 64) 0x80 (by norm_num) (by omega)]
  congr 1
  · omega
  · congr 1
    omega

theorem Utf8.encode_three (b0 b1 b2 : Nat) (h0 : 0xE0 ≤ b0 ∧ b0 < 0xF0)
    (h1 : (if b0 = 0xE0 then 0xA0 else 0x80) ≤ b1 ∧ b1 ≤ (if b0 = 0xED then 0x9F else 0xBF))
    (h2 : 0x80 ≤ b2 ∧ b2 ≤ 0xBF) :
    Utf8.EncodeRune ((b0 &&& 0x0F) <<< 12 ||| (b1 &&& 0x3F) <<< 6 ||| (b2 &&& 0x3F))
      = [b0, b1, b2] := by
  have h1a : 0x80 ≤ b1 ∧ b1 ≤ 0xBF := by
    obtain ⟨l, r⟩ := h1
    split at l <;> split at r <;> omega
  have h1b : b0 = 0xE0 → 0xA0 ≤ b1 := by
    intro e
    have := h1.1
    rw [if_pos e] at this
    exact this
  have h1c : b0 = 0xED → b1 ≤ 0x9F := by
    intro e
    have := h1.2
    rw [if_pos e] at this
    exact this
  have hc : (b0 &&& 0x0F) <<< 12 ||| (b1 &&& 0x3F) <<< 6 ||| (b2 &&& 0x3F)
      = b0 % 16 * 4096 + b1 % 64 * 64 + b2 % 64 := by
    rw [and_0x0F, and_0x3F, and_0x3F, Nat.shiftLeft_eq, Nat.shiftLeft_eq,
      or_eq_add_of_mul 12 (b0 % 16) (b1 % 64 * 2 ^ 6) _ (by omega) (by omega),
      or_eq_add_of_mul 6 (b0 % 16 * 64 + b1 % 64) (b2 % 64) _ (by omega) (by omega)]
  rw [hc]
  unfold Utf8.EncodeRune
  rw [if_neg (by omega), if_neg (by omega), if_neg (by omega), if_pos (by omega),
    and_0x3F, and_0x3F, Nat.shiftRight_eq_div_pow, Nat.shiftRight_eq_div_pow,
    or_eq_add_of_mul 4 14 ((b0 % 16 * 4096 + b1 % 64 * 64 + b2 % 64) / 2 ^ 12) 0xE0
      (by norm_num) (by omega),
    or_eq_add_of_mul 6 2 ((b0 % 16 * 4096 + b1 % 64 * 64 + b2 % 64) / 2 ^ 6 % 64) 0x80
      (by norm_num) (by omega),
    or_eq_add_of_mul 6 2 ((b0 % 16 * 4096 + b1 % 64 * 64 + b2 % 64) % 64) 0x80
      (by norm_num) (by omega)]
  congr 1
  · omega
  · congr 1
    · omega
    · congr 1
      omega

theorem Utf8.encode_four (b0 b1 b2 b3 : Nat) (h0 : 0xF0 ≤ b0 ∧ b0 < 0xF5)
    (h1 : (if b0 = 0xF0 then 0x90 else 0x80) ≤ b1 ∧ b1 ≤ (if b0 = 0xF4 then 0x8F else 0xBF))
    (h2 : 0x80 ≤ b2 ∧ b2 ≤ 0xBF) (h3 : 0x80 ≤ b3 ∧ b3 ≤ 0xBF) :
    Utf8.EncodeRune ((b0 &&& 0x07) <<< 18 ||| (b1 &&& 0x3F) <<< 12 ||| (b2 &&& 0x3F) <<< 6
      ||| (b3 &&& 0x3F)) = [b0, b1, b2, b3] := by
  have h1a : 0x80 ≤ b1 ∧ b1 ≤ 0xBF := by
    obtain ⟨l, r⟩ := h1
    split at l <;> split at r <;> omega
  have h1b : b0 = 0xF0 → 0x90 ≤ b1 := by
    intro e
    have := h1.1
    rw [if_pos e] at this
    exact this
  have h1c : b0 = 0xF4 → b1 ≤ 0x8F := by
    intro e
    have := h1.2
    rw [if_pos e] at this
    exact this
  have hc : (b0 &&& 0x07) <<< 18 ||| (b1 &&& 0x3F) <<< 12 ||| (b2 &&& 0x3F) <<< 6
      ||| (b3 &&& 0x3F) = b0 % 8 * 262144 + b1 % 64 * 4096 + b2 % 64 * 64 + b3 % 64 := by
    rw [and_0x07, and_0x3F, and_0x3F, and_0x3F, Nat.shiftLeft_eq, Nat.shiftLeft_eq,
      Nat.shiftLeft_eq,
      or_eq_add_of_mul 18 (b0 % 8) (b1 % 64 * 2 ^ 12) _ (by omega) (by omega),
      or_eq_add_of_mul 12 (b0 % 8 * 64 + b1 % 64) (b2 % 64 * 2 ^ 6) _ (by omega) (by omega),
      or_eq_add_of_mul 6 (b0 % 8 * 4096 + b1 % 64 * 64 + b2 % 64) (b3 % 64) _ (by omega)
        (by omega)]
  rw [hc]
  unfold Utf8.EncodeRune
  rw [if_neg (by omega), if_neg (by omega), if_neg (by omega), if_neg (by omega),
    and_0x3F, and_0x3F, and_0x3F, Nat.shiftRight_eq_div_pow, Nat.shiftRight_eq_div_pow,
    Nat.shiftRight_eq_div_pow,
    or_eq_add_of_mul 3 30
      ((b0 % 8 * 262144 + b1 % 64 * 4096 + b2 % 64 * 64 + b3 % 64) / 2 ^ 18) 0xF0
      (by norm_num) (by omega),
    or_eq_add_of_mul 6 2
      ((b0 % 8 * 262144 + b1 % 64 * 4096 + b2 % 64 * 64 + b3 % 64) / 2 ^ 12 % 64) 0x80
      (by norm_num) (by omega),
    or_eq_add_of_mul 6 2
      ((b0 % 8 * 262144 + b1 % 64 * 4096 + b2 % 64 * 64 + b3 % 64) / 2 ^ 6 % 64) 0x80
      (by norm_num) (by omega),
    or_eq_add_of_mul 6 2
      ((b0 % 8 * 262144 + b1 % 64 * 4096 + b2 % 64 * 64 + b3 % 64) % 64) 0x80
      (by norm_num) (by omega)]
  congr 1
  · omega
  · congr 1
    · omega
    · congr 1
      · omega
      · congr 1
        omega

theorem Utf8.decode_spec (b : Nat) (s : Bytes)
    (hv : ¬ ((Utf8.DecodeRune (b :: s)).1 = Utf8.RuneError ∧ (Utf8.DecodeRune (b :: s)).2 = 1)) :
    ∃ p t, b :: s = p ++ t ∧ p.length = (Utf8.DecodeRune (b :: s)).2 ∧ p ≠ [] ∧
      Utf8.EncodeRune (Utf8.DecodeRune (b :: s)).1 = p ∧
      (0x80 ≤ b → ∃ b0 p1, p = b0 :: p1 ∧ 0x80 ≤ b0) ∧
      (0x80 ≤ b → ∀ x ∈ p, 0x80 ≤ x) ∧
      ∀ t2, Utf8.DecodeRune (p ++ t2) = Utf8.DecodeRune (b :: s) := by
  by_cases c1 : b < 0x80
  · refine ⟨[b], s, rfl, ?_, by simp, ?_, fun h => absurd h (by omega),
      fun h => absurd h (by omega), fun t2 => ?_⟩ <;>
      simp [Utf8.DecodeRune, Utf8.EncodeRune, c1]
  by_cases c2 : b < 0xC2
  · exact absurd (by simp [Utf8.DecodeRune, c1, c2]) hv
  by_cases c3 : b < 0xE0
  · rcases s with _ | ⟨b1, t⟩
    · exact absurd (by simp [Utf8.DecodeRune, c1, c2, c3]) hv
    by_cases k1 : 0x80 ≤ b1 ∧ b1 ≤ 0xBF
    · have hd : ∀ t2, Utf8.DecodeRune (b :: b1 :: t2)
          = ((b &&& 0x1F) <<< 6 ||| (b1 &&& 0x3F), 2) := by
        intro t2
        simp [Utf8.DecodeRune, c1, c2, c3, Utf8.cont, k1]
      refine ⟨[b, b1], t, rfl, by rw [hd]; rfl, by simp, ?_, fun _ => ⟨b, [b1], rfl, by omega⟩,
        ?_, fun t2 => ?_⟩
      · rw [hd]
        exact Utf8.encode_two b b1 ⟨by omega, c3⟩ k1
      · intro _ x hx
        simp only [List.mem_cons, List.mem_singleton, List.not_mem_nil, or_false] at hx
        rcases hx with rfl | rfl <;> omega
      · rw [hd t]
        exact hd t2
    · exact absurd (by simp [Utf8.DecodeRune, c1, c2, c3, Utf8.cont, k1]) hv
  by_cases c4 : b < 0xF0
  · rcases s with _ | ⟨b1, _ | ⟨b2, t⟩⟩
    · exact absurd (by simp [Utf8.DecodeRune, c1, c2, c3, c4]) hv
    · exact absurd (by simp [Utf8.DecodeRune, c1, c2, c3, c4]) hv
    by_cases k1 : ((if b = 0xE0 then 0xA0 else 0x80) ≤ b1 ∧
        b1 ≤ (if b = 0xED then 0x9F else 0xBF)) ∧ (0x80 ≤ b2 ∧ b2 ≤ 0xBF)
    · have hd : ∀ t2, Utf8.DecodeRune (b :: b1 :: b2 :: t2)
          = ((b &&& 0x0F) <<< 12 ||| (b1 &&& 0x3F) <<< 6 ||| (b2 &&& 0x3F), 3) := by
        intro t2
        simp [Utf8.DecodeRune, c1, c2, c3, c4, Utf8.cont, k1.1, k1.2]
      have hb1 : 0x80 ≤ b1 := by
        have := k1.1.1
        split at this <;> omega
      refine ⟨[b, b1, b2], t, rfl, by rw [hd]; rfl, by simp, ?_,
        fun _ => ⟨b, [b1, b2], rfl, by omega⟩, ?_, fun t2 => ?_⟩
      · rw [hd]
        exact Utf8.encode_three b b1 b2 ⟨by omega, c4⟩ k1.1 k1.2
      · intro _ x hx
        simp only [List.mem_cons, List.mem_singleton, List.not_mem_nil, or_false] at hx
        rcases hx with rfl | rfl | rfl <;> omega
      · rw [hd t]
        exact hd t2
    · have : Utf8.DecodeRune (b :: b1 :: b2 :: t) = (Utf8.RuneError, 1) := by
        simp only [Utf8.DecodeRune, c1, c2, c3, c4, if_false, if_true, Utf8.cont]
        rw [if_neg]
        simpa [and_assoc] using k1
      exact absurd (by rw [this]; exact ⟨rfl, rfl⟩) hv
  by_cases c5 : b < 0xF5
  · rcases s with _ | ⟨b1, _ | ⟨b2, _ | ⟨b3, t⟩⟩⟩
    · exact absurd (by simp [Utf8.DecodeRune, c1, c2, c3, c4, c5]) hv
    · exact absurd (by simp [Utf8.DecodeRune, c1, c2, c3, c4, c5]) hv
    · exact absurd (by simp [Utf8.DecodeRune, c1, c2, c3, c4, c5]) hv
    by_cases k1 : (((if b = 0xF0 then 0x90 else 0x80) ≤ b1 ∧
        b1 ≤ (if b = 0xF4 then 0x8F else 0xBF)) ∧ (0x80 ≤ b2 ∧ b2 ≤ 0xBF)) ∧
        (0x80 ≤ b3 ∧ b3 ≤ 0xBF)
    · have hd : ∀ t2, Utf8.DecodeRune (b :: b1 :: b2 :: b3 :: t2)
          = ((b &&& 0x07) <<< 18 ||| (b1 &&& 0x3F) <<< 12 ||| (b2 &&& 0x3F) <<< 6
              ||| (b3 &&& 0x3F), 4) := by
        intro t2
        simp [Utf8.DecodeRune, c1, c2, c3, c4, c5, Utf8.cont, k1.1.1, k1.1.2, k1.2]
      have hb1 : 0x80 ≤ b1 := by
        have := k1.1.1.1
        split at this <;> omega
      refine ⟨[b, b1, b2, b3], t, rfl, by rw [hd]; rfl, by simp, ?_,
        fun _ => ⟨b, [b1, b2, b3], rfl, by omega⟩, ?_, fun t2 => ?_⟩
      · rw [hd]
        exact Utf8.encode_four b b1 b2 b3 ⟨by omega, c5⟩ k1.1.1 k1.1.2 k1.2
      · intro _ x hx
        simp only [List.mem_cons, List.mem_singleton, List.not_mem_nil, or_false] at hx
        rcases hx with rfl | rfl | rfl | rfl <;> omega
      · rw [hd t]
        exact hd t2
    · have : Utf8.DecodeRune (b :: b1 :: b2 :: b3 :: t) = (Utf8.RuneError, 1) := by
        simp only [Utf8.DecodeRune, c1, c2, c3, c4, c5, if_false, if_true, Utf8.cont]
        rw [if_neg]
        simpa [and_assoc] using k1
      exact absurd (by rw [this]; exact ⟨rfl, rfl⟩) hv
  · exact absurd (by simp [Utf8.DecodeRune, c1, c2, c3, c4, c5]) hv

/-! ## Lemmas on the JSON strings -/

theorem Json.unquote_quote (m : Nat) (s acc : Bytes) :
    Json.unquote (m + 1) (0x22 :: s) acc = some (acc, s) := by
  simp [Json.unquote]

theorem Json.unquote_plain (m c : Nat) (s acc : Bytes) (h1 : c ≠ 0x22) (h2 : c ≠ 0x5C)
    (h3 : 0x20 ≤ c) (h4 : c < 0x80) :
    Json.unquote (m + 1) (c :: s) acc = Json.unquote m s (acc ++ [c]) := by
  have h5 : ¬ c < 0x20 := by omega
  simp [Json.unquote, h1, h2, h5, h4]

theorem Json.unquote_escape (m e x : Nat) (s acc : Bytes) (he : e ≠ 0x75)
    (hx : Json.unescape e = some x) :
    Json.unquote (m + 1) (0x5C :: e :: s) acc = Json.unquote m s (acc ++ [x]) := by
  simp [Json.unquote, he, hx]

theorem Json.getu4_cons (h0 h1 h2 h3 : Nat) (s : Bytes) :
    Json.getu4 (0x5C :: 0x75 :: h0 :: h1 :: h2 :: h3 :: s)
      = Json.getu4 [0x5C, 0x75, h0, h1, h2, h3] := by
  simp [Json.getu4]

theorem Json.unquote_u4 (m h0 h1 h2 h3 rr : Nat) (s acc : Bytes)
    (hg : Json.getu4 [0x5C, 0x75, h0, h1, h2, h3] = some rr)
    (hs : Json.isSurrogate rr = false) :
    Json.unquote (m + 1) (0x5C :: 0x75 :: h0 :: h1 :: h2 :: h3 :: s) acc
      = Json.unquote m s (acc ++ Utf8.EncodeRune rr) := by
  simp [Json.unquote, Json.getu4_cons, hg, hs]

theorem Json.getu4_hex : ∀ b < 128,
    Json.getu4 [0x5C, 0x75, 0x30, 0x30, Json.hex (b >>> 4), Json.hex (b &&& 0xF)] = some b := by
  decide

theorem Json.unquote_ascii (m b : Nat) (rest acc : Bytes) (hb : b < 0x80) :
    Json.unquote (m + 1) ((if Json.htmlSafe b then [b] else Json.escapeByte b) ++ rest) acc
      = Json.unquote m rest (acc ++ [b]) := by
  by_cases hs : Json.htmlSafe b = true
  · rw [if_pos hs]
    simp only [Json.htmlSafe, decide_eq_true_eq] at hs
    exact Json.unquote_plain m b rest acc hs.2.2.1 hs.2.2.2.1 hs.1 hs.2.1
  · rw [if_neg hs]
    unfold Json.escapeByte
    by_cases e1 : b = 0x5C ∨ b = 0x22
    · rw [if_pos e1]
      have hx : Json.unescape b = some b := by
        rcases e1 with rfl | rfl <;> decide
      have h75 : b ≠ 0x75 := by omega
      exact Json.unquote_escape m b b rest acc h75 hx
    rw [if_neg e1]
    by_cases e2 : b = 0x0A
    · rw [if_pos e2, e2]
      exact Json.unquote_escape m 0x6E 0x0A rest acc (by decide) (by decide)
    rw [if_neg e2]
    by_cases e3 : b = 0x0D
    · rw [if_pos e3, e3]
      exact Json.unquote_escape m 0x72 0x0D rest acc (by decide) (by decide)
    rw [if_neg e3]
    by_cases e4 : b = 0x09
    · rw [if_pos e4, e4]
      exact Json.unquote_escape m 0x74 0x09 rest acc (by decide) (by decide)
    rw [if_neg e4]
    have hsur : Json.isSurrogate b = false := by
      simp only [Json.isSurrogate, decide_eq_false_iff_not]
      omega
    have henc : Utf8.EncodeRune b = [b] := by simp [Utf8.EncodeRune, hb]
    have := Json.unquote_u4 m 0x30 0x30 (Json.hex (b >>> 4)) (Json.hex (b &&& 0xF)) b rest acc
      (Json.getu4_hex b hb) hsur
    rw [henc] at this
    exact this

theorem Json.unquote_rune (m : Nat) (p rest acc : Bytes) (c w b0 : Nat) (p1 : Bytes)
    (hp : p = b0 :: p1) (hb0 : 0x80 ≤ b0) (hlen : p.length = w)
    (hd : Utf8.DecodeRune (p ++ rest) = (c, w)) (henc : Utf8.EncodeRune c = p) :
    Json.unquote (m + 1) (p ++ rest) acc = Json.unquote m rest (acc ++ p) := by
  have h1 : b0 ≠ 0x22 := by omega
  have h2 : b0 ≠ 0x5C := by omega
  have h3 : ¬ b0 < 0x20 := by omega
  have h4 : ¬ b0 < 0x80 := by omega
  have hdrop : List.drop w (p ++ rest) = rest := by
    rw [← hlen]
    exact List.drop_left _ _
  subst hp
  rw [List.cons_append] at hd hdrop ⊢
  simp only [Json.unquote, h1, h2, h3, h4, if_false, hd, hdrop, henc]

theorem Json.unquote_sep (m : Nat) (rest acc : Bytes) (c : Nat) (hc : c = 0x2028 ∨ c = 0x2029) :
    Json.unquote (m + 1) ([0x5C, 0x75, 0x32, 0x30, 0x32, Json.hex (c &&& 0xF)] ++ rest) acc
      = Json.unquote m rest (acc ++ Utf8.EncodeRune c) := by
  rcases hc with rfl | rfl
  · exact Json.unquote_u4 m 0x32 0x30 0x32 _ 0x2028 rest acc (by decide) (by decide)
  · exact Json.unquote_u4 m 0x32 0x30 0x32 _ 0x2029 rest acc (by decide) (by decide)

theorem Json.scanAll_append (a b : Bytes) : ∀ s : Json.Scanner,
    Json.scanAll s (a ++ b) = (Json.scanAll s a).bind fun s1 => Json.scanAll s1 b := by
  induction a with
  | nil => intro s; rfl
  | cons c a ih =>
    intro s
    simp only [List.cons_append, Json.scanAll]
    cases Json.scan s c with
    | none => rfl
    | some s1 => exact ih s1

theorem Json.scan_inString_plain (ps : List Json.ParseState) (c : Nat) (h1 : c ≠ 0x22)
    (h2 : c ≠ 0x5C) (h3 : 0x20 ≤ c) :
    Json.scan ⟨.inString, ps⟩ c = some ⟨.inString, ps⟩ := by
  have h4 : ¬ c < 0x20 := by omega
  simp [Json.scan, h1, h2, h4]

theorem Json.scanAll_inString_high (ps : List Json.ParseState) (p : Bytes)
    (h : ∀ x ∈ p, 0x80 ≤ x) :
    Json.scanAll ⟨.inString, ps⟩ p = some ⟨.inString, ps⟩ := by
  induction p with
  | nil => rfl
  | cons c p ih =>
    have hc := h c (List.mem_cons_self _ _)
    rw [Json.scanAll, Json.scan_inString_plain ps c (by omega) (by omega) (by omega)]
    exact ih fun x hx => h x (List.mem_cons_of_mem _ hx)

theorem Json.isHexDigit_hex : ∀ b < 128,
    Json.isHexDigit (Json.hex (b >>> 4)) = true ∧ Json.isHexDigit (Json.hex (b &&& 0xF)) = true := by
  decide

theorem Json.scanAll_inString_ascii (ps : List Json.ParseState) (b : Nat) (hb : b < 0x80) :
    Json.scanAll ⟨.inString, ps⟩ (if Json.htmlSafe b then [b] else Json.escapeByte b)
      = some ⟨.inString, ps⟩ := by
  by_cases hs : Json.htmlSafe b = true
  · rw [if_pos hs]
    simp only [Json.htmlSafe, decide_eq_true_eq] at hs
    rw [Json.scanAll, Json.scan_inString_plain ps b hs.2.2.1 hs.2.2.2.1 hs.1]
    rfl
  · rw [if_neg hs]
    unfold Json.escapeByte
    by_cases e1 : b = 0x5C ∨ b = 0x22
    · rw [if_pos e1]
      rcases e1 with rfl | rfl <;> simp [Json.scanAll, Json.scan]
    rw [if_neg e1]
    by_cases e2 : b = 0x0A
    · rw [if_pos e2]
      simp [Json.scanAll, Json.scan]
    rw [if_neg e2]
    by_cases e3 : b = 0x0D
    · rw [if_pos e3]
      simp [Json.scanAll, Json.scan]
    rw [if_neg e3]
    by_cases e4 : b = 0x09
    · rw [if_pos e4]
      simp [Json.scanAll, Json.scan]
    rw [if_neg e4]
    have hh := Json.isHexDigit_hex b hb
    have h0 : Json.isHexDigit 0x30 = true := by decide
    simp [Json.scanAll, Json.scan, hh.1, hh.2, h0]

theorem Json.scanAll_inString_sep (ps : List Json.ParseState) (c : Nat)
    (hc : c = 0x2028 ∨ c = 0x2029) :
    Json.scanAll ⟨.inString, ps⟩ [0x5C, 0x75, 0x32, 0x30, 0x32, Json.hex (c &&& 0xF)]
      = some ⟨.inString, ps⟩ := by
  have h0 : Json.isHexDigit 0x30 = true := by decide
  have h2 : Json.isHexDigit 0x32 = true := by decide
  have h8 : Json.isHexDigit (Json.hex (0x2028 &&& 0xF)) = true := by decide
  have h9 : Json.isHexDigit (Json.hex (0x2029 &&& 0xF)) = true := by decide
  rcases hc with rfl | rfl
  · simp [Json.scanAll, Json.scan, h0, h2, h8]
  · simp [Json.scanAll, Json.scan, h0, h2, h9]

theorem Utf8.EncodeRune_length_le (r : Nat) : (Utf8.EncodeRune r).length ≤ 4 := by
  unfold Utf8.EncodeRune
  split_ifs <;> simp

theorem Json.encodeRunes_step (n b : Nat) (s : Bytes)
    (hv : Utf8.Valid (n + 1) (b :: s) = true) :
    ∃ e p t, b :: s = p ++ t ∧ p ≠ [] ∧ p.length ≤ e.length ∧ Utf8.Valid n t = true ∧
      Json.encodeRunes (n + 1) (b :: s) = e ++ Json.encodeRunes n t ∧
      (∀ ps : List Json.ParseState,
        Json.scanAll ⟨.inString, ps⟩ e = some ⟨.inString, ps⟩) ∧
      ∀ (m : Nat) (rest acc : Bytes),
        Json.unquote (m + 1) (e ++ rest) acc = Json.unquote m rest (acc ++ p) := by
  by_cases hb : b < 0x80
  · have hdec : Utf8.DecodeRune (b :: s) = (b, 1) := by simp [Utf8.DecodeRune, hb]
    have hv2 : Utf8.Valid n s = true := by
      simp only [Utf8.Valid, hdec] at hv
      have hne : b ≠ Utf8.RuneError := by
        simp only [Utf8.RuneError]
        omega
      simpa [hne] using hv
    refine ⟨if Json.htmlSafe b then [b] else Json.escapeByte b, [b], s, rfl, by simp, ?_, hv2,
      ?_, fun ps => Json.scanAll_inString_ascii ps b hb,
      fun m rest acc => Json.unquote_ascii m b rest acc hb⟩
    · unfold Json.escapeByte
      split_ifs <;> simp
    · simp only [Json.encodeRunes, hb, if_true]
  · have hvalid : ¬ ((Utf8.DecodeRune (b :: s)).1 = Utf8.RuneError ∧
        (Utf8.DecodeRune (b :: s)).2 = 1) := by
      intro h
      simp only [Utf8.Valid] at hv
      simp [h] at hv
    obtain ⟨p, t, hpt, hlen, hpne, henc, hhead, hhigh, hdet⟩ := Utf8.decode_spec b s hvalid
    obtain ⟨b0, p1, hp, hb0⟩ := hhead (by omega)
    have htake : List.take (Utf8.DecodeRune (b :: s)).2 (b :: s) = p := by
      have h := List.take_left p t
      rw [hlen, ← hpt] at h
      exact h
    have hdrop : List.drop (Utf8.DecodeRune (b :: s)).2 (b :: s) = t := by
      have h := List.drop_left p t
      rw [hlen, ← hpt] at h
      exact h
    have hv2 : Utf8.Valid n t = true := by
      simp only [Utf8.Valid] at hv
      rw [if_neg hvalid, hdrop] at hv
      exact hv
    have hp4 : p.length ≤ 4 := by
      rw [← henc]
      exact Utf8.EncodeRune_length_le _
    by_cases hsep : (Utf8.DecodeRune (b :: s)).1 = 0x2028 ∨ (Utf8.DecodeRune (b :: s)).1 = 0x2029
    · refine ⟨[0x5C, 0x75, 0x32, 0x30, 0x32, Json.hex ((Utf8.DecodeRune (b :: s)).1 &&& 0xF)],
        p, t, hpt, hpne, ?_, hv2, ?_, fun ps => Json.scanAll_inString_sep ps _ hsep,
        fun m rest acc => ?_⟩
      · simp only [List.length_cons, List.length_nil]
        omega
      · simp only [Json.encodeRunes, hb, if_false, hvalid, hsep, if_true, hdrop]
      · rw [Json.unquote_sep m rest acc _ hsep, henc]
    · refine ⟨p, p, t, hpt, hpne, le_refl _, hv2, ?_,
        fun ps => Json.scanAll_inString_high ps p (hhigh (by omega)), fun m rest acc => ?_⟩
      · simp only [Json.encodeRunes, hb, if_false, hvalid, hsep, htake, hdrop]
      · exact Json.unquote_rune m p rest acc (Utf8.DecodeRune (b :: s)).1
          (Utf8.DecodeRune (b :: s)).2 b0 p1 hp hb0 hlen (hdet _) henc

theorem Json.unquote_encodeRunes (n : Nat) : ∀ (s : Bytes), s.length ≤ n →
    Utf8.Valid n s = true → ∀ (m : Nat) (tail acc : Bytes), s.length < m →
    Json.unquote m (Json.encodeRunes n s ++ 0x22 :: tail) acc = some (acc ++ s, tail) := by
  induction n with
  | zero =>
    intro s hs _ m tail acc hm
    have : s = [] := List.eq_nil_of_length_eq_zero (by omega)
    subst this
    obtain ⟨m, rfl⟩ : ∃ k, m = k + 1 := ⟨m - 1, by simp at hm; omega⟩
    simp [Json.encodeRunes, Json.unquote_quote]
  | succ n ih =>
    intro s hs hv m tail acc hm
    obtain ⟨m, rfl⟩ : ∃ k, m = k + 1 := ⟨m - 1, by omega⟩
    rcases s with _ | ⟨b, s⟩
    · simp [Json.encodeRunes, Json.unquote_quote]
    obtain ⟨e, p, t, hpt, hpne, _, hv2, hstep, _, hun⟩ := Json.encodeRunes_step n b s hv
    have hl := congrArg List.length hpt
    simp only [List.length_cons, List.length_append] at hl hs hm
    have hp0 : 0 < p.length := List.length_pos.mpr hpne
    rw [hstep, List.append_assoc, hun, ih t (by omega) hv2 m tail _ (by omega),
      List.append_assoc, ← hpt]

theorem Json.encodeRunes_length (n : Nat) : ∀ s : Bytes, s.length ≤ n →
    Utf8.Valid n s = true → s.length ≤ (Json.encodeRunes n s).length := by
  induction n with
  | zero =>
    intro s hs _
    omega
  | succ n ih =>
    intro s hs hv
    rcases s with _ | ⟨b, s⟩
    · simp
    obtain ⟨e, p, t, hpt, hpne, hpe, hv2, hstep, _, _⟩ := Json.encodeRunes_step n b s hv
    have hl := congrArg List.length hpt
    simp only [List.length_cons, List.length_append] at hl hs
    have hp0 : 0 < p.length := List.length_pos.mpr hpne
    have := ih t (by omega) hv2
    rw [hstep, List.length_append, List.length_cons, hl]
    omega

theorem Json.unquote_encodeString (s tail : Bytes) (hv : Utf8.ValidString s = true) :
    Json.unquote (Json.encodeRunes s.length s ++ 0x22 :: tail).length
      (Json.encodeRunes s.length s ++ 0x22 :: tail) [] = some (s, tail) := by
  have hlen := Json.encodeRunes_length s.length s (le_refl _) hv
  have := Json.unquote_encodeRunes s.length s (le_refl _) hv
    (Json.encodeRunes s.length s ++ 0x22 :: tail).length tail []
    (by simp only [List.length_append, List.length_cons]; omega)
  simpa using this

theorem Json.scanAll_encodeRunes (n : Nat) : ∀ (s : Bytes), s.length ≤ n →
    Utf8.Valid n s = true → ∀ ps : List Json.ParseState,
    Json.scanAll ⟨.inString, ps⟩ (Json.encodeRunes n s) = some ⟨.inString, ps⟩ := by
  induction n with
  | zero => intro s _ _ ps; rfl
  | succ n ih =>
    intro s hs hv ps
    rcases s with _ | ⟨b, s⟩
    · rfl
    obtain ⟨e, p, t, hpt, hpne, _, hv2, hstep, hscan, _⟩ := Json.encodeRunes_step n b s hv
    have hl := congrArg List.length hpt
    simp only [List.length_cons, List.length_append] at hl hs
    have hp0 : 0 < p.length := List.length_pos.mpr hpne
    rw [hstep, Json.scanAll_append, hscan ps]
    exact ih t (by omega) hv2 ps

theorem Json.scanAll_encodeString (s : Bytes) (hv : Utf8.ValidString s = true)
    (st : Json.Step) (ps : List Json.ParseState)
    (hst : st = .beginValue ∨ st = .beginString ∨ st = .beginStringOrEmpty) :
    Json.scanAll ⟨st, ps⟩ (Json.encodeString s) = some ⟨.endValue, ps⟩ := by
  have h1 : Json.scan ⟨st, ps⟩ 0x22 = some ⟨.inString, ps⟩ := by
    rcases hst with rfl | rfl | rfl <;>
      simp [Json.scan, Json.isSpace, Json.stateBeginValue, Json.stateBeginString]
  have h2 := Json.scanAll_encodeRunes s.length s (le_refl _) hv ps
  have h3 : Json.scan ⟨.inString, ps⟩ 0x22 = some ⟨.endValue, ps⟩ := by simp [Json.scan]
  have e : Json.encodeString s = 0x22 :: (Json.encodeRunes s.length s ++ [0x22]) := by
    simp [Json.encodeString]
  rw [e]
  simp only [Json.scanAll, h1]
  rw [Json.scanAll_append, h2]
  simp [Json.scanAll, h3]

/-! ## Lemmas on the JSON objects and the round trip -/

theorem Json.skipSpace_cons (c : Nat) (s : Bytes) (h : Json.isSpace c = false) :
    Json.skipSpace (c :: s) = c :: s := by
  simp [Json.skipSpace, h]

theorem Json.encodeString_eq (s tail : Bytes) :
    Json.encodeString s ++ tail = 0x22 :: (Json.encodeRunes s.length s ++ 0x22 :: tail) := by
  simp [Json.encodeString]

theorem Json.readValue_encodeString (v tail : Bytes) (hv : Utf8.ValidString v = true) :
    Json.readValue (Json.encodeString v ++ tail) = some (v, false, tail) := by
  rw [Json.encodeString_eq v]
  simp only [Json.readValue, if_true, Json.unquote_encodeString _ _ hv]

theorem Json.members_last (n : Nat) (k v : Bytes) (m : Store) (bad : Bool)
    (hk : Utf8.ValidString k = true) (hv : Utf8.ValidString v = true) :
    Json.members (n + 1) (Json.encodeString k ++ [0x3A] ++ Json.encodeString v ++ [0x7D]) m bad
      = some (m.set k v, bad) := by
  rw [List.append_assoc, List.append_assoc, Json.encodeString_eq k]
  simp only [Json.members, ne_eq, not_true_eq_false, if_false, List.singleton_append,
    Json.unquote_encodeString _ _ hk]
  rw [Json.skipSpace_cons _ _ (by decide)]
  simp only [ne_eq, not_true_eq_false, if_false]
  obtain ⟨t, ht⟩ : ∃ t, Json.encodeString v ++ [0x7D] = 0x22 :: t :=
    ⟨_, Json.encodeString_eq v [0x7D]⟩
  have hsk : Json.skipSpace (Json.encodeString v ++ [0x7D]) = Json.encodeString v ++ [0x7D] := by
    rw [ht]
    exact Json.skipSpace_cons _ _ (by decide)
  rw [hsk, Json.readValue_encodeString v _ hv]
  simp only []
  rw [Json.skipSpace_cons _ _ (by decide)]
  simp

theorem Json.members_comma (n : Nat) (k v rest : Bytes) (m : Store) (bad : Bool)
    (hk : Utf8.ValidString k = true) (hv : Utf8.ValidString v = true) :
    Json.members (n + 1)
      (Json.encodeString k ++ [0x3A] ++ Json.encodeString v ++ [0x2C] ++ rest) m bad
      = Json.members n (Json.skipSpace rest) (m.set k v) bad := by
  rw [List.append_assoc, List.append_assoc, List.append_assoc, Json.encodeString_eq k]
  simp only [Json.members, ne_eq, not_true_eq_false, if_false, List.singleton_append,
    Json.unquote_encodeString _ _ hk]
  rw [Json.skipSpace_cons _ _ (by decide)]
  simp only [ne_eq, not_true_eq_false, if_false]
  obtain ⟨t, ht⟩ : ∃ t, Json.encodeString v ++ 0x2C :: rest = 0x22 :: t :=
    ⟨_, Json.encodeString_eq v (0x2C :: rest)⟩
  have hsk : Json.skipSpace (Json.encodeString v ++ 0x2C :: rest)
      = Json.encodeString v ++ 0x2C :: rest := by
    rw [ht]
    exact Json.skipSpace_cons _ _ (by decide)
  rw [hsk, Json.readValue_encodeString v _ hv]
  simp only []
  rw [Json.skipSpace_cons _ _ (by decide)]
  simp

theorem Json.encodeEntries_cons (e : Bytes × Bytes) (es : List (Bytes × Bytes)) (tail : Bytes) :
    ∃ t, Json.encodeEntries (e :: es) ++ tail = 0x22 :: t := by
  obtain ⟨k, v⟩ := e
  cases es with
  | nil => exact ⟨_, by simp [Json.encodeEntries, Json.encodeString]; rfl⟩
  | cons e2 rest => exact ⟨_, by simp [Json.encodeEntries, Json.encodeString]; rfl⟩

theorem Json.members_encodeEntries : ∀ (es : List (Bytes × Bytes)) (n : Nat) (m : Store)
    (bad : Bool), es ≠ [] → es.length ≤ n →
    (∀ e ∈ es, Utf8.ValidString e.1 = true ∧ Utf8.ValidString e.2 = true) →
    Json.members n (Json.encodeEntries es ++ [0x7D]) m bad
      = some (es.foldl (fun acc e => acc.set e.1 e.2) m, bad) := by
  intro es
  induction es with
  | nil => intro n m bad h; exact absurd rfl h
  | cons e rest ih =>
    intro n m bad _ hn hvalid
    obtain ⟨k, v⟩ := e
    obtain ⟨n, rfl⟩ : ∃ j, n = j + 1 := ⟨n - 1, by simp at hn; omega⟩
    have hkv := hvalid (k, v) (List.mem_cons_self _ _)
    cases rest with
    | nil =>
      simp only [Json.encodeEntries, List.foldl_cons, List.foldl_nil]
      exact Json.members_last n k v m bad hkv.1 hkv.2
    | cons e2 rest =>
      simp only [Json.encodeEntries, List.foldl_cons]
      rw [List.append_assoc _ (Json.encodeEntries (e2 :: rest)) [0x7D],
        Json.members_comma n k v _ m bad hkv.1 hkv.2]
      obtain ⟨t, ht⟩ := Json.encodeEntries_cons e2 rest [0x7D]
      have hsk : Json.skipSpace (Json.encodeEntries (e2 :: rest) ++ [0x7D])
          = Json.encodeEntries (e2 :: rest) ++ [0x7D] := by
        rw [ht]
        exact Json.skipSpace_cons _ _ (by decide)
      rw [hsk, ih n (m.set k v) bad (by simp) (by simp at hn ⊢; omega)
        (fun e he => hvalid e (List.mem_cons_of_mem _ he))]
      rfl

theorem Json.scanAll_cons_of (s s1 : Json.Scanner) (c : Nat) (rest : Bytes)
    (h : Json.scan s c = some s1) : Json.scanAll s (c :: rest) = Json.scanAll s1 rest := by
  simp only [Json.scanAll, h]

theorem Json.scanAll_entry (k v : Bytes) (st : Json.Step) (rest : Bytes)
    (hst : st = .beginString ∨ st = .beginStringOrEmpty)
    (hk : Utf8.ValidString k = true) (hv : Utf8.ValidString v = true) :
    Json.scanAll ⟨st, [.objectKey]⟩ (Json.encodeString k ++ [0x3A] ++ Json.encodeString v ++ rest)
      = Json.scanAll ⟨.endValue, [.objectValue]⟩ rest := by
  have h1 := Json.scanAll_encodeString k hk st [.objectKey]
    (by rcases hst with h | h <;> simp [h])
  have h2 := Json.scanAll_encodeString v hv .beginValue [.objectValue] (Or.inl rfl)
  have hc : Json.scan ⟨.endValue, [.objectKey]⟩ 0x3A = some ⟨.beginValue, [.objectValue]⟩ := by
    decide
  rw [List.append_assoc, List.append_assoc, Json.scanAll_append, h1, Option.some_bind,
    List.singleton_append, Json.scanAll_cons_of _ _ _ _ hc, Json.scanAll_append, h2,
    Option.some_bind]

theorem Json.scanAll_entries : ∀ (es : List (Bytes × Bytes)) (st : Json.Step), es ≠ [] →
    (st = .beginString ∨ st = .beginStringOrEmpty) →
    (∀ e ∈ es, Utf8.ValidString e.1 = true ∧ Utf8.ValidString e.2 = true) →
    Json.scanAll ⟨st, [.objectKey]⟩ (Json.encodeEntries es ++ [0x7D]) = some ⟨.endTop, []⟩ := by
  intro es
  induction es with
  | nil => intro st h; exact absurd rfl h
  | cons e rest ih =>
    intro st _ hst hvalid
    obtain ⟨k, v⟩ := e
    have hkv := hvalid (k, v) (List.mem_cons_self _ _)
    cases rest with
    | nil =>
      have hclose : Json.scan ⟨.endValue, [.objectValue]⟩ 0x7D = some ⟨.endTop, []⟩ := by decide
      simp only [Json.encodeEntries]
      rw [Json.scanAll_entry k v st _ hst hkv.1 hkv.2, Json.scanAll_cons_of _ _ _ _ hclose]
      rfl
    | cons e2 rest =>
      have ih2 := ih .beginString (by simp) (Or.inl rfl)
        (fun e he => hvalid e (List.mem_cons_of_mem _ he))
      have hcomma : Json.scan ⟨.endValue, [.objectValue]⟩ 0x2C
          = some ⟨.beginString, [.objectKey]⟩ := by decide
      simp only [Json.encodeEntries]
      rw [List.append_assoc, List.append_assoc _ [0x2C], Json.scanAll_entry k v st _ hst hkv.1 hkv.2,
        List.singleton_append, Json.scanAll_cons_of _ _ _ _ hcomma]
      exact ih2

theorem Json.checkValid_encoded (es : List (Bytes × Bytes))
    (hvalid : ∀ e ∈ es, Utf8.ValidString e.1 = true ∧ Utf8.ValidString e.2 = true) :
    Json.checkValid ([0x7B] ++ Json.encodeEntries es ++ [0x7D]) = true := by
  cases es with
  | nil => decide
  | cons e rest =>
    have h := Json.scanAll_entries (e :: rest) .beginStringOrEmpty (by simp) (Or.inr rfl) hvalid
    have h0 : Json.scan ⟨.beginValue, []⟩ 0x7B = some ⟨.beginStringOrEmpty, [.objectKey]⟩ := by
      decide
    rw [List.append_assoc, List.singleton_append]
    simp only [Json.checkValid, Json.scanAll, h0, h]
    rfl

theorem Json.encodeEntries_length (es : List (Bytes × Bytes)) :
    es.length ≤ (Json.encodeEntries es).length := by
  induction es with
  | nil => simp
  | cons e rest ih =>
    obtain ⟨k, v⟩ := e
    cases rest with
    | nil => simp [Json.encodeEntries, Json.encodeString]
    | cons e2 rest =>
      simp only [Json.encodeEntries, Json.encodeString, List.length_append, List.length_cons,
        List.length_nil] at ih ⊢
      omega

theorem Json.Unmarshal_encoded (es : List (Bytes × Bytes))
    (hvalid : ∀ e ∈ es, Utf8.ValidString e.1 = true ∧ Utf8.ValidString e.2 = true) :
    Json.Unmarshal ([0x7B] ++ Json.encodeEntries es ++ [0x7D]) []
      = Json.Decoded.ok (es.foldl (fun acc e => acc.set e.1 e.2) []) := by
  have hcv := Json.checkValid_encoded es hvalid
  cases es with
  | nil => decide
  | cons e rest =>
    obtain ⟨t, ht⟩ := Json.encodeEntries_cons e rest [0x7D]
    have hlen := Json.encodeEntries_length (e :: rest)
    have hm := Json.members_encodeEntries (e :: rest)
      ([0x7B] ++ Json.encodeEntries (e :: rest) ++ [0x7D]).length [] false (by simp)
      (by simp only [List.length_append, List.length_cons, List.length_nil] at hlen ⊢; omega)
      hvalid
    unfold Json.Unmarshal
    rw [hcv]
    simp only [Bool.true_eq_false, if_false]
    rw [List.append_assoc, List.singleton_append] at hm ⊢
    rw [Json.skipSpace_cons _ _ (by decide)]
    simp only [if_true]
    rw [ht, Json.skipSpace_cons _ _ (by decide)]
    simp only [show ¬ (0x22 : Nat) = 0x7D by decide, if_false]
    rw [← ht, hm]

theorem Store.lookup_eq_some_iff (l : Store) (hnd : (l.map Prod.fst).Nodup) (k v : Bytes) :
    l.lookup k = some v ↔ (k, v) ∈ l := by
  induction l with
  | nil => simp
  | cons p l ih =>
    obtain ⟨a, b⟩ := p
    simp only [List.map_cons, List.nodup_cons] at hnd
    rw [List.lookup_cons]
    by_cases hk : k = a
    · subst hk
      simp only [beq_self_eq_true, Option.some.injEq, List.mem_cons, Prod.mk.injEq, true_and]
      constructor
      · intro h
        exact Or.inl h.symm
      · rintro (h | h)
        · exact h.symm
        · exact absurd (List.mem_map_of_mem Prod.fst h) hnd.1
    · have hb : (k == a) = false := by simpa using hk
      simp only [hb, List.mem_cons, Prod.mk.injEq, hk, false_and, false_or]
      exact ih hnd.2

theorem Store.lookup_eq_none_iff (l : Store) (k : Bytes) :
    l.lookup k = none ↔ k ∉ l.map Prod.fst := by
  induction l with
  | nil => simp
  | cons p l ih =>
    obtain ⟨a, b⟩ := p
    rw [List.lookup_cons]
    by_cases hk : k = a
    · subst hk
      simp
    · have hb : (k == a) = false := by simpa using hk
      simp only [hb, List.map_cons, List.mem_cons, hk, false_or]
      exact ih

theorem Store.lookup_perm (l1 l2 : Store) (hp : l1.Perm l2) (hnd : (l2.map Prod.fst).Nodup)
    (k : Bytes) : l1.lookup k = l2.lookup k := by
  have hnd1 : (l1.map Prod.fst).Nodup := (hp.map Prod.fst).nodup_iff.mpr hnd
  cases h2 : l2.lookup k with
  | none =>
    rw [Store.lookup_eq_none_iff] at h2 ⊢
    exact fun h => h2 ((hp.map Prod.fst).mem_iff.mp h)
  | some v =>
    rw [Store.lookup_eq_some_iff l2 hnd] at h2
    rw [Store.lookup_eq_some_iff l1 hnd1]
    exact hp.mem_iff.mpr h2

theorem Store.lookup_foldl_set (es : List (Bytes × Bytes)) :
    ∀ (m0 : Store), (es.map Prod.fst).Nodup → ∀ k : Bytes,
    (es.foldl (fun acc e => acc.set e.1 e.2) m0).lookup k
      = if k ∈ es.map Prod.fst then es.lookup k else m0.lookup k := by
  induction es with
  | nil => intro m0 _ k; simp
  | cons e rest ih =>
    intro m0 hnd k
    obtain ⟨a, b⟩ := e
    simp only [List.map_cons, List.nodup_cons] at hnd
    rw [List.foldl_cons, ih _ hnd.2 k, List.lookup_cons]
    by_cases hk : k = a
    · subst hk
      simp [hnd.1, Store.lookup_set_self]
    · have hb : (k == a) = false := by simpa using hk
      simp only [hb, List.map_cons, List.mem_cons, hk, false_or]
      rw [Store.lookup_set_ne m0 a k b hk]

theorem Json.roundtrip_lookup (store : Store) (hnd : (store.map Prod.fst).Nodup)
    (hvalid : ∀ e ∈ store, Utf8.ValidString e.1 = true ∧ Utf8.ValidString e.2 = true) :
    ∃ loaded, Json.Unmarshal (Json.Marshal store) [] = Json.Decoded.ok loaded ∧
      ∀ k : Bytes, loaded.lookup k = store.lookup k := by
  have hperm : (Json.sortKeys store).Perm store := List.perm_insertionSort _ store
  have hnd2 : ((Json.sortKeys store).map Prod.fst).Nodup :=
    (hperm.map Prod.fst).nodup_iff.mpr hnd
  refine ⟨_, Json.Unmarshal_encoded (Json.sortKeys store)
    (fun e he => hvalid e (hperm.mem_iff.mp he)), fun k => ?_⟩
  rw [Store.lookup_foldl_set _ [] hnd2 k]
  split
  · exact Store.lookup_perm _ _ hperm hnd k
  · next h =>
    rw [List.lookup_nil]
    have h2 : k ∉ store.map Prod.fst := fun hk => h ((hperm.map Prod.fst).mem_iff.mpr hk)
    exact ((Store.lookup_eq_none_iff store k).mpr h2).symm

theorem Store.nodup_delete (m : Store) (name : Bytes) (h : (m.map Prod.fst).Nodup) :
    ((m.delete name).map Prod.fst).Nodup :=
  (((List.filter_sublist m).map Prod.fst).nodup h)

theorem Store.nodup_set (m : Store) (name secret : Bytes) (h : (m.map Prod.fst).Nodup) :
    ((m.set name secret).map Prod.fst).Nodup := by
  simp only [Store.set, List.map_cons, List.nodup_cons]
  refine ⟨?_, Store.nodup_delete m name h⟩
  rw [← Store.lookup_eq_none_iff]
  exact Store.lookup_delete_self m name

theorem Store.nodup_foldl_set (es : List (Bytes × Bytes)) : ∀ m0 : Store,
    (m0.map Prod.fst).Nodup →
    ((es.foldl (fun acc e => acc.set e.1 e.2) m0).map Prod.fst).Nodup := by
  induction es with
  | nil => intro m0 h; exact h
  | cons e rest ih =>
    intro m0 h
    rw [List.foldl_cons]
    exact ih _ (Store.nodup_set m0 e.1 e.2 h)

theorem Json.roundtrip (store : Store) (hnd : (store.map Prod.fst).Nodup)
    (hvalid : ∀ e ∈ store, Utf8.ValidString e.1 = true ∧ Utf8.ValidString e.2 = true) :
    ∃ loaded, Json.Unmarshal (Json.Marshal store) [] = Json.Decoded.ok loaded ∧
      (loaded.map Prod.fst).Nodup ∧
      (∀ k : Bytes, loaded.lookup k = store.lookup k) ∧
      ∀ k v : Bytes, (k, v) ∈ loaded ↔ (k, v) ∈ store := by
  obtain ⟨loaded, h1, h2⟩ := Json.roundtrip_lookup store hnd hvalid
  have hperm : (Json.sortKeys store).Perm store := List.perm_insertionSort _ store
  have h3 : (loaded.map Prod.fst).Nodup := by
    have e := Json.Unmarshal_encoded (Json.sortKeys store)
      (fun e he => hvalid e (hperm.mem_iff.mp he))
    have e2 : Json.Decoded.ok loaded
        = Json.Decoded.ok ((Json.sortKeys store).foldl (fun acc e => acc.set e.1 e.2) []) := by
      rw [← h1, ← e]
      rfl
    injection e2 with e3
    rw [e3]
    exact Store.nodup_foldl_set _ [] List.nodup_nil
  refine ⟨loaded, h1, h3, h2, fun k v => ?_⟩
  rw [← Store.lookup_eq_some_iff loaded h3, ← Store.lookup_eq_some_iff store hnd, h2]

theorem cmdSet_saved (table : Nat → Nat) (store : Store) (args : List Bytes) :
    (cmdSet.Run table store args).saved = [(cmdSet.Run table store args).store] := by
  unfold cmdSet.Run
  split <;> rfl

theorem cmdDelete_saved (store : Store) (args : List Bytes) :
    (cmdDelete.Run store args).saved = [(cmdDelete.Run store args).store] := by
  unfold cmdDelete.Run
  split <;> rfl

theorem loadConfig_of_isError (file : Bytes)
    (h : (Json.Unmarshal file []).isError = true) :
    ∃ m, loadConfig file = some m ∧
      (Json.Unmarshal file [] = Json.Decoded.syntaxError → m = []) ∧
      (∀ m1, Json.Unmarshal file [] = Json.Decoded.typeError m1 → m = m1) := by
  unfold loadConfig
  cases hu : Json.Unmarshal file [] with
  | ok m =>
    rw [hu] at h
    simp [Json.Decoded.isError] at h
  | syntaxError =>
    exact ⟨[], rfl, fun _ => rfl, fun m1 e => Json.Decoded.noConfusion e⟩
  | typeError m =>
    refine ⟨m, rfl, fun e => Json.Decoded.noConfusion e, fun m1 e => ?_⟩
    injection e
  | nilMap =>
    rw [hu] at h
    simp [Json.Decoded.isError] at h

/-! ## The decoding pass on input the scanner accepts -/

theorem Json.checkValid_eq_accepts (data : Bytes) :
    Json.checkValid data = Json.accepts ⟨.beginValue, []⟩ data := rfl

theorem Json.accepts_cons_eq (s s1 : Json.Scanner) (c : Nat) (rest : Bytes)
    (h : Json.scan s c = some s1) : Json.accepts s (c :: rest) = Json.accepts s1 rest := by
  simp only [Json.accepts, Json.scanAll, h]

theorem Json.accepts_cons (s : Json.Scanner) (c : Nat) (rest : Bytes)
    (h : Json.accepts s (c :: rest) = true) :
    ∃ s1, Json.scan s c = some s1 ∧ Json.accepts s1 rest = true := by
  cases hs : Json.scan s c with
  | none => simp [Json.accepts, Json.scanAll, hs] at h
  | some s1 => exact ⟨s1, rfl, by rw [Json.accepts_cons_eq s s1 c rest hs] at h; exact h⟩

theorem Json.accepts_append (s s1 : Json.Scanner) (p t : Bytes)
    (h : Json.scanAll s p = some s1) : Json.accepts s (p ++ t) = Json.accepts s1 t := by
  simp only [Json.accepts, Json.scanAll_append, h, Option.some_bind]

theorem Json.eof_true (st : Json.Step) (ps : List Json.ParseState)
    (h : Json.eof ⟨st, ps⟩ = true) :
    st = .endTop ∨ ∃ s1, Json.scan ⟨st, ps⟩ 0x20 = some s1 ∧ s1.step = .endTop := by
  by_cases h1 : st = .endTop
  · exact Or.inl h1
  · right
    simp only [Json.eof, h1, if_false] at h
    cases hs : Json.scan ⟨st, ps⟩ 0x20 with
    | none => simp [hs] at h
    | some s1 =>
      simp only [hs, decide_eq_true_eq] at h
      exact ⟨s1, rfl, h⟩

theorem Json.accepts_nil_string (st : Json.Step) (ps : List Json.ParseState)
    (hst : st = .inString ∨ st = .inStringEsc ∨ st = .inStringEscU ∨ st = .inStringEscU1 ∨
      st = .inStringEscU12 ∨ st = .inStringEscU123) :
    Json.accepts ⟨st, ps⟩ [] = false := by
  rcases hst with rfl | rfl | rfl | rfl | rfl | rfl <;>
    simp [Json.accepts, Json.scanAll, Json.eof, Json.scan, Json.isHexDigit, Json.hexVal]

theorem Json.accepts_hex (st st1 : Json.Step) (ps : List Json.ParseState) (t : Bytes)
    (hst : (st = .inStringEscU ∧ st1 = .inStringEscU1) ∨
      (st = .inStringEscU1 ∧ st1 = .inStringEscU12) ∨
      (st = .inStringEscU12 ∧ st1 = .inStringEscU123) ∨
      (st = .inStringEscU123 ∧ st1 = .inString))
    (h : Json.accepts ⟨st, ps⟩ t = true) :
    ∃ h0 t1, t = h0 :: t1 ∧ (Json.hexVal h0).isSome = true ∧
      Json.accepts ⟨st1, ps⟩ t1 = true := by
  rcases t with _ | ⟨h0, t1⟩
  · rw [Json.accepts_nil_string st ps (by
      rcases hst with ⟨rfl, _⟩ | ⟨rfl, _⟩ | ⟨rfl, _⟩ | ⟨rfl, _⟩ <;> simp)] at h
    exact absurd h (by simp)
  · obtain ⟨s1, hs, ha⟩ := Json.accepts_cons _ _ _ h
    refine ⟨h0, t1, rfl, ?_⟩
    rcases hst with ⟨rfl, rfl⟩ | ⟨rfl, rfl⟩ | ⟨rfl, rfl⟩ | ⟨rfl, rfl⟩ <;>
    · simp only [Json.scan, Json.isHexDigit] at hs
      split_ifs at hs with hx
      · cases hs
        exact ⟨hx, ha⟩

theorem Json.accepts_hex4 (ps : List Json.ParseState) (t : Bytes)
    (h : Json.accepts ⟨.inStringEscU, ps⟩ t = true) :
    ∃ h0 h1 h2 h3 t1, t = h0 :: h1 :: h2 :: h3 :: t1 ∧
      (∃ rr, ∀ t2, Json.getu4 (0x5C :: 0x75 :: h0 :: h1 :: h2 :: h3 :: t2) = some rr) ∧
      Json.accepts ⟨.inString, ps⟩ t1 = true := by
  obtain ⟨h0, t0, rfl, x0, a0⟩ := Json.accepts_hex _ _ ps t (Or.inl ⟨rfl, rfl⟩) h
  obtain ⟨h1, t1, rfl, x1, a1⟩ := Json.accepts_hex _ _ ps t0 (Or.inr (Or.inl ⟨rfl, rfl⟩)) a0
  obtain ⟨h2, t2, rfl, x2, a2⟩ :=
    Json.accepts_hex _ _ ps t1 (Or.inr (Or.inr (Or.inl ⟨rfl, rfl⟩))) a1
  obtain ⟨h3, t3, rfl, x3, a3⟩ :=
    Json.accepts_hex _ _ ps t2 (Or.inr (Or.inr (Or.inr ⟨rfl, rfl⟩))) a2
  refine ⟨h0, h1, h2, h3, t3, rfl, ?_, a3⟩
  obtain ⟨a, ea⟩ := Option.isSome_iff_exists.1 x0
  obtain ⟨b, eb⟩ := Option.isSome_iff_exists.1 x1
  obtain ⟨c, ec⟩ := Option.isSome_iff_exists.1 x2
  obtain ⟨d, ed⟩ := Option.isSome_iff_exists.1 x3
  exact ⟨((a * 16 + b) * 16 + c) * 16 + d, fun t2 => by simp [Json.getu4, ea, eb, ec, ed]⟩

theorem Json.getu4_some (t : Bytes) (r : Nat) (h : Json.getu4 t = some r) :
    ∃ g0 g1 g2 g3 t2, t = 0x5C :: 0x75 :: g0 :: g1 :: g2 :: g3 :: t2 ∧
      (Json.hexVal g0).isSome = true ∧ (Json.hexVal g1).isSome = true ∧
      (Json.hexVal g2).isSome = true ∧ (Json.hexVal g3).isSome = true := by
  rcases t with _ | ⟨b0, _ | ⟨b1, _ | ⟨g0, _ | ⟨g1, _ | ⟨g2, _ | ⟨g3, t2⟩⟩⟩⟩⟩⟩
  all_goals first
    | (simp [Json.getu4] at h; done)
    | skip
  simp only [Json.getu4] at h
  split_ifs at h with hb
  obtain ⟨rfl, rfl⟩ := hb
  refine ⟨g0, g1, g2, g3, t2, rfl, ?_⟩
  cases e0 : Json.hexVal g0 <;> cases e1 : Json.hexVal g1 <;> cases e2 : Json.hexVal g2 <;>
    cases e3 : Json.hexVal g3 <;> simp [e0, e1, e2, e3] at h ⊢

theorem Json.scanAll_u4 (ps : List Json.ParseState) (g0 g1 g2 g3 : Nat)
    (x0 : (Json.hexVal g0).isSome = true) (x1 : (Json.hexVal g1).isSome = true)
    (x2 : (Json.hexVal g2).isSome = true) (x3 : (Json.hexVal g3).isSome = true) :
    Json.scanAll ⟨.inString, ps⟩ [0x5C, 0x75, g0, g1, g2, g3] = some ⟨.inString, ps⟩ := by
  simp [Json.scanAll, Json.scan, Json.isHexDigit, x0, x1, x2, x3]

theorem Json.unquote_u (m h0 h1 h2 h3 rr : Nat) (t acc : Bytes)
    (hg : Json.getu4 (0x5C :: 0x75 :: h0 :: h1 :: h2 :: h3 :: t) = some rr) :
    Json.unquote (m + 1) (0x5C :: 0x75 :: h0 :: h1 :: h2 :: h3 :: t) acc =
      if Json.isSurrogate rr = true then
        if Json.decodeSurrogates rr (Json.getu4 t) = Utf8.RuneError then
          Json.unquote m t (acc ++ Utf8.EncodeRune Utf8.RuneError)
        else
          Json.unquote m (t.drop 6)
            (acc ++ Utf8.EncodeRune (Json.decodeSurrogates rr (Json.getu4 t)))
      else Json.unquote m t (acc ++ Utf8.EncodeRune rr) := by
  simp [Json.unquote, hg]

theorem Json.unquote_high (m c : Nat) (s acc : Bytes) (hc : 0x80 ≤ c) :
    Json.unquote (m + 1) (c :: s) acc =
      Json.unquote m ((c :: s).drop (Utf8.DecodeRune (c :: s)).2)
        (acc ++ Utf8.EncodeRune (Utf8.DecodeRune (c :: s)).1) := by
  have h1 : c ≠ 0x22 := by omega
  have h2 : c ≠ 0x5C := by omega
  have h3 : ¬ c < 0x20 := by omega
  have h4 : ¬ c < 0x80 := by omega
  simp [Json.unquote, h1, h2, h3, h4]

theorem Utf8.drop_decode (c : Nat) (s : Bytes) (hc : 0x80 ≤ c) :
    ∃ p t, c :: s = p ++ t ∧ p ≠ [] ∧ (∀ x ∈ p, 0x80 ≤ x) ∧
      (c :: s).drop (Utf8.DecodeRune (c :: s)).2 = t := by
  by_cases hv : (Utf8.DecodeRune (c :: s)).1 = Utf8.RuneError ∧ (Utf8.DecodeRune (c :: s)).2 = 1
  · refine ⟨[c], s, rfl, by simp, ?_, ?_⟩
    · intro x hx
      rw [List.mem_singleton.1 hx]
      exact hc
    · rw [hv.2]
      rfl
  · obtain ⟨p, t, hpt, hlen, hne, _, _, hhigh, _⟩ := Utf8.decode_spec c s hv
    refine ⟨p, t, hpt, hne, hhigh hc, ?_⟩
    rw [← hlen, hpt]
    exact List.drop_left p t

theorem Json.unquote_accepts : ∀ (n : Nat) (src acc : Bytes) (ps : List Json.ParseState),
    src.length ≤ n → Json.accepts ⟨.inString, ps⟩ src = true →
    ∃ val rest, Json.unquote n src acc = some (val, rest) ∧
      Json.accepts ⟨.endValue, ps⟩ rest = true ∧ rest.length < src.length := by
  intro n
  induction n with
  | zero =>
    intro src acc ps hn h
    have : src = [] := List.length_eq_zero.1 (Nat.le_zero.1 hn)
    subst this
    rw [Json.accepts_nil_string _ ps (Or.inl rfl)] at h
    exact absurd h (by simp)
  | succ n ih =>
    intro src acc ps hn h
    rcases src with _ | ⟨c, s⟩
    · rw [Json.accepts_nil_string _ ps (Or.inl rfl)] at h
      exact absurd h (by simp)
    have hsn : s.length ≤ n := by
      simp only [List.length_cons] at hn
      omega
    obtain ⟨s1, hs, ha⟩ := Json.accepts_cons _ _ _ h
    by_cases c1 : c = 0x22
    · subst c1
      have e : s1 = ⟨.endValue, ps⟩ := by
        simp [Json.scan] at hs
        exact hs.symm
      subst e
      exact ⟨acc, s, Json.unquote_quote n s acc, ha, by simp⟩
    by_cases c2 : c = 0x5C
    · subst c2
      have e : s1 = ⟨.inStringEsc, ps⟩ := by
        simp [Json.scan] at hs
        exact hs.symm
      subst e
      rcases s with _ | ⟨e, s2⟩
      · rw [Json.accepts_nil_string _ ps (Or.inr (Or.inl rfl))] at ha
        exact absurd ha (by simp)
      obtain ⟨s3, hs3, ha3⟩ := Json.accepts_cons _ _ _ ha
      by_cases c3 : e = 0x75
      · subst c3
        have e3 : s3 = ⟨.inStringEscU, ps⟩ := by
          simp [Json.scan] at hs3
          exact hs3.symm
        subst e3
        obtain ⟨h0, h1, h2, h3, t1, rfl, ⟨rr, hg⟩, a1⟩ := Json.accepts_hex4 ps s2 ha3
        have hl : t1.length ≤ n := by
          simp only [List.length_cons] at hsn
          omega
        rw [Json.unquote_u n h0 h1 h2 h3 rr t1 acc (hg t1)]
        by_cases k1 : Json.isSurrogate rr = true
        · rw [if_pos k1]
          by_cases k2 : Json.decodeSurrogates rr (Json.getu4 t1) = Utf8.RuneError
          · rw [if_pos k2]
            obtain ⟨val, rest, hu, hacc, hlen⟩ := ih t1 _ ps hl a1
            exact ⟨val, rest, hu, hacc, by simp only [List.length_cons]; omega⟩
          · rw [if_neg k2]
            cases hg2 : Json.getu4 t1 with
            | none =>
              rw [hg2] at k2
              exact absurd rfl k2
            | some r2 =>
              obtain ⟨g0, g1, g2, g3, t2, rfl, x0, x1, x2, x3⟩ := Json.getu4_some t1 r2 hg2
              have a2 : Json.accepts ⟨.inString, ps⟩ t2 = true := by
                have := Json.accepts_append ⟨.inString, ps⟩ ⟨.inString, ps⟩
                  [0x5C, 0x75, g0, g1, g2, g3] t2 (Json.scanAll_u4 ps g0 g1 g2 g3 x0 x1 x2 x3)
                rw [← this]
                exact a1
              have hl2 : t2.length ≤ n := by
                simp only [List.length_cons] at hl
                omega
              obtain ⟨val, rest, hu, hacc, hlen⟩ := ih t2 (acc ++ Utf8.EncodeRune
                (Json.decodeSurrogates rr (some r2))) ps hl2 a2
              refine ⟨val, rest, ?_, hacc, by simp only [List.length_cons]; omega⟩
              rw [← hu]
              rfl
        · rw [if_neg k1]
          obtain ⟨val, rest, hu, hacc, hlen⟩ := ih t1 _ ps hl a1
          exact ⟨val, rest, hu, hacc, by simp only [List.length_cons]; omega⟩
      · have hl : s2.length ≤ n := by
          simp only [List.length_cons] at hsn
          omega
        simp only [Json.scan, c3, if_false] at hs3
        split_ifs at hs3 with k
        cases hs3
        have hx : ∃ x, Json.unescape e = some x := by
          rcases k with rfl | rfl | rfl | rfl | rfl | rfl | rfl | rfl <;> exact ⟨_, rfl⟩
        obtain ⟨x, hx⟩ := hx
        rw [Json.unquote_escape n e x s2 acc c3 hx]
        obtain ⟨val, rest, hu, hacc, hlen⟩ := ih s2 _ ps hl ha3
        exact ⟨val, rest, hu, hacc, by simp only [List.length_cons]; omega⟩
    by_cases c4 : c < 0x20
    · simp [Json.scan, c1, c2, c4] at hs
    have e : s1 = ⟨.inString, ps⟩ := by
      rw [Json.scan_inString_plain ps c c1 c2 (by omega)] at hs
      cases hs
      rfl
    subst e
    by_cases c5 : c < 0x80
    · rw [Json.unquote_plain n c s acc c1 c2 (by omega) c5]
      obtain ⟨val, rest, hu, hacc, hlen⟩ := ih s _ ps hsn ha
      exact ⟨val, rest, hu, hacc, by simp only [List.length_cons]; omega⟩
    · rw [Json.unquote_high n c s acc (by omega)]
      obtain ⟨p, t, hpt, hne, hhigh, hdrop⟩ := Utf8.drop_decode c s (by omega)
      rw [hdrop]
      have hpl : 0 < p.length := List.length_pos.2 hne
      have hlen0 : (c :: s).length = p.length + t.length := by rw [hpt, List.length_append]
      have a2 : Json.accepts ⟨.inString, ps⟩ t = true := by
        rw [← Json.accepts_append ⟨.inString, ps⟩ ⟨.inString, ps⟩ p t
          (Json.scanAll_inString_high ps p hhigh), ← hpt]
        exact h
      have hl : t.length ≤ n := by
        simp only [List.length_cons] at hlen0
        omega
      obtain ⟨val, rest, hu, hacc, hlen⟩ := ih t _ ps hl a2
      exact ⟨val, rest, hu, hacc, by omega⟩

theorem Json.isNumberByte_true (c : Nat) (h : Json.isNumberByte c = true) :
    (0x30 ≤ c ∧ c ≤ 0x39) ∨ c = 0x2D ∨ c = 0x2B ∨ c = 0x2E ∨ c = 0x65 ∨ c = 0x45 := by
  simpa [Json.isNumberByte, Json.isDigit] using h

theorem Json.isNumberByte_false (c : Nat) (h : Json.isNumberByte c = false) :
    ¬ (0x30 ≤ c ∧ c ≤ 0x39) ∧ c ≠ 0x2D ∧ c ≠ 0x2B ∧ c ≠ 0x2E ∧ c ≠ 0x65 ∧ c ≠ 0x45 := by
  simpa [Json.isNumberByte, Json.isDigit] using h

theorem Json.stateEndValue_number (ps : List Json.ParseState) (c : Nat)
    (h : Json.isNumberByte c = true) : Json.stateEndValue ps c = none := by
  have hc := Json.isNumberByte_true c h
  have hsp : Json.isSpace c = false := by
    simp only [Json.isSpace, decide_eq_false_iff_not]
    omega
  have h1 : c ≠ 0x3A := by omega
  have h2 : c ≠ 0x2C := by omega
  have h3 : c ≠ 0x7D := by omega
  have h4 : c ≠ 0x5D := by omega
  rcases ps with _ | ⟨top, rest⟩
  · simp [Json.stateEndValue, Json.stateEndTop, hsp]
  · cases top <;> simp [Json.stateEndValue, hsp, h1, h2, h3, h4]

theorem Json.scan_number_byte (st : Json.Step) (ps : List Json.ParseState) (c : Nat)
    (s1 : Json.Scanner) (hst : Json.inNumber st = true) (h : Json.isNumberByte c = true)
    (hs : Json.scan ⟨st, ps⟩ c = some s1) :
    ∃ st1, Json.inNumber st1 = true ∧ s1 = ⟨st1, ps⟩ := by
  have hend := Json.stateEndValue_number ps c h
  cases st <;> simp [Json.inNumber] at hst <;>
    simp only [Json.scan, Json.state0, Json.stateESign, hend] at hs <;>
    split_ifs at hs <;> cases hs <;> exact ⟨_, by rfl, rfl⟩

theorem Json.scan_number_end (st : Json.Step) (ps : List Json.ParseState) (c : Nat)
    (s1 : Json.Scanner) (hst : Json.inNumber st = true) (h : Json.isNumberByte c = false)
    (hs : Json.scan ⟨st, ps⟩ c = some s1) :
    Json.scan ⟨.endValue, ps⟩ c = some s1 := by
  obtain ⟨d, h1, h2, h3, h4, h5⟩ := Json.isNumberByte_false c h
  have hd : Json.isDigit c = false := by
    simp only [Json.isDigit, decide_eq_false_iff_not]
    exact d
  have h0 : c ≠ 0x30 := by omega
  have h6 : ¬ (c = 0x65 ∨ c = 0x45) := by omega
  have h7 : ¬ (c = 0x2B ∨ c = 0x2D) := by omega
  have h8 : ¬ (0x31 ≤ c ∧ c ≤ 0x39) := by omega
  cases st <;> simp [Json.inNumber] at hst <;>
    simp [Json.scan, Json.state0, Json.stateESign, hd, h0, h3, h6, h7, h8] at hs ⊢ <;>
    exact hs

theorem Json.accepts_number : ∀ (src : Bytes) (st : Json.Step) (ps : List Json.ParseState),
    Json.inNumber st = true → Json.accepts ⟨st, ps⟩ src = true →
    Json.accepts ⟨.endValue, ps⟩ (src.dropWhile Json.isNumberByte) = true := by
  intro src
  induction src with
  | nil =>
    intro st ps hst h
    have hne : st ≠ .endTop := by
      intro e
      subst e
      simp [Json.inNumber] at hst
    rcases Json.eof_true st ps h with e | ⟨s1, hs, he⟩
    · exact absurd e hne
    · have := Json.scan_number_end st ps 0x20 s1 hst (by decide) hs
      simp only [List.dropWhile_nil, Json.accepts, Json.scanAll, Json.eof]
      rw [this]
      simp [he]
  | cons c s ih =>
    intro st ps hst h
    obtain ⟨s1, hs, ha⟩ := Json.accepts_cons _ _ _ h
    by_cases hc : Json.isNumberByte c = true
    · obtain ⟨st1, hst1, rfl⟩ := Json.scan_number_byte st ps c s1 hst hc hs
      rw [List.dropWhile_cons_of_pos hc]
      exact ih st1 ps hst1 ha
    · have hc2 : Json.isNumberByte c = false := by simpa using hc
      rw [List.dropWhile_cons_of_neg hc]
      rw [Json.accepts_cons_eq _ s1 c s (Json.scan_number_end st ps c s1 hst hc2 hs)]
      exact ha

theorem Json.dropWhile_length_le (p : Nat → Bool) (l : Bytes) :
    (l.dropWhile p).length ≤ l.length := by
  induction l with
  | nil => simp
  | cons c s ih =>
    simp only [List.dropWhile_cons]
    split_ifs
    · simp only [List.length_cons]
      omega
    · exact le_refl _

theorem Json.stateEndValue_other (top : Json.ParseState) (rest : List Json.ParseState)
    (c : Nat) (s1 : Json.Scanner) (c4 : c ≠ 0x7D) (c5 : c ≠ 0x5D)
    (hs : Json.stateEndValue (top :: rest) c = some s1) :
    ∃ top1 st1, Json.betweenTokens st1 = true ∧ s1 = ⟨st1, top1 :: rest⟩ := by
  cases top <;> simp only [Json.stateEndValue, c4, c5, if_false] at hs <;>
    split_ifs at hs <;> cases hs <;> exact ⟨_, _, by rfl, rfl⟩

theorem Json.scan_between_other (st : Json.Step) (top : Json.ParseState)
    (rest : List Json.ParseState) (c : Nat) (s1 : Json.Scanner)
    (hst : Json.betweenTokens st = true) (c1 : c ≠ 0x22) (c2 : c ≠ 0x7B) (c3 : c ≠ 0x5B)
    (c4 : c ≠ 0x7D) (c5 : c ≠ 0x5D) (hs : Json.scan ⟨st, top :: rest⟩ c = some s1) :
    ∃ top1 st1, Json.betweenTokens st1 = true ∧ s1 = ⟨st1, top1 :: rest⟩ := by
  have hend := Json.stateEndValue_other top rest c s1 c4 c5
  cases st <;> simp only [Json.betweenTokens, Bool.false_eq_true] at hst <;>
    simp only [Json.scan, Json.stateBeginValue, Json.stateBeginString,
      Json.state0, Json.stateESign, c1, c2, c3, c4, c5, if_false] at hs <;>
    (try split_ifs at hs) <;>
    first
      | exact hend hs
      | (cases hs; exact ⟨_, _, by rfl, rfl⟩)

theorem Json.scan_between_quote (st : Json.Step) (top : Json.ParseState)
    (rest : List Json.ParseState) (s1 : Json.Scanner)
    (hst : Json.betweenTokens st = true) (hs : Json.scan ⟨st, top :: rest⟩ 0x22 = some s1) :
    s1 = ⟨.inString, top :: rest⟩ := by
  cases st <;> simp only [Json.betweenTokens, Bool.false_eq_true] at hst <;> cases top <;>
    simp [Json.scan, Json.stateBeginValue, Json.stateBeginString, Json.stateEndValue,
      Json.state0, Json.stateESign, Json.isSpace, Json.isDigit] at hs <;>
    exact hs.symm

theorem Json.scan_between_open (st : Json.Step) (top : Json.ParseState)
    (rest : List Json.ParseState) (c : Nat) (s1 : Json.Scanner)
    (hst : Json.betweenTokens st = true) (hc : c = 0x7B ∨ c = 0x5B)
    (hs : Json.scan ⟨st, top :: rest⟩ c = some s1) :
    ∃ k st1, Json.betweenTokens st1 = true ∧ s1 = ⟨st1, k :: top :: rest⟩ := by
  rcases hc with rfl | rfl <;>
    cases st <;> simp only [Json.betweenTokens, Bool.false_eq_true] at hst <;> cases top <;>
    simp [Json.scan, Json.stateBeginValue, Json.stateBeginString, Json.stateEndValue,
      Json.state0, Json.stateESign, Json.isSpace, Json.isDigit, Json.pushParseState] at hs <;>
    exact ⟨_, _, by rfl, hs.2.symm⟩

theorem Json.scan_between_close (st : Json.Step) (top : Json.ParseState)
    (rest : List Json.ParseState) (c : Nat) (s1 : Json.Scanner)
    (hst : Json.betweenTokens st = true) (hc : c = 0x7D ∨ c = 0x5D)
    (hs : Json.scan ⟨st, top :: rest⟩ c = some s1) :
    Json.popParseState rest = some s1 := by
  rcases hc with rfl | rfl <;>
    cases st <;> simp only [Json.betweenTokens, Bool.false_eq_true] at hst <;> cases top <;>
    simp [Json.scan, Json.stateBeginValue, Json.stateBeginString, Json.stateEndValue,
      Json.state0, Json.stateESign, Json.isSpace, Json.isDigit] at hs <;>
    exact hs

theorem Json.accepts_nil_between (st : Json.Step) (top : Json.ParseState)
    (rest : List Json.ParseState) (hst : Json.betweenTokens st = true) :
    Json.accepts ⟨st, top :: rest⟩ [] = false := by
  cases h : Json.accepts ⟨st, top :: rest⟩ [] with
  | false => rfl
  | true =>
    exfalso
    rcases Json.eof_true st (top :: rest) h with e | ⟨s1, hs, he⟩
    · subst e
      simp [Json.betweenTokens] at hst
    · obtain ⟨top1, st1, hb, rfl⟩ := Json.scan_between_other st top rest 0x20 s1 hst
        (by decide) (by decide) (by decide) (by decide) (by decide) hs
      simp only at he
      subst he
      simp [Json.betweenTokens] at hb

theorem Json.skipNested_accepts : ∀ (n : Nat) (src : Bytes) (st : Json.Step)
    (k : Json.ParseState) (inner ps : List Json.ParseState),
    src.length ≤ n → ps ≠ [] → Json.betweenTokens st = true →
    Json.accepts ⟨st, k :: (inner ++ ps)⟩ src = true →
    ∃ rest, Json.skipNested n (inner.length + 1) src = some rest ∧
      Json.accepts ⟨.endValue, ps⟩ rest = true ∧ rest.length < src.length := by
  intro n
  induction n with
  | zero =>
    intro src st k inner ps hn _ hst h
    have : src = [] := List.length_eq_zero.1 (Nat.le_zero.1 hn)
    subst this
    rw [Json.accepts_nil_between st k _ hst] at h
    exact absurd h (by simp)
  | succ n ih =>
    intro src st k inner ps hn hps hst h
    rcases src with _ | ⟨c, s⟩
    · rw [Json.accepts_nil_between st k _ hst] at h
      exact absurd h (by simp)
    have hsn : s.length ≤ n := by
      simp only [List.length_cons] at hn
      omega
    obtain ⟨s1, hs, ha⟩ := Json.accepts_cons _ _ _ h
    by_cases c1 : c = 0x22
    · subst c1
      have e := Json.scan_between_quote st k _ s1 hst hs
      subst e
      obtain ⟨val, r1, hu, hacc, hlen⟩ := Json.unquote_accepts s.length s [] _ (le_refl _) ha
      obtain ⟨rest, hsk, hacc2, hlen2⟩ := ih r1 .endValue k inner ps (by omega) hps rfl hacc
      refine ⟨rest, ?_, hacc2, by simp only [List.length_cons]; omega⟩
      simp only [Json.skipNested, if_true, hu]
      exact hsk
    by_cases c2 : c = 0x7B ∨ c = 0x5B
    · obtain ⟨k2, st1, hb, e⟩ := Json.scan_between_open st k _ c s1 hst c2 hs
      subst e
      obtain ⟨rest, hsk, hacc2, hlen2⟩ := ih s st1 k2 (k :: inner) ps hsn hps hb ha
      refine ⟨rest, ?_, hacc2, by simp only [List.length_cons]; omega⟩
      simp only [Json.skipNested, c1, if_false, c2, if_true]
      exact hsk
    by_cases c3 : c = 0x7D ∨ c = 0x5D
    · have hp := Json.scan_between_close st k _ c s1 hst c3 hs
      rcases inner with _ | ⟨k2, inner2⟩
      · have e : s1 = ⟨.endValue, ps⟩ := by
          rcases ps with _ | ⟨p, ps2⟩
          · exact absurd rfl hps
          · simp [Json.popParseState] at hp
            exact hp.symm
        subst e
        refine ⟨s, ?_, ha, by simp⟩
        simp [Json.skipNested, c1, c2, c3]
      · have e : s1 = ⟨.endValue, k2 :: (inner2 ++ ps)⟩ := by
          simp [Json.popParseState] at hp
          exact hp.symm
        subst e
        obtain ⟨rest, hsk, hacc2, hlen2⟩ := ih s .endValue k2 inner2 ps hsn hps rfl ha
        refine ⟨rest, ?_, hacc2, by simp only [List.length_cons]; omega⟩
        simp only [Json.skipNested, c1, if_false, c2, c3, if_true, List.length_cons]
        have hd : ¬ inner2.length + 1 + 1 ≤ 1 := by omega
        simp only [hd, if_false, Nat.add_sub_cancel]
        exact hsk
    · have c2a : c ≠ 0x7B := fun e => c2 (Or.inl e)
      have c2b : c ≠ 0x5B := fun e => c2 (Or.inr e)
      have c3a : c ≠ 0x7D := fun e => c3 (Or.inl e)
      have c3b : c ≠ 0x5D := fun e => c3 (Or.inr e)
      obtain ⟨top1, st1, hb, e⟩ :=
        Json.scan_between_other st k _ c s1 hst c1 c2a c2b c3a c3b hs
      subst e
      obtain ⟨rest, hsk, hacc2, hlen2⟩ := ih s st1 top1 inner ps hsn hps hb ha
      refine ⟨rest, ?_, hacc2, by simp only [List.length_cons]; omega⟩
      simp only [Json.skipNested, c1, if_false, c2, c3]
      exact hsk

theorem Json.accepts_name (st st1 : Json.Step) (x : Nat) (top : Json.ParseState)
    (rest : List Json.ParseState) (t : Bytes) (hb : Json.betweenTokens st = true)
    (hstep : ∀ c, Json.scan ⟨st, top :: rest⟩ c
      = if c = x then some ⟨st1, top :: rest⟩ else none)
    (h : Json.accepts ⟨st, top :: rest⟩ t = true) :
    ∃ t1, t = x :: t1 ∧ Json.accepts ⟨st1, top :: rest⟩ t1 = true := by
  rcases t with _ | ⟨c, t1⟩
  · rw [Json.accepts_nil_between st top rest hb] at h
    exact absurd h (by simp)
  · obtain ⟨s1, hs, ha⟩ := Json.accepts_cons _ _ _ h
    rw [hstep c] at hs
    split_ifs at hs with hc
    cases hs
    exact ⟨t1, by rw [hc], ha⟩

theorem Json.accepts_null (top : Json.ParseState) (rest : List Json.ParseState) (s : Bytes)
    (h : Json.accepts ⟨.n, top :: rest⟩ s = true) :
    Json.accepts ⟨.endValue, top :: rest⟩ (s.drop 3) = true ∧ 3 ≤ s.length := by
  obtain ⟨t1, rfl, h1⟩ := Json.accepts_name .n .nu 0x75 top rest s rfl (fun _ => rfl) h
  obtain ⟨t2, rfl, h2⟩ := Json.accepts_name .nu .nul 0x6C top rest t1 rfl (fun _ => rfl) h1
  obtain ⟨t3, rfl, h3⟩ := Json.accepts_name .nul .endValue 0x6C top rest t2 rfl (fun _ => rfl) h2
  exact ⟨h3, by simp⟩

theorem Json.accepts_true (top : Json.ParseState) (rest : List Json.ParseState) (s : Bytes)
    (h : Json.accepts ⟨.t, top :: rest⟩ s = true) :
    Json.accepts ⟨.endValue, top :: rest⟩ (s.drop 3) = true ∧ 3 ≤ s.length := by
  obtain ⟨t1, rfl, h1⟩ := Json.accepts_name .t .tr 0x72 top rest s rfl (fun _ => rfl) h
  obtain ⟨t2, rfl, h2⟩ := Json.accepts_name .tr .tru 0x75 top rest t1 rfl (fun _ => rfl) h1
  obtain ⟨t3, rfl, h3⟩ := Json.accepts_name .tru .endValue 0x65 top rest t2 rfl (fun _ => rfl) h2
  exact ⟨h3, by simp⟩

theorem Json.accepts_false (top : Json.ParseState) (rest : List Json.ParseState) (s : Bytes)
    (h : Json.accepts ⟨.f, top :: rest⟩ s = true) :
    Json.accepts ⟨.endValue, top :: rest⟩ (s.drop 4) = true ∧ 4 ≤ s.length := by
  obtain ⟨t1, rfl, h1⟩ := Json.accepts_name .f .fa 0x61 top rest s rfl (fun _ => rfl) h
  obtain ⟨t2, rfl, h2⟩ := Json.accepts_name .fa .fal 0x6C top rest t1 rfl (fun _ => rfl) h1
  obtain ⟨t3, rfl, h3⟩ := Json.accepts_name .fal .fals 0x73 top rest t2 rfl (fun _ => rfl) h2
  obtain ⟨t4, rfl, h4⟩ := Json.accepts_name .fals .endValue 0x65 top rest t3 rfl (fun _ => rfl) h3
  exact ⟨h4, by simp⟩

theorem Json.skipSpace_length_le : ∀ s : Bytes, (Json.skipSpace s).length ≤ s.length := by
  intro s
  induction s with
  | nil => simp [Json.skipSpace]
  | cons c s ih =>
    simp only [Json.skipSpace]
    split_ifs
    · simp only [List.length_cons]
      omega
    · exact le_refl _

theorem Json.skipSpace_head : ∀ (s : Bytes) (c : Nat) (t : Bytes),
    Json.skipSpace s = c :: t → Json.isSpace c = false := by
  intro s
  induction s with
  | nil =>
    intro c t h
    simp [Json.skipSpace] at h
  | cons b s ih =>
    intro c t h
    simp only [Json.skipSpace] at h
    split_ifs at h with hb
    · exact ih c t h
    · cases h
      simpa using hb

theorem Json.accepts_skipSpace (s0 : Json.Scanner)
    (hstep : ∀ c, Json.isSpace c = true → Json.scan s0 c = some s0) :
    ∀ s : Bytes, Json.accepts s0 s = true → Json.accepts s0 (Json.skipSpace s) = true := by
  intro s
  induction s with
  | nil => exact fun h => h
  | cons c s ih =>
    intro h
    simp only [Json.skipSpace]
    split_ifs with hc
    · rw [Json.accepts_cons_eq s0 s0 c s (hstep c hc)] at h
      exact ih h
    · exact h

theorem Json.scan_space_endValue (top : Json.ParseState) (rest : List Json.ParseState)
    (c : Nat) (hc : Json.isSpace c = true) :
    Json.scan ⟨.endValue, top :: rest⟩ c = some ⟨.endValue, top :: rest⟩ := by
  simp [Json.scan, Json.stateEndValue, hc]

theorem Json.scan_space_begin (st : Json.Step) (ps : List Json.ParseState) (c : Nat)
    (hst : st = .beginValue ∨ st = .beginString ∨ st = .beginStringOrEmpty)
    (hc : Json.isSpace c = true) : Json.scan ⟨st, ps⟩ c = some ⟨st, ps⟩ := by
  rcases hst with rfl | rfl | rfl <;> simp [Json.scan, hc]

theorem Json.readValue_accepts (src : Bytes) (top : Json.ParseState)
    (rest : List Json.ParseState)
    (hsp : ∀ c s, src = c :: s → Json.isSpace c = false)
    (h : Json.accepts ⟨.beginValue, top :: rest⟩ src = true) :
    ∃ val bad r, Json.readValue src = some (val, bad, r) ∧
      Json.accepts ⟨.endValue, top :: rest⟩ r = true ∧ r.length < src.length := by
  rcases src with _ | ⟨c, s⟩
  · rw [Json.accepts_nil_between .beginValue top rest rfl] at h
    exact absurd h (by simp)
  have hc := hsp c s rfl
  obtain ⟨s1, hs, ha⟩ := Json.accepts_cons _ _ _ h
  by_cases c1 : c = 0x22
  · subst c1
    have e := Json.scan_between_quote .beginValue top rest s1 rfl hs
    subst e
    obtain ⟨val, r, hu, hacc, hlen⟩ := Json.unquote_accepts s.length s [] _ (le_refl _) ha
    refine ⟨val, false, r, ?_, hacc, by simp only [List.length_cons]; omega⟩
    simp [Json.readValue, hu]
  by_cases c2 : c = 0x6E
  · subst c2
    have e : s1 = ⟨.n, top :: rest⟩ := by
      simp [Json.scan, Json.isSpace, Json.stateBeginValue] at hs
      exact hs.symm
    subst e
    obtain ⟨h3, hl⟩ := Json.accepts_null top rest s ha
    refine ⟨[], false, s.drop 3, ?_, h3, ?_⟩
    · simp [Json.readValue]
    · simp only [List.length_cons, List.length_drop]
      omega
  by_cases c3 : c = 0x74
  · subst c3
    have e : s1 = ⟨.t, top :: rest⟩ := by
      simp [Json.scan, Json.isSpace, Json.stateBeginValue] at hs
      exact hs.symm
    subst e
    obtain ⟨h3, hl⟩ := Json.accepts_true top rest s ha
    refine ⟨[], true, s.drop 3, ?_, h3, ?_⟩
    · simp [Json.readValue]
    · simp only [List.length_cons, List.length_drop]
      omega
  by_cases c4 : c = 0x66
  · subst c4
    have e : s1 = ⟨.f, top :: rest⟩ := by
      simp [Json.scan, Json.isSpace, Json.stateBeginValue] at hs
      exact hs.symm
    subst e
    obtain ⟨h3, hl⟩ := Json.accepts_false top rest s ha
    refine ⟨[], true, s.drop 4, ?_, h3, ?_⟩
    · simp [Json.readValue]
    · simp only [List.length_cons, List.length_drop]
      omega
  by_cases c5 : c = 0x7B ∨ c = 0x5B
  · obtain ⟨k, st1, hb, e⟩ := Json.scan_between_open .beginValue top rest c s1 rfl c5 hs
    subst e
    obtain ⟨r, hsk, hacc, hlen⟩ := Json.skipNested_accepts s.length s st1 k []
      (top :: rest) (le_refl _) (by simp) hb ha
    refine ⟨[], true, r, ?_, hacc, by simp only [List.length_cons]; omega⟩
    simp only [List.length_nil, Nat.zero_add] at hsk
    simp [Json.readValue, c1, c2, c3, c4, c5, hsk]
  · have c5a : c ≠ 0x7B := fun e => c5 (Or.inl e)
    have c5b : c ≠ 0x5B := fun e => c5 (Or.inr e)
    have hnum : Json.isNumberByte c = true ∧ ∃ st1, Json.inNumber st1 = true ∧
        s1 = ⟨st1, top :: rest⟩ := by
      simp only [Json.scan, hc, Json.stateBeginValue, c1, c2, c3, c4, c5a, c5b, if_false,
        Bool.false_eq_true] at hs
      split_ifs at hs with k1 k2 k3 <;> cases hs
      · exact ⟨by rw [k1]; decide, _, by rfl, rfl⟩
      · exact ⟨by rw [k2]; decide, _, by rfl, rfl⟩
      · refine ⟨?_, _, by rfl, rfl⟩
        simp only [Json.isNumberByte, Json.isDigit, Bool.or_eq_true, decide_eq_true_eq]
        left
        omega
    obtain ⟨hn, st1, hst1, e⟩ := hnum
    subst e
    have hacc := Json.accepts_number s st1 (top :: rest) hst1 ha
    have hle := Json.dropWhile_length_le Json.isNumberByte s
    refine ⟨[], true, s.dropWhile Json.isNumberByte, ?_, hacc,
      by simp only [List.length_cons]; omega⟩
    simp [Json.readValue, c1, c2, c3, c4, c5a, c5b, List.dropWhile_cons_of_pos hn]

theorem Json.accepts_key (st : Json.Step) (src : Bytes)
    (hst : st = .beginString ∨ st = .beginStringOrEmpty)
    (hsp : ∀ c s, src = c :: s → Json.isSpace c = false ∧ c ≠ 0x7D)
    (h : Json.accepts ⟨st, [.objectKey]⟩ src = true) :
    ∃ s0, src = 0x22 :: s0 ∧ Json.accepts ⟨.inString, [.objectKey]⟩ s0 = true := by
  rcases src with _ | ⟨c, s⟩
  · rw [Json.accepts_nil_between st _ _ (by rcases hst with rfl | rfl <;> rfl)] at h
    exact absurd h (by simp)
  obtain ⟨hc, hb⟩ := hsp c s rfl
  obtain ⟨s1, hs, ha⟩ := Json.accepts_cons _ _ _ h
  rcases hst with rfl | rfl <;>
  · simp only [Json.scan, hc, Json.stateBeginString, hb, if_false, Bool.false_eq_true] at hs
    split_ifs at hs with hq
    cases hs
    exact ⟨s, by rw [hq], ha⟩

theorem Json.members_accepts : ∀ (n : Nat) (s0 : Bytes) (m : Store) (bad : Bool),
    s0.length < n → Json.accepts ⟨.inString, [.objectKey]⟩ s0 = true →
    ∃ r, Json.members n (0x22 :: s0) m bad = some r := by
  intro n
  induction n with
  | zero =>
    intro s0 m bad hn
    exact absurd hn (Nat.not_lt_zero _)
  | succ n ih =>
    intro s0 m bad hn h
    obtain ⟨key, r1, hu, a1, l1⟩ := Json.unquote_accepts s0.length s0 [] _ (le_refl _) h
    have a2 := Json.accepts_skipSpace _ (Json.scan_space_endValue .objectKey []) r1 a1
    have l2 := Json.skipSpace_length_le r1
    rcases h2 : Json.skipSpace r1 with _ | ⟨colon, s2⟩
    · rw [h2, Json.accepts_nil_between .endValue _ _ rfl] at a2
      exact absurd a2 (by simp)
    rw [h2] at a2 l2
    have hcs := Json.skipSpace_head r1 colon s2 h2
    obtain ⟨t1, hs1, a3⟩ := Json.accepts_cons _ _ _ a2
    have hcolon : colon = 0x3A ∧ t1 = ⟨.beginValue, [.objectValue]⟩ := by
      simp only [Json.scan, Json.stateEndValue, hcs, if_false, Bool.false_eq_true] at hs1
      split_ifs at hs1 with hq
      cases hs1
      exact ⟨hq, rfl⟩
    obtain ⟨hcolon, rfl⟩ := hcolon
    have a4 := Json.accepts_skipSpace _
      (Json.scan_space_begin .beginValue [.objectValue] · (Or.inl rfl)) s2 a3
    have l4 := Json.skipSpace_length_le s2
    obtain ⟨val, bad1, s4, hr, a5, l5⟩ := Json.readValue_accepts (Json.skipSpace s2)
      .objectValue [] (fun c s e => Json.skipSpace_head s2 c s e) a4
    have a6 := Json.accepts_skipSpace _ (Json.scan_space_endValue .objectValue []) s4 a5
    have l6 := Json.skipSpace_length_le s4
    rcases h6 : Json.skipSpace s4 with _ | ⟨d, s5⟩
    · rw [h6, Json.accepts_nil_between .endValue _ _ rfl] at a6
      exact absurd a6 (by simp)
    rw [h6] at a6 l6
    have hds := Json.skipSpace_head s4 d s5 h6
    obtain ⟨t2, hs2, a7⟩ := Json.accepts_cons _ _ _ a6
    have hne : ¬ (0x22 : Nat) ≠ 0x22 := by simp
    simp only [List.length_cons] at l2 l6
    by_cases d1 : d = 0x2C
    · have e : t2 = ⟨.beginString, [.objectKey]⟩ := by
        simp [Json.scan, Json.stateEndValue, Json.isSpace, d1] at hs2
        exact hs2.symm
      subst e
      have a8 := Json.accepts_skipSpace _
        (Json.scan_space_begin .beginString [.objectKey] · (Or.inr (Or.inl rfl))) s5 a7
      have l8 := Json.skipSpace_length_le s5
      have hhead : ∀ c s, Json.skipSpace s5 = c :: s → Json.isSpace c = false ∧ c ≠ 0x7D := by
        intro c s e
        refine ⟨Json.skipSpace_head s5 c s e, ?_⟩
        intro e7
        rw [e, e7] at a8
        simp [Json.accepts, Json.scanAll, Json.scan, Json.isSpace, Json.stateBeginString] at a8
      obtain ⟨s9, h9, a9⟩ := Json.accepts_key .beginString (Json.skipSpace s5) (Or.inl rfl)
        hhead a8
      rw [h9] at l8
      simp only [List.length_cons] at l8
      obtain ⟨r, hrec⟩ := ih s9 (m.set key val) (bad || bad1) (by omega) a9
      refine ⟨r, ?_⟩
      simp only [Json.members, hne, if_false, hu, h2, hcolon, hr, h6, d1, if_true, h9]
      exact hrec
    · have d2 : d = 0x7D := by
        simp only [Json.scan, Json.stateEndValue, hds, d1, if_false, Bool.false_eq_true] at hs2
        split_ifs at hs2 with hq
        exact hq
      refine ⟨(m.set key val, bad || bad1), ?_⟩
      simp [Json.members, hu, h2, hcolon, hr, h6, d2]

theorem Json.Unmarshal_of_checkValid (data : Bytes) (m : Store)
    (h : Json.checkValid data = true) : Json.Unmarshal data m ≠ Json.Decoded.syntaxError := by
  rw [Json.checkValid_eq_accepts] at h
  have a1 := Json.accepts_skipSpace _
    (Json.scan_space_begin .beginValue [] · (Or.inl rfl)) data h
  have l1 := Json.skipSpace_length_le data
  have hv : ¬ Json.checkValid data = false := by
    rw [Json.checkValid_eq_accepts, h]
    simp
  rcases h1 : Json.skipSpace data with _ | ⟨c, s⟩
  · rw [h1] at a1
    exact absurd a1 (by decide)
  rw [h1] at a1 l1
  simp only [Json.Unmarshal, hv, if_false, h1]
  by_cases c1 : c = 0x7B
  · subst c1
    simp only [if_true]
    obtain ⟨t1, hs1, a2⟩ := Json.accepts_cons _ _ _ a1
    have e : t1 = ⟨.beginStringOrEmpty, [.objectKey]⟩ := by
      simp [Json.scan, Json.isSpace, Json.stateBeginValue, Json.pushParseState,
        Json.maxNestingDepth] at hs1
      exact hs1.symm
    subst e
    have a3 := Json.accepts_skipSpace _
      (Json.scan_space_begin .beginStringOrEmpty [.objectKey] · (Or.inr (Or.inr rfl))) s a2
    have l3 := Json.skipSpace_length_le s
    rcases h3 : Json.skipSpace s with _ | ⟨d, s1⟩
    · rw [h3, Json.accepts_nil_between .beginStringOrEmpty _ _ rfl] at a3
      exact absurd a3 (by simp)
    rw [h3] at a3 l3
    simp only []
    by_cases d1 : d = 0x7D
    · simp [d1]
    · simp only [d1, if_false]
      obtain ⟨s0, h0, a4⟩ := Json.accepts_key .beginStringOrEmpty (d :: s1) (Or.inr rfl)
        (fun c2 s2 e2 => by
          cases e2
          exact ⟨Json.skipSpace_head s d s1 h3, d1⟩) a3
      simp only [List.length_cons] at l1 l3
      have hl : s0.length < data.length := by
        have := congrArg List.length h0
        simp only [List.length_cons] at this
        omega
      obtain ⟨r, hr⟩ := Json.members_accepts data.length s0 m false hl a4
      rw [h0, hr]
      obtain ⟨m1, b⟩ := r
      cases b <;> simp
  · simp only [c1, if_false]
    by_cases c2 : c = 0x6E <;> simp [c2]

theorem Json.Unmarshal_syntaxError_iff (data : Bytes) (m : Store) :
    Json.Unmarshal data m = Json.Decoded.syntaxError ↔ Json.checkValid data = false := by
  constructor
  · intro h
    cases hv : Json.checkValid data with
    | false => rfl
    | true => exact absurd h (Json.Unmarshal_of_checkValid data m hv)
  · intro h
    simp [Json.Unmarshal, h]

/-! ## The claims -/

/-- C1: for every key and message, the HMAC-SHA1 digest has 20 bytes and
`oneTimePassword` returns its RFC 4226 dynamic truncation: with
`offset = digest[19] & 0x0F` and `P` the big-endian number of the four bytes at `offset`
with the top bit of the first cleared, the result is `P mod 1000000`. -/
theorem oneTimePassword_is_dynamic_truncation (key value : Bytes) :
    (hmacSha1 key value).length = 20 ∧
    oneTimePassword key value = some (dynamicTruncation (hmacSha1 key value)) ∧
    dynamicTruncation (hmacSha1 key value) =
      ((((hmacSha1 key value).getD ((hmacSha1 key value).getD 19 0 &&& 0x0F) 0 &&& 0x7F) * 2 ^ 24
        + (hmacSha1 key value).getD (((hmacSha1 key value).getD 19 0 &&& 0x0F) + 1) 0 * 2 ^ 16
        + (hmacSha1 key value).getD (((hmacSha1 key value).getD 19 0 &&& 0x0F) + 2) 0 * 2 ^ 8
        + (hmacSha1 key value).getD (((hmacSha1 key value).getD 19 0 &&& 0x0F) + 3) 0)
        % 1000000) :=
  ⟨hmacSha1_length key value,
   truncate_eq_dynamicTruncation _ (hmacSha1_length key value) (hmacSha1_isBytes key value),
   rfl⟩

/-- C2: the known-answer vector: with the 20 ASCII bytes `12345678901234567890` as the
key and the 8-byte counter 1 as the message, `oneTimePassword` returns 287082. -/
theorem oneTimePassword_known_answer :
    oneTimePassword [0x31, 0x32, 0x33, 0x34, 0x35, 0x36, 0x37, 0x38, 0x39, 0x30,
      0x31, 0x32, 0x33, 0x34, 0x35, 0x36, 0x37, 0x38, 0x39, 0x30] (toBytes 1) = some 287082 := by
  decide!

/-- C3: after `set name tokens...` with at least one token, the value stored under the
name is the tokens concatenated, every space removed, padded with `=` to the next
multiple of 8 and upper-cased; `jbsw y3dp ehpk 3pxp` is stored as `JBSWY3DPEHPK3PXP`,
`short` as `SHORT===`, and one token with spaces stores the same as several tokens. -/
theorem set_stores_normalized (table : Nat → Nat) (store : Store) (name : Bytes)
    (tokens : List Bytes) (hne : tokens ≠ []) :
    (cmdSet.Run table store (name :: tokens)).store.lookup name
      = some (specNormalize table tokens) ∧
    (cmdSet.Run table store [ascii "alice", ascii "jbsw y3dp ehpk 3pxp"]).store.lookup
      (ascii "alice") = some (ascii "JBSWY3DPEHPK3PXP") ∧
    (cmdSet.Run table store [ascii "bob", ascii "short"]).store.lookup (ascii "bob")
      = some (ascii "SHORT===") ∧
    (cmdSet.Run table store [name, Strings.Join tokens [0x20]]).store.lookup name
      = (cmdSet.Run table store (name :: tokens)).store.lookup name := by
  refine ⟨?_, ?_, ?_, ?_⟩
  · rw [cmdSet_store table store name tokens hne, Store.lookup_set_self,
      normalize_eq_specNormalize]
  · rw [cmdSet_store table store _ _ (by simp), Store.lookup_set_self]
    congr 1
  · rw [cmdSet_store table store _ _ (by simp), Store.lookup_set_self]
    congr 1
  · rw [cmdSet_store table store name tokens hne, cmdSet_store table store name _ (by simp),
      Store.lookup_set_self, Store.lookup_set_self, normalize_one_token]

/-- Witness of C3: the account `alice` set from four tokens on the empty store. -/
theorem set_stores_normalized_witness :
    [ascii "jbsw", ascii "y3dp", ascii "ehpk", ascii "3pxp"] ≠ [] ∧
    (cmdSet.Run Unicode.toUpperCase [] [ascii "alice", ascii "jbsw", ascii "y3dp", ascii "ehpk",
      ascii "3pxp"]).store.lookup (ascii "alice")
      = some (specNormalize Unicode.toUpperCase
          [ascii "jbsw", ascii "y3dp", ascii "ehpk", ascii "3pxp"]) ∧
    specNormalize Unicode.toUpperCase [ascii "jbsw", ascii "y3dp", ascii "ehpk", ascii "3pxp"]
      = ascii "JBSWY3DPEHPK3PXP" :=
  ⟨by simp,
   (set_stores_normalized Unicode.toUpperCase [] (ascii "alice")
     [ascii "jbsw", ascii "y3dp", ascii "ehpk", ascii "3pxp"] (by simp)).1,
   by decide!⟩

/-- C4: for a secret that base32-decodes and two instants at or after the epoch in the
same 30-second window, `getTOTP` prints a code at both instants, and the same one. -/
theorem getTOTP_same_window (secret key : Bytes) (t1 t2 : Int)
    (hdec : Base32.DecodeString secret = some key) (h1 : 0 ≤ t1) (h2 : 0 ≤ t2)
    (hw : t1 / 30 = t2 / 30) :
    ∃ pwd, (getTOTP secret t1).code? = some pwd ∧ (getTOTP secret t2).code? = some pwd := by
  refine ⟨dynamicTruncation (hmacSha1 key (toBytes (t1 / 30))), ?_, ?_⟩
  · rw [getTOTP_eq_printed secret key t1 hdec, timeCounter_of_nonneg t1 h1]
    rfl
  · rw [getTOTP_eq_printed secret key t2 hdec, timeCounter_of_nonneg t2 h2, hw]
    rfl

/-- Witness of C4: the secret `JBSWY3DPEHPK3PXP` at the seconds 60 and 89. -/
theorem getTOTP_same_window_witness :
    Base32.DecodeString (ascii "JBSWY3DPEHPK3PXP") = some [72, 101, 108, 108, 111, 33, 222, 173, 190, 239]
    ∧ ((60 : Int) / 30 = 89 / 30)
    ∧ ∃ pwd, (getTOTP (ascii "JBSWY3DPEHPK3PXP") 60).code? = some pwd
        ∧ (getTOTP (ascii "JBSWY3DPEHPK3PXP") 89).code? = some pwd :=
  ⟨by decide!, by decide,
   getTOTP_same_window (ascii "JBSWY3DPEHPK3PXP") [72, 101, 108, 108, 111, 33, 222, 173, 190, 239]
     60 89 (by decide!) (by decide) (by decide) (by decide)⟩

/-- C5, the code at the failing input: `set x ı` on the empty store (the secret is the
two UTF-8 bytes of U+0131) reaches a store whose secret for `x` is `I======`, of
length 7, because upper-casing after the padding shortens the string. -/
theorem set_dotless_i_length :
    Reachable Unicode.toUpperCase
      (cmdSet.Run Unicode.toUpperCase [] [ascii "x", [0xC4, 0xB1]]).store ∧
    (cmdSet.Run Unicode.toUpperCase [] [ascii "x", [0xC4, 0xB1]]).store.lookup (ascii "x")
      = some (ascii "I======") ∧
    (ascii "I======").length % 8 = 7 :=
  ⟨Reachable.set [] _ Reachable.empty, by decide, by decide⟩

/-- C6, counterexample: one second before the epoch is an `int64` instant at which
`getTOTP` (on the empty secret) prints 31 seconds remaining, outside `1..30`. -/
theorem secondsRemaining_before_epoch :
    IsInt64 (-1) ∧ (getTOTP [] (-1)).remaining? = some 31 ∧ ¬ (31 : Int) ≤ 30 := by
  refine ⟨by unfold IsInt64; omega, ?_, by omega⟩
  rw [getTOTP_eq_printed [] [] (-1) (by decide)]
  decide

/-- C6, amended: at every instant at or after the epoch, the seconds remaining that
`getTOTP` prints are `30 - (unixSeconds mod 30)`, lie in `1..30`, are never 0, and are
exactly 30 when `unixSeconds` is a multiple of 30. -/
theorem secondsRemaining_range (secret key : Bytes) (t : Int)
    (hdec : Base32.DecodeString secret = some key) (h0 : 0 ≤ t) :
    ∃ r : Int, (getTOTP secret t).remaining? = some r ∧ r = 30 - t % 30 ∧
      1 ≤ r ∧ r ≤ 30 ∧ r ≠ 0 ∧ (r = 30 ↔ t % 30 = 0) := by
  refine ⟨secondsRemaining t, ?_, ?_⟩
  · rw [getTOTP_eq_printed secret key t hdec]
    rfl
  · rw [secondsRemaining_of_nonneg t h0]
    omega

/-- Witness of C6 at the second 60, a multiple of 30, on the empty secret. -/
theorem secondsRemaining_range_witness :
    Base32.DecodeString [] = some [] ∧ (0 : Int) ≤ 60 ∧
    ∃ r : Int, (getTOTP [] 60).remaining? = some r ∧ r = 30 - 60 % 30 ∧
      1 ≤ r ∧ r ≤ 30 ∧ r ≠ 0 ∧ (r = 30 ↔ (60 : Int) % 30 = 0) :=
  ⟨by decide, by decide, secondsRemaining_range [] [] 60 (by decide) (by decide)⟩

/-- C7, counterexample: `set x 1` stores `1=======`, which `DecodeString` rejects, so
`getTOTP` on the stored secret exits with the decode error. -/
theorem set_stores_undecodable :
    (cmdSet.Run Unicode.toUpperCase [] [ascii "x", ascii "1"]).store.lookup (ascii "x")
      = some (ascii "1=======") ∧
    Base32.DecodeString (ascii "1=======") = none ∧
    getTOTP (ascii "1=======") 0 = Outcome.decodeError :=
  ⟨by decide, by decide, by decide⟩

/-- C7, amended: when every character of the tokens is a space or a base32 alphabet
character in either case, and the number of non-space characters is 0, 2, 4, 5 or 7
modulo 8, the secret `set` stores decodes without error and `getTOTP` on it never takes
the decode-error branch. -/
theorem set_stores_decodable (table : Nat → Nat) (store : Store) (name : Bytes)
    (tokens : List Bytes) (hne : tokens ≠ [])
    (hchars : ∀ tok ∈ tokens, ∀ c ∈ tok, c = 0x20 ∨ IsBase32Char c)
    (hlen : (Strings.removeSpaces (Strings.Join tokens [])).length % 8 = 0 ∨
      (Strings.removeSpaces (Strings.Join tokens [])).length % 8 = 2 ∨
      (Strings.removeSpaces (Strings.Join tokens [])).length % 8 = 4 ∨
      (Strings.removeSpaces (Strings.Join tokens [])).length % 8 = 5 ∨
      (Strings.removeSpaces (Strings.Join tokens [])).length % 8 = 7) :
    ∃ secret key, (cmdSet.Run table store (name :: tokens)).store.lookup name = some secret ∧
      Base32.DecodeString secret = some key ∧
      ∀ t : Int, getTOTP secret t ≠ Outcome.decodeError := by
  obtain ⟨key, hkey⟩ := normalize_decodes table tokens hchars hlen
  refine ⟨normalize table tokens, key, ?_, hkey, ?_⟩
  · rw [cmdSet_store table store name tokens hne, Store.lookup_set_self]
  · intro t
    rw [getTOTP_eq_printed _ key t hkey]
    exact fun h => Outcome.noConfusion h

/-- Witness of C7: the secret `jbsw y3dp ehpk 3pxp` set for `alice` on the empty
store. -/
theorem set_stores_decodable_witness :
    [ascii "jbsw y3dp ehpk 3pxp"] ≠ [] ∧
    (∀ tok ∈ [ascii "jbsw y3dp ehpk 3pxp"], ∀ c ∈ tok, c = 0x20 ∨ IsBase32Char c) ∧
    (Strings.removeSpaces (Strings.Join [ascii "jbsw y3dp ehpk 3pxp"] [])).length % 8 = 0 ∧
    ∃ secret key,
      (cmdSet.Run Unicode.toUpperCase [] [ascii "alice", ascii "jbsw y3dp ehpk 3pxp"]).store.lookup
        (ascii "alice") = some secret ∧
      Base32.DecodeString secret = some key ∧
      ∀ t : Int, getTOTP secret t ≠ Outcome.decodeError :=
  ⟨by simp, by decide, by decide,
   set_stores_decodable Unicode.toUpperCase [] (ascii "alice") [ascii "jbsw y3dp ehpk 3pxp"]
     (by simp) (by decide) (Or.inl (by decide))⟩

/-- C8, the code at the failing input: `set x ""` on the empty store stores the empty
secret under `x`; `x` is then a key of the map and `list` prints it, but `get x`
reports that `x` is not in the list instead of generating a code. -/
theorem get_empty_secret_not_in_list (table : Nat → Nat) (t : Int) :
    (cmdSet.Run table [] [ascii "x", []]).store = [(ascii "x", [])] ∧
    Store.contains [(ascii "x", [])] (ascii "x") = true ∧
    (cmdList.Run [(ascii "x", [])]).output = Output.accounts [ascii "x"] ∧
    (cmdGet.Run [(ascii "x", [])] [ascii "x"] t).output = Output.notInList (ascii "x") ∧
    getTOTP [] t ≠ Outcome.decodeError := by
  refine ⟨by rfl, by decide, by decide, by rfl, ?_⟩
  rw [getTOTP_eq_printed [] [] t (by decide)]
  exact fun h => Outcome.noConfusion h

/-- C9, counterexample: one second before the epoch the counter `getTOTP` encodes is 0,
while `floor(-1 / 30)` is `-1`; the code printed is the one of counter 0. -/
theorem timeCounter_before_epoch :
    IsInt64 (-1) ∧ timeCounter (-1) = 0 ∧ (-1 : Int) / 30 = -1 ∧
    (getTOTP [] (-1)).code? = oneTimePassword [] (toBytes 0) ∧
    (getTOTP [] (-1)).code? ≠ oneTimePassword [] (toBytes ((-1 : Int) / 30)) := by
  refine ⟨by unfold IsInt64; omega, by decide, by decide, by decide!, by decide!⟩

/-- C9, amended: at every instant at or after the epoch, the counter that `getTOTP`
passes to the HOTP step is `floor(unixSeconds / 30)`. -/
theorem timeCounter_is_floor (secret key : Bytes) (t : Int)
    (hdec : Base32.DecodeString secret = some key) (h0 : 0 ≤ t) :
    timeCounter t = t / 30 ∧
    (getTOTP secret t).code? = oneTimePassword key (toBytes (t / 30)) := by
  refine ⟨timeCounter_of_nonneg t h0, ?_⟩
  rw [getTOTP_eq_printed secret key t hdec, timeCounter_of_nonneg t h0, oneTimePassword_eq]
  rfl

/-- Witness of C9 at the second 59, on the empty secret. -/
theorem timeCounter_is_floor_witness :
    Base32.DecodeString [] = some [] ∧ (0 : Int) ≤ 59 ∧ timeCounter 59 = 59 / 30 ∧
    (getTOTP [] 59).code? = oneTimePassword [] (toBytes (59 / 30)) :=
  ⟨by decide, by decide, timeCounter_is_floor [] [] 59 (by decide) (by decide)⟩

/-- C10: for every `int64` counter, `toBytes` returns exactly 8 bytes; for a
non-negative counter they are its big-endian encoding (the sum of
`toBytes(T)[i] * 256 ^ (7 - i)` is `T`), so `toBytes` is injective on non-negative
counters. -/
theorem toBytes_big_endian (T : Int) (hT : IsInt64 T) :
    (toBytes T).length = 8 ∧ IsBytes (toBytes T) ∧
    (0 ≤ T → (bigEndianValue (toBytes T) : Int) = T) ∧
    (∀ T2 : Int, IsInt64 T2 → 0 ≤ T → 0 ≤ T2 → toBytes T = toBytes T2 → T = T2) := by
  refine ⟨by simp [toBytes_eq], ?_, fun h0 => bigEndianValue_toBytes T h0 hT.2, ?_⟩
  · intro b hb
    rw [toBytes_eq] at hb
    simp only [List.mem_cons, List.mem_singleton, List.not_mem_nil, or_false] at hb
    rcases hb with h | h | h | h | h | h | h | h <;> omega
  · intro T2 hT2 h0 h2 heq
    have e1 := bigEndianValue_toBytes T h0 hT.2
    have e2 := bigEndianValue_toBytes T2 h2 hT2.2
    rw [heq] at e1
    omega

/-- Witness of C10 at the counter 1. -/
theorem toBytes_big_endian_witness :
    IsInt64 1 ∧ (toBytes 1).length = 8 ∧ (bigEndianValue (toBytes 1) : Int) = 1 :=
  have h : IsInt64 1 := by unfold IsInt64; omega
  ⟨h, (toBytes_big_endian 1 h).1, (toBytes_big_endian 1 h).2.2.1 (by omega)⟩

/-- C11: for every key, the zero-length key of the empty secret included, and every
message, `oneTimePassword` returns a code in `0..999999`; `getTOTP` on the empty secret
prints such a code at every instant. -/
theorem oneTimePassword_six_digits (key value : Bytes) :
    (∃ pwd, oneTimePassword key value = some pwd ∧ pwd ≤ 999999 ∧ pwd < 10 ^ 6) ∧
    (∃ pwd, oneTimePassword [] value = some pwd ∧ pwd ≤ 999999) ∧
    Base32.DecodeString [] = some [] ∧
    ∀ t : Int, ∃ pwd, (getTOTP [] t).code? = some pwd ∧ pwd ≤ 999999 := by
  have hk : ∀ k v : Bytes, ∃ pwd, oneTimePassword k v = some pwd ∧ pwd ≤ 999999 := by
    intro k v
    refine ⟨_, oneTimePassword_eq k v, ?_⟩
    have := dynamicTruncation_lt (hmacSha1 k v)
    omega
  refine ⟨?_, hk [] value, by decide, ?_⟩
  · obtain ⟨pwd, h1, h2⟩ := hk key value
    exact ⟨pwd, h1, h2, by norm_num; omega⟩
  · intro t
    rw [getTOTP_eq_printed [] [] t (by decide)]
    refine ⟨_, rfl, ?_⟩
    have := dynamicTruncation_lt (hmacSha1 [] (toBytes (timeCounter t)))
    omega

/-- C12: `delete name` on a store without the name returns the store unchanged and
prints no error (`delete nobody` on the empty store leaves it empty); on a store with
the name, the name is absent afterwards and every other account keeps its secret. -/
theorem delete_frame (store : Store) (name : Bytes) :
    (cmdDelete.Run store [name]).output = Output.silent ∧
    (store.lookup name = none → (cmdDelete.Run store [name]).store = store) ∧
    (cmdDelete.Run [] [ascii "nobody"]).store = [] ∧
    (cmdDelete.Run [] [ascii "nobody"]).output = Output.silent ∧
    (cmdDelete.Run store [name]).store.lookup name = none ∧
    (∀ other : Bytes, other ≠ name →
      (cmdDelete.Run store [name]).store.lookup other = store.lookup other) := by
  rw [cmdDelete_store]
  refine ⟨rfl, fun h => Store.delete_of_lookup_none store name h, by decide, by decide,
    Store.lookup_delete_self store name, fun other h => Store.lookup_delete_ne store name other h⟩

/-- Witness of C12: deleting `bob` from a store that holds `alice` only changes nothing,
and deleting `alice` from a store with `alice` and `bob` removes `alice` and keeps
`bob`. -/
theorem delete_frame_witness :
    List.lookup (ascii "bob") [(ascii "alice", ascii "AAAAAAAA")] = none ∧
    (cmdDelete.Run [(ascii "alice", ascii "AAAAAAAA")] [ascii "bob"]).store
      = [(ascii "alice", ascii "AAAAAAAA")] ∧
    ascii "bob" ≠ ascii "alice" ∧
    (cmdDelete.Run [(ascii "alice", ascii "AAAAAAAA"), (ascii "bob", ascii "BBBBBBBB")]
      [ascii "alice"]).store.lookup (ascii "bob")
      = List.lookup (ascii "bob")
          [(ascii "alice", ascii "AAAAAAAA"), (ascii "bob", ascii "BBBBBBBB")] :=
  ⟨by decide,
   (delete_frame [(ascii "alice", ascii "AAAAAAAA")] (ascii "bob")).2.1 (by decide),
   by decide,
   (delete_frame [(ascii "alice", ascii "AAAAAAAA"), (ascii "bob", ascii "BBBBBBBB")]
     (ascii "alice")).2.2.2.2.2 (ascii "bob") (by decide)⟩

/-- C13, counterexample: the file holds `{"alice":"JBSWY3DPEHPK3PXP"` with the closing
brace missing; it is not empty and its deserialization returns a syntax error, yet
`main` goes on with the empty store, and `set bob short` then replaces the file by
`{"bob":"SHORT==="}`. A file with the members `"alice":"JBSWY3DPEHPK3PXP"` and `"n":1`
gives a type error, and `main` goes on with the partially filled store. -/
theorem load_continues_on_corrupt_file :
    [0x7B] ++ ascii "\"alice\":\"JBSWY3DPEHPK3PXP\"" ≠ [] ∧
    Json.Unmarshal ([0x7B] ++ ascii "\"alice\":\"JBSWY3DPEHPK3PXP\"") []
      = Json.Decoded.syntaxError ∧
    loadConfig ([0x7B] ++ ascii "\"alice\":\"JBSWY3DPEHPK3PXP\"") = some [] ∧
    main Unicode.toUpperCase (some ([0x7B] ++ ascii "\"alice\":\"JBSWY3DPEHPK3PXP\""))
        (some (Command.set, [ascii "bob", ascii "short"])) 0
      = (Ending.ran ⟨[(ascii "bob", ascii "SHORT===")], [[(ascii "bob", ascii "SHORT===")]],
          Output.silent⟩, [0x7B] ++ ascii "\"bob\":\"SHORT===\"" ++ [0x7D]) ∧
    Json.Unmarshal ([0x7B] ++ ascii "\"alice\":\"JBSWY3DPEHPK3PXP\",\"n\":1" ++ [0x7D]) []
      = Json.Decoded.typeError [(ascii "n", []), (ascii "alice", ascii "JBSWY3DPEHPK3PXP")] ∧
    main Unicode.toUpperCase
        (some ([0x7B] ++ ascii "\"alice\":\"JBSWY3DPEHPK3PXP\",\"n\":1" ++ [0x7D]))
        (some (Command.delete, [ascii "alice"])) 0
      = (Ending.ran ⟨[(ascii "n", [])], [[(ascii "n", [])]], Output.silent⟩,
          [0x7B] ++ ascii "\"n\":\"\"" ++ [0x7D]) :=
  ⟨by decide, by decide, by decide, by decide, by decide, by decide⟩

/-- C13, amended: whenever the deserialization of the file returns an error (a syntax
error, or a type error on JSON that is not an object of strings), `main` does not fail:
the error is dropped and the run goes on with the store as the deserialization left it
(the empty store after a syntax error), so a `set` or `delete` then saves the store it
computes over the file, and `get` and `list` leave the file as it is. The syntax error
is returned exactly when the scanner rejects the bytes, and the empty file that `main`
creates on the first run is read through the same dropped error. -/
theorem load_drops_error (table : Nat → Nat) (file : Bytes) (args : List Bytes) (t : Int)
    (herr : (Json.Unmarshal file []).isError = true) :
    (∃ m, loadConfig file = some m ∧
      (Json.Unmarshal file [] = Json.Decoded.syntaxError → m = []) ∧
      (∀ m1, Json.Unmarshal file [] = Json.Decoded.typeError m1 → m = m1) ∧
      main table (some file) (some (Command.set, args)) t
        = (Ending.ran (cmdSet.Run table m args), Json.Marshal (cmdSet.Run table m args).store) ∧
      main table (some file) (some (Command.delete, args)) t
        = (Ending.ran (cmdDelete.Run m args), Json.Marshal (cmdDelete.Run m args).store) ∧
      main table (some file) (some (Command.get, args)) t
        = (Ending.ran (cmdGet.Run m args t), file) ∧
      main table (some file) (some (Command.list, args)) t
        = (Ending.ran (cmdList.Run m), file)) ∧
    (Json.Unmarshal file [] = Json.Decoded.syntaxError ↔ Json.checkValid file = false) ∧
    Json.Unmarshal [] [] = Json.Decoded.syntaxError ∧
    main table none (some (Command.set, args)) t
      = (Ending.ran (cmdSet.Run table [] args), Json.Marshal (cmdSet.Run table [] args).store) := by
  obtain ⟨m, hl, h1, h2⟩ := loadConfig_of_isError file herr
  have hl0 : loadConfig [] = some [] := by decide
  refine ⟨⟨m, hl, h1, h2, ?_, ?_, ?_, ?_⟩, Json.Unmarshal_syntaxError_iff file [],
    by decide, ?_⟩
  · simp only [main, Option.getD_some, hl, cmdSet_saved, writeConfig, List.foldl_cons,
      List.foldl_nil]
  · simp only [main, Option.getD_some, hl, cmdDelete_saved, writeConfig, List.foldl_cons,
      List.foldl_nil]
  · have hs : (cmdGet.Run m args t).saved = [] := by
      unfold cmdGet.Run
      split_ifs <;> rfl
    simp only [main, Option.getD_some, hl, hs, writeConfig, List.foldl_nil]
  · have hs : (cmdList.Run m).saved = [] := by
      unfold cmdList.Run
      split_ifs <;> rfl
    simp only [main, Option.getD_some, hl, hs, writeConfig, List.foldl_nil]
  · simp only [main, Option.getD_none, hl0, cmdSet_saved, writeConfig, List.foldl_cons,
      List.foldl_nil]

/-- Witness of C13: the file `{"alice":"JBSWY3DPEHPK3PXP"` without its closing brace
(a syntax error), and the file with the members `"alice":"JBSWY3DPEHPK3PXP"` and `"n":1`
(a type error). -/
theorem load_drops_error_witness :
    (Json.Unmarshal ([0x7B] ++ ascii "\"alice\":\"JBSWY3DPEHPK3PXP\"") []).isError = true ∧
    (∃ m, loadConfig ([0x7B] ++ ascii "\"alice\":\"JBSWY3DPEHPK3PXP\"") = some m ∧
      main Unicode.toUpperCase (some ([0x7B] ++ ascii "\"alice\":\"JBSWY3DPEHPK3PXP\""))
          (some (Command.set, [ascii "bob", ascii "short"])) 0
        = (Ending.ran (cmdSet.Run Unicode.toUpperCase m [ascii "bob", ascii "short"]),
            Json.Marshal (cmdSet.Run Unicode.toUpperCase m [ascii "bob", ascii "short"]).store)) ∧
    (Json.Unmarshal ([0x7B] ++ ascii "\"alice\":\"JBSWY3DPEHPK3PXP\",\"n\":1" ++ [0x7D])
      []).isError = true ∧
    (∃ m, loadConfig ([0x7B] ++ ascii "\"alice\":\"JBSWY3DPEHPK3PXP\",\"n\":1" ++ [0x7D])
        = some m ∧
      main Unicode.toUpperCase
          (some ([0x7B] ++ ascii "\"alice\":\"JBSWY3DPEHPK3PXP\",\"n\":1" ++ [0x7D]))
          (some (Command.delete, [ascii "alice"])) 0
        = (Ending.ran (cmdDelete.Run m [ascii "alice"]),
            Json.Marshal (cmdDelete.Run m [ascii "alice"]).store)) :=
  have h1 := (load_drops_error Unicode.toUpperCase
    ([0x7B] ++ ascii "\"alice\":\"JBSWY3DPEHPK3PXP\"") [ascii "bob", ascii "short"] 0
    (by decide)).1
  have h2 := (load_drops_error Unicode.toUpperCase
    ([0x7B] ++ ascii "\"alice\":\"JBSWY3DPEHPK3PXP\",\"n\":1" ++ [0x7D]) [ascii "alice"] 0
    (by decide)).1
  ⟨by decide, h1.elim fun m h => ⟨m, h.1, h.2.2.2.1⟩,
   by decide, h2.elim fun m h => ⟨m, h.1, h.2.2.2.2.1⟩⟩

/-- C14, counterexample: the account name is the single byte `0xFF`, which is not valid
UTF-8; `set` stores it, the encoder writes the name as the escape of U+FFFD, and the
map read back has the three-byte name U+FFFD, not the name stored. -/
theorem roundtrip_loses_invalid_name :
    (cmdSet.Run Unicode.toUpperCase [] [[0xFF], ascii "aaaaaaaa"]).store
      = [([0xFF], ascii "AAAAAAAA")] ∧
    Json.Marshal [([0xFF], ascii "AAAAAAAA")]
      = [0x7B] ++ ascii "\"\\ufffd\":\"AAAAAAAA\"" ++ [0x7D] ∧
    Json.Unmarshal (Json.Marshal [([0xFF], ascii "AAAAAAAA")]) []
      = Json.Decoded.ok [([0xEF, 0xBF, 0xBD], ascii "AAAAAAAA")] ∧
    List.lookup [0xFF] [([0xEF, 0xBF, 0xBD], ascii "AAAAAAAA")] = none ∧
    List.lookup [0xFF] [([0xFF], ascii "AAAAAAAA")] = some (ascii "AAAAAAAA") :=
  ⟨by decide, by decide, by decide, by decide, by decide⟩

/-- C14, amended: for every store (one entry per name) whose names and secrets are valid
UTF-8, the bytes `updateConfig` writes are read back by the load step of `main` without
error as a map with the same secret for every name, that is with exactly the same
(name, secret) pairs. -/
theorem save_load_roundtrip (store : Store) (file : Bytes)
    (hnd : (store.map Prod.fst).Nodup)
    (hvalid : ∀ e ∈ store, Utf8.ValidString e.1 = true ∧ Utf8.ValidString e.2 = true) :
    writeConfig file (updateConfig [] store) = Json.Marshal store ∧
    ∃ loaded, Json.Unmarshal (Json.Marshal store) [] = Json.Decoded.ok loaded ∧
      loadConfig (writeConfig file (updateConfig [] store)) = some loaded ∧
      (∀ k : Bytes, loaded.lookup k = store.lookup k) ∧
      ∀ k v : Bytes, (k, v) ∈ loaded ↔ (k, v) ∈ store := by
  obtain ⟨loaded, h1, _, h3, h4⟩ := Json.roundtrip store hnd hvalid
  refine ⟨rfl, loaded, h1, ?_, h3, h4⟩
  show loadConfig (Json.Marshal store) = some loaded
  simp [loadConfig, h1]

/-- Witness of C14: a store with the three accounts `alice`, `bob` and `carol`. -/
theorem save_load_roundtrip_witness :
    ∃ loaded,
      Json.Unmarshal (Json.Marshal [(ascii "alice", ascii "JBSWY3DPEHPK3PXP"),
        (ascii "bob", ascii "SHORT==="), (ascii "carol", ascii "MZXW6YTB")]) []
        = Json.Decoded.ok loaded ∧
      loadConfig (writeConfig [] (updateConfig [] [(ascii "alice", ascii "JBSWY3DPEHPK3PXP"),
        (ascii "bob", ascii "SHORT==="), (ascii "carol", ascii "MZXW6YTB")])) = some loaded ∧
      (∀ k : Bytes, loaded.lookup k = List.lookup k [(ascii "alice", ascii "JBSWY3DPEHPK3PXP"),
        (ascii "bob", ascii "SHORT==="), (ascii "carol", ascii "MZXW6YTB")]) ∧
      ∀ k v : Bytes, (k, v) ∈ loaded ↔ (k, v) ∈ [(ascii "alice", ascii "JBSWY3DPEHPK3PXP"),
        (ascii "bob", ascii "SHORT==="), (ascii "carol", ascii "MZXW6YTB")] :=
  (save_load_roundtrip [(ascii "alice", ascii "JBSWY3DPEHPK3PXP"),
    (ascii "bob", ascii "SHORT==="), (ascii "carol", ascii "MZXW6YTB")] []
    (by decide) (by decide)).2

/-- C15: for every 20-byte digest, `offset = digest[19] & 0x0F` is at most 15, so
`offset + 4 <= 20` and the slice `digest[offset : offset+4]` has its four bytes; the
number `toUint32` reads after the mask `0x7F` is the exact big-endian sum (no `uint32`
wrap-around), is below `2 ^ 31`, and the truncation returns a result. -/
theorem truncate_in_bounds (hash : Bytes) (hl : hash.length = 20) (hb : IsBytes hash) :
    hash[hash.length - 1]? = some (hash.getD 19 0) ∧
    (hash.getD 19 0 &&& 0x0F) ≤ 15 ∧
    (hash.getD 19 0 &&& 0x0F) + 4 ≤ hash.length ∧
    ((hash.drop (hash.getD 19 0 &&& 0x0F)).take 4).length = 4 ∧
    (∃ number,
      toUint32 (((hash.drop (hash.getD 19 0 &&& 0x0F)).take 4).set 0
        (((hash.drop (hash.getD 19 0 &&& 0x0F)).take 4).getD 0 0 &&& 0x7F)) = some number ∧
      number = (hash.getD (hash.getD 19 0 &&& 0x0F) 0 &&& 0x7F) * 2 ^ 24
        + hash.getD ((hash.getD 19 0 &&& 0x0F) + 1) 0 * 2 ^ 16
        + hash.getD ((hash.getD 19 0 &&& 0x0F) + 2) 0 * 2 ^ 8
        + hash.getD ((hash.getD 19 0 &&& 0x0F) + 3) 0 ∧
      number < 2 ^ 31) ∧
    ∃ pwd, truncate hash = some pwd := by
  have hoff : hash.getD 19 0 &&& 0x0F ≤ 15 := Nat.and_le_right
  have hle : (hash.getD 19 0 &&& 0x0F) + 4 ≤ hash.length := by omega
  have hparts := hashParts_eq hash hb _ hle
  have hmask : hash.getD (hash.getD 19 0 &&& 0x0F) 0 &&& 0x7F < 128 :=
    Nat.lt_succ_of_le Nat.and_le_right
  have h1 := (getD_of_lt hash hb ((hash.getD 19 0 &&& 0x0F) + 1) (by omega)).2
  have h2 := (getD_of_lt hash hb ((hash.getD 19 0 &&& 0x0F) + 2) (by omega)).2
  have h3 := (getD_of_lt hash hb ((hash.getD 19 0 &&& 0x0F) + 3) (by omega)).2
  refine ⟨?_, hoff, hle, ?_, ?_, _, truncate_eq_dynamicTruncation hash hl hb⟩
  · have h19 := (getD_of_lt hash hb 19 (by omega)).1
    rw [hl]
    exact h19
  · rw [hparts]
    rfl
  · refine ⟨_, ?_, rfl, ?_⟩
    · rw [hparts]
      simp only [List.getD_cons_zero, List.set_cons_zero]
      exact toUint32_four _ _ _ _ hmask h1 h2 h3
    · omega

/-- Witness of C15: the digest whose bytes are `0, 1, ..., 19`. -/
theorem truncate_in_bounds_witness :
    (List.range 20).length = 20 ∧ IsBytes (List.range 20) ∧
    ∃ pwd, truncate (List.range 20) = some pwd :=
  ⟨by decide, by decide, (truncate_in_bounds (List.range 20) (by decide) (by decide)).2.2.2.2.2⟩

/-- C16: at every instant at or after the epoch the seconds remaining lie in `1..30`;
when more than one second remains, a second later one second less remains and the
counter is the same; when one second remains, a second later 30 remain and the counter
has advanced by one. -/
theorem countdown_window_coupled (t : Int) (h0 : 0 ≤ t) :
    secondsRemaining t = 30 - t % 30 ∧ timeCounter t = t / 30 ∧
    1 ≤ secondsRemaining t ∧ secondsRemaining t ≤ 30 ∧
    (1 < secondsRemaining t →
      secondsRemaining (t + 1) = secondsRemaining t - 1 ∧ timeCounter (t + 1) = timeCounter t) ∧
    (secondsRemaining t = 1 →
      secondsRemaining (t + 1) = 30 ∧ timeCounter (t + 1) = timeCounter t + 1) := by
  have hr := secondsRemaining_of_nonneg t h0
  have hs := secondsRemaining_succ t h0
  have hc := timeCounter_succ t h0
  refine ⟨hr, timeCounter_of_nonneg t h0, by omega, by omega, ?_, ?_⟩
  · intro h
    have : t % 30 < 29 := by omega
    exact ⟨hs.1 this, hc.1 this⟩
  · intro h
    have : t % 30 = 29 := by omega
    exact ⟨hs.2 this, hc.2 this⟩

/-- Witness of C16: the seconds 58 (two seconds remain) and 59 (one second remains). -/
theorem countdown_window_coupled_witness :
    ((0 : Int) ≤ 58 ∧ 1 < secondsRemaining 58 ∧
      secondsRemaining (58 + 1) = secondsRemaining 58 - 1 ∧
      timeCounter (58 + 1) = timeCounter 58) ∧
    ((0 : Int) ≤ 59 ∧ secondsRemaining 59 = 1 ∧ secondsRemaining (59 + 1) = 30 ∧
      timeCounter (59 + 1) = timeCounter 59 + 1) :=
  ⟨⟨by decide, by decide,
    (countdown_window_coupled 58 (by decide)).2.2.2.2.1 (by decide)⟩,
   ⟨by decide, by decide,
    (countdown_window_coupled 59 (by decide)).2.2.2.2.2 (by decide)⟩⟩

/-- C17: every run of the `set` command and every run of the `delete` command, with any
arguments, performs exactly one save, and the map saved is the store after the command;
so it is when nothing changes, as in deleting an absent name, setting a secret again or
calling `set` with too few arguments. -/
theorem set_delete_save_once (table : Nat → Nat) (store : Store) (args : List Bytes) :
    (cmdSet.Run table store args).saved = [(cmdSet.Run table store args).store] ∧
    (cmdDelete.Run store args).saved = [(cmdDelete.Run store args).store] ∧
    (cmdSet.Run table store args).saved.length = 1 ∧
    (cmdDelete.Run store args).saved.length = 1 ∧
    (cmdDelete.Run [] [ascii "nobody"]).saved = [[]] ∧
    (cmdSet.Run table [(ascii "bob", ascii "SHORT===")] [ascii "bob", ascii "short"]).saved
      = [[(ascii "bob", ascii "SHORT===")]] ∧
    (cmdSet.Run table store [ascii "bob"]).saved = [store] := by
  have hs : (cmdSet.Run table store args).saved = [(cmdSet.Run table store args).store] := by
    unfold cmdSet.Run
    split <;> rfl
  have hd : (cmdDelete.Run store args).saved = [(cmdDelete.Run store args).store] := by
    unfold cmdDelete.Run
    split <;> rfl
  refine ⟨hs, hd, by rw [hs]; rfl, by rw [hd]; rfl, by decide, ?_, by rfl⟩
  have hn : normalize table [ascii "short"] = ascii "SHORT===" := by
    rw [normalize_ascii table _ (by decide)]
    decide
  simp only [cmdSet.Run, updateConfig]
  simp only [List.length_cons, List.length_nil, List.drop_succ_cons, List.drop_zero,
    List.headD_cons, hn]
  decide

/-- C18: `set n tokens...` leaves the entry of every other name `m` as it was (the same
secret, or still absent), and the store then holds exactly one entry for `n`, the new
normalized secret, also when `n` had an entry before. -/
theorem set_touches_only_own (table : Nat → Nat) (store : Store) (n m : Bytes)
    (tokens : List Bytes) (hne : tokens ≠ []) (hmn : m ≠ n) :
    (cmdSet.Run table store (n :: tokens)).store.lookup m = store.lookup m ∧
    (cmdSet.Run table store (n :: tokens)).store.lookup n = some (normalize table tokens) ∧
    (cmdSet.Run table store (n :: tokens)).store.filter (fun p => decide (p.1 = n))
      = [(n, normalize table tokens)] := by
  rw [cmdSet_store table store n tokens hne]
  refine ⟨Store.lookup_set_ne store n m _ hmn, Store.lookup_set_self store n _, ?_⟩
  simp only [Store.set, List.filter_cons, decide_True, if_true, Store.filter_key_delete]

/-- Witness of C18: setting `alice` again on a store that holds `alice` and `bob`. -/
theorem set_touches_only_own_witness :
    [ascii "abcdefgh"] ≠ [] ∧ ascii "bob" ≠ ascii "alice" ∧
    (cmdSet.Run Unicode.toUpperCase
      [(ascii "alice", ascii "AAAAAAAA"), (ascii "bob", ascii "BBBBBBBB")]
      [ascii "alice", ascii "abcdefgh"]).store.filter (fun p => decide (p.1 = ascii "alice"))
      = [(ascii "alice", normalize Unicode.toUpperCase [ascii "abcdefgh"])] ∧
    normalize Unicode.toUpperCase [ascii "abcdefgh"] = ascii "ABCDEFGH" :=
  ⟨by simp, by decide,
   (set_touches_only_own Unicode.toUpperCase
     [(ascii "alice", ascii "AAAAAAAA"), (ascii "bob", ascii "BBBBBBBB")]
     (ascii "alice") (ascii "bob") [ascii "abcdefgh"] (by simp) (by decide)).2.2,
   by decide⟩

/-- C19, the code at the failing input: the secret `ı` (the two UTF-8 bytes of U+0131) is
normalized to `I======`, of length 7, and normalizing that again appends one more `=`,
so registering the account again with the secret read back changes the stored value. -/
theorem normalize_twice_dotless_i :
    normalize Unicode.toUpperCase [[0xC4, 0xB1]] = ascii "I======" ∧
    normalize Unicode.toUpperCase [normalize Unicode.toUpperCase [[0xC4, 0xB1]]]
      = ascii "I=======" ∧
    (cmdSet.Run Unicode.toUpperCase
      (cmdSet.Run Unicode.toUpperCase [] [ascii "x", [0xC4, 0xB1]]).store
      [ascii "x", ((cmdSet.Run Unicode.toUpperCase [] [ascii "x", [0xC4, 0xB1]]).store.get
        (ascii "x"))]).store.lookup (ascii "x") = some (ascii "I=======") :=
  ⟨by decide, by decide, by decide⟩

end TwoFAuth
